import Mathlib

/-!
# Verification of the Zaphod cartridge-import pipeline specification

A shallow embedding, in Lean 4, of the parts of the `zaphod` repository
(`import_cartridge.py`, `asset_registry.py`, `rubric_dedup.py`) referenced by
the frozen claims, together with theorems settling each claim.

Conventions used throughout:
* Python strings are `String`; byte files are modelled by their content string.
* Cryptographic digests (`md5`/`sha256` truncations) are modelled by the
  digested canonical form itself: the code relies on digest equality being
  content equality (collisions are outside the model).
* Fallible Python code (code that can raise) is modelled in `Except`;
  a function that catches all exceptions internally is total.
* Regex character classes are modelled over their ASCII subset.
-/

namespace Zaphod

/-! ## Generic helpers -/

/-- Substring test: does `sub` occur inside `hay`?  Models Python's
`sub in hay` on strings. -/
def strContains (hay sub : String) : Bool :=
  go hay.toList sub.toList
where
  go : List Char → List Char → Bool
    | _, [] => true
    | [], _ :: _ => false
    | c :: cs, sub => (sub.isPrefixOf (c :: cs)) || go cs sub

instance {ε α : Type} [DecidableEq ε] [DecidableEq α] : DecidableEq (Except ε α) := fun a b =>
  match a, b with
  | .error e, .error f =>
    if h : e = f then isTrue (by rw [h]) else isFalse (fun hh => by cases hh; exact h rfl)
  | .error _, .ok _ => isFalse (fun hh => by cases hh)
  | .ok _, .error _ => isFalse (fun hh => by cases hh)
  | .ok a, .ok b =>
    if h : a = b then isTrue (by rw [h]) else isFalse (fun hh => by cases hh; exact h rfl)

/-- Python `str.lower()`, over the ASCII range. -/
def strLower (s : String) : String := String.mk (s.toList.map Char.toLower)

/-- Python `str.endswith(suffix)`. -/
def strEndsWith (s suffix : String) : Bool := suffix.toList.isSuffixOf s.toList

/-- Replace every (non-overlapping, leftmost-first) occurrence of `pat` in
`l` by `rep`: Python `str.replace`. -/
def replaceList (pat rep : List Char) (l : List Char) : List Char :=
  if h : pat.isPrefixOf l ∧ pat ≠ [] then
    rep ++ replaceList pat rep (l.drop pat.length)
  else
    match l with
    | [] => []
    | c :: cs => c :: replaceList pat rep cs
termination_by l.length
decreasing_by
  · have hlen : 0 < pat.length := List.length_pos.mpr h.2
    have hle : pat.length ≤ l.length := (List.isPrefixOf_iff_prefix.mp h.1).length_le
    simp only [List.length_drop]
    omega
  · simp

/-- Python `str.replace(pat, rep)` on strings. -/
def strReplace (s pat rep : String) : String :=
  String.mk (replaceList pat.toList rep.toList s.toList)

/-- Worker for `collapseRuns`: the flag records whether the previous character
was part of a (already replaced) run of characters satisfying `p`. -/
def collapseGo (p : Char → Bool) (r : Char) : Bool → List Char → List Char
  | _, [] => []
  | inRun, c :: cs =>
    if p c then
      if inRun then collapseGo p r true cs
      else r :: collapseGo p r true cs
    else c :: collapseGo p r false cs

/-- Replace every maximal run of characters satisfying `p` by the single
character `r`.  `collapseRuns p '-'` models the regex substitution
`re.sub(p_class + "+", "-", s)`. -/
def collapseRuns (p : Char → Bool) (r : Char) (l : List Char) : List Char :=
  collapseGo p r false l

/-- Characters removed by `sanitize_filename`'s first substitution:
`re.sub(r'[<>:"/\\|?*]', '', name)`. -/
def invalidChar (c : Char) : Bool :=
  c == '<' || c == '>' || c == ':' || c == '"' || c == '/' ||
  c == '\\' || c == '|' || c == '?' || c == '*'

/-- Python's `\s` class, restricted to its ASCII members. -/
def pySpace (c : Char) : Bool :=
  c == ' ' || c == '\t' || c == '\n' || c == '\x0d' ||
  c == '\x0b' || c == '\x0c'

/-- Python `str.strip('-')` on a character list. -/
def stripHyphens (l : List Char) : List Char :=
  (l.dropWhile (· == '-')).rdropWhile (· == '-')

/-! ## `sanitize_filename` (import_cartridge.py, lines 1615-1628) -/

/-- `sanitize_filename(name)`: remove invalid characters, replace whitespace
runs by hyphens, collapse hyphen runs, strip hyphens at the ends, truncate to
100 characters, and fall back to `"untitled"` when empty. -/
def sanitize_filename (name : String) : String :=
  let cs := name.toList.filter (fun c => !invalidChar c)
  let cs := collapseRuns pySpace '-' cs
  let cs := collapseRuns (· == '-') '-' cs
  let cs := stripHyphens cs
  let cs := cs.take 100
  if cs.isEmpty then "untitled" else String.mk cs

/-! ### Supporting lemmas about `collapseRuns` and `stripHyphens` -/

theorem mem_collapseGo {p : Char → Bool} {r c : Char} {l : List Char} :
    ∀ {b : Bool}, c ∈ collapseGo p r b l → c = r ∨ (c ∈ l ∧ p c = false) := by
  induction l with
  | nil => intro b h; simp [collapseGo] at h
  | cons x xs ih =>
    intro b h
    rw [collapseGo] at h
    by_cases hx : p x
    · rw [if_pos hx] at h
      cases b with
      | true =>
        rcases ih h with h | ⟨hmem, hpc⟩
        · exact Or.inl h
        · exact Or.inr ⟨List.mem_cons_of_mem _ hmem, hpc⟩
      | false =>
        rcases List.mem_cons.mp h with h | h
        · exact Or.inl h
        · rcases ih h with h | ⟨hmem, hpc⟩
          · exact Or.inl h
          · exact Or.inr ⟨List.mem_cons_of_mem _ hmem, hpc⟩
    · rw [if_neg hx] at h
      rcases List.mem_cons.mp h with h | h
      · subst h
        exact Or.inr ⟨List.mem_cons_self _ _, Bool.not_eq_true _ ▸ hx⟩
      · rcases ih h with h | ⟨hmem, hpc⟩
        · exact Or.inl h
        · exact Or.inr ⟨List.mem_cons_of_mem _ hmem, hpc⟩

theorem mem_collapseRuns {p : Char → Bool} {r c : Char} {l : List Char}
    (h : c ∈ collapseRuns p r l) : c = r ∨ (c ∈ l ∧ p c = false) :=
  mem_collapseGo h

/-- In the in-run state, the first character emitted never satisfies `p`. -/
theorem head?_collapseGo_true {p : Char → Bool} {r c : Char} : ∀ {l : List Char},
    (collapseGo p r true l).head? = some c → p c = false := by
  intro l
  induction l with
  | nil => intro h; simp [collapseGo] at h
  | cons x xs ih =>
    intro h
    rw [collapseGo] at h
    by_cases hx : p x
    · rw [if_pos hx, if_pos rfl] at h
      exact ih h
    · rw [if_neg hx] at h
      simp at h
      rw [← h]
      simpa using hx

/-- Every adjacent pair in the output of `collapseGo` has at least one
member not satisfying `p`: a collapsed run marker is always followed by a
non-`p` character. -/
theorem chain'_collapseGo (p : Char → Bool) (r : Char) : ∀ (l : List Char) (b : Bool),
    List.Chain' (fun a b => p a = false ∨ p b = false) (collapseGo p r b l) := by
  intro l
  induction l with
  | nil => intro b; simp [collapseGo]
  | cons x xs ih =>
    intro b
    rw [collapseGo]
    by_cases hx : p x
    · rw [if_pos hx]
      cases b with
      | true => exact ih true
      | false =>
        simp only [Bool.false_eq_true, if_false]
        apply List.Chain'.cons'
        · exact ih true
        · intro y hy
          exact Or.inr (head?_collapseGo_true hy)
    · rw [if_neg hx]
      apply List.Chain'.cons'
      · exact ih false
      · intro y _
        exact Or.inl (by simpa using hx)

theorem chain'_collapseRuns (p : Char → Bool) (r : Char) (l : List Char) :
    List.Chain' (fun a b => p a = false ∨ p b = false) (collapseRuns p r l) :=
  chain'_collapseGo p r l false

theorem noDoubleHyphen_of_chain' {l : List Char}
    (h : List.Chain' (fun a b => (a == '-') = false ∨ (b == '-') = false) l) :
    ¬ ['-', '-'] <:+: l := by
  intro hinf
  obtain ⟨s, t, hst⟩ := hinf
  subst hst
  have hsub : ['-', '-'] <:+: s ++ ['-', '-'] ++ t := ⟨s, t, rfl⟩
  have h2 := h.infix hsub
  simp [List.chain'_cons] at h2

theorem head?_of_leading {α : Type} {l l' : List α} {c : α}
    (h : l' <+: l) (hc : l'.head? = some c) : l.head? = some c := by
  obtain ⟨t, rfl⟩ := h
  cases l' with
  | nil => simp at hc
  | cons x xs => simpa using hc

theorem stripHyphens_within (l : List Char) : stripHyphens l <:+: l := by
  unfold stripHyphens
  exact (List.rdropWhile_prefix _ _).isInfix.trans (List.dropWhile_suffix _).isInfix

theorem stripHyphens_head? {l : List Char} {c : Char}
    (hc : (stripHyphens l).head? = some c) : c ≠ '-' := by
  have h1 : (l.dropWhile (· == '-')).head? = some c :=
    head?_of_leading (List.rdropWhile_prefix _ _) hc
  have := List.head?_dropWhile_not (· == '-') l
  rw [h1] at this
  simpa using this

theorem stripHyphens_getLast? {l : List Char} {c : Char}
    (hc : (stripHyphens l).getLast? = some c) : c ≠ '-' := by
  unfold stripHyphens at hc
  have hne : (l.dropWhile (· == '-')).rdropWhile (· == '-') ≠ [] := by
    intro h; rw [h] at hc; simp at hc
  have hlast := List.rdropWhile_last_not (p := (· == '-'))
    (l := l.dropWhile (· == '-')) hne
  have h2 := List.getLast?_eq_getLast_of_ne_nil
    (l := (l.dropWhile (· == '-')).rdropWhile (· == '-')) hne
  rw [hc] at h2
  have h3 : ((l.dropWhile (· == '-')).rdropWhile (· == '-')).getLast hne = c :=
    (Option.some_inj.mp h2).symm
  rw [h3] at hlast
  intro h
  subst h
  exact hlast (by simp)

theorem toList_mk (l : List Char) : (String.mk l).toList = l := rfl

theorem length_mk (l : List Char) : (String.mk l).length = l.length := rfl

/-- Properties of the tail of the sanitizing pipeline (strip + truncate),
stated over the already-collapsed list `l2`. -/
theorem sanitizeTail_spec (l2 : List Char) (P : Char → Prop)
    (hchars : ∀ c ∈ l2, c = '-' ∨ P c)
    (hch : List.Chain' (fun a b => (a == '-') = false ∨ (b == '-') = false) l2) :
    (∀ c ∈ (stripHyphens l2).take 100, c = '-' ∨ P c) ∧
    (¬ ['-', '-'] <:+: (stripHyphens l2).take 100) ∧
    (∀ c, ((stripHyphens l2).take 100).head? = some c → c ≠ '-') ∧
    ((stripHyphens l2).take 100).length ≤ 100 ∧
    ((stripHyphens l2).length ≤ 100 →
      ∀ c, ((stripHyphens l2).take 100).getLast? = some c → c ≠ '-') ∧
    (¬ (stripHyphens l2).length ≤ 100 → ((stripHyphens l2).take 100).length = 100) ∧
    ((∀ c ∈ l2, (c == '-') = true) → (stripHyphens l2).take 100 = []) := by
  have hwithin : (stripHyphens l2).take 100 <:+: l2 :=
    ((List.take_prefix 100 (stripHyphens l2)).isInfix).trans (stripHyphens_within l2)
  refine ⟨?_, ?_, ?_, ?_, ?_, ?_, ?_⟩
  · intro c hc
    exact hchars c (hwithin.sublist.mem hc)
  · have hchain := hch.infix hwithin
    exact noDoubleHyphen_of_chain' hchain
  · intro c hc
    exact stripHyphens_head? (head?_of_leading (List.take_prefix 100 _) hc)
  · simp [List.length_take]
  · intro hlen c hc
    rw [List.take_of_length_le hlen] at hc
    exact stripHyphens_getLast? hc
  · intro hlen
    rw [List.length_take]
    omega
  · intro hall
    have : stripHyphens l2 = [] := by
      unfold stripHyphens
      rw [List.dropWhile_eq_nil_iff.mpr hall, List.rdropWhile_nil]
    rw [this, List.take_nil]

/-- C10 (amended). For every input, `sanitize_filename` returns a non-empty
string of length at most 100 containing none of the nine reserved characters
and no whitespace, with no run of two hyphens and no leading hyphen; an empty
or all-invalid input yields `"untitled"`.  Unlike the original claim, a
trailing hyphen is possible, but only when the result was truncated to
exactly 100 characters (the code strips hyphens before truncating). -/
theorem C10_sanitize_filename_amended (name : String) :
    sanitize_filename name ≠ "" ∧
    (sanitize_filename name).length ≤ 100 ∧
    (∀ c ∈ (sanitize_filename name).toList, invalidChar c = false ∧ pySpace c = false) ∧
    (¬ ['-', '-'] <:+: (sanitize_filename name).toList) ∧
    (∀ c, (sanitize_filename name).toList.head? = some c → c ≠ '-') ∧
    ((sanitize_filename name).length = 100 ∨
      ∀ c, (sanitize_filename name).toList.getLast? = some c → c ≠ '-') ∧
    ((∀ c ∈ name.toList, invalidChar c = true ∨ pySpace c = true ∨ c = '-') →
      sanitize_filename name = "untitled") := by
  have hchars : ∀ c ∈ collapseRuns (· == '-') '-'
      (collapseRuns pySpace '-' (name.toList.filter (fun c => !invalidChar c))),
      c = '-' ∨ (c ∈ name.toList ∧ invalidChar c = false ∧ pySpace c = false) := by
    intro c hc
    rcases mem_collapseRuns hc with h | ⟨hc1, _⟩
    · exact Or.inl h
    · rcases mem_collapseRuns hc1 with h | ⟨hc0, hcs⟩
      · exact Or.inl h
      · have := List.mem_filter.mp hc0
        exact Or.inr ⟨this.1, by simpa using this.2, hcs⟩
  have hmain := sanitizeTail_spec
    (collapseRuns (· == '-') '-'
      (collapseRuns pySpace '-' (name.toList.filter (fun c => !invalidChar c))))
    (fun c => c ∈ name.toList ∧ invalidChar c = false ∧ pySpace c = false)
    hchars
    (chain'_collapseRuns _ '-' _)
  obtain ⟨hP, hDD, hHd, hLen, hLast, hTrunc, hEmpty⟩ := hmain
  unfold sanitize_filename
  by_cases hE : ((stripHyphens (collapseRuns (· == '-') '-'
      (collapseRuns pySpace '-' (name.toList.filter (fun c => !invalidChar c))))).take 100).isEmpty
  · rw [if_pos hE]
    refine ⟨by decide, by decide, by decide, by decide, ?_, ?_, fun _ => rfl⟩
    · intro c hc
      have h1 : ("untitled" : String).toList.head? = some 'u' := by decide
      rw [h1] at hc
      have : c = 'u' := (Option.some_inj.mp hc).symm
      subst this; decide
    · right
      intro c hc
      have h1 : ("untitled" : String).toList.getLast? = some 'd' := by decide
      rw [h1] at hc
      have : c = 'd' := (Option.some_inj.mp hc).symm
      subst this; decide
  · rw [if_neg hE]
    have hne : (stripHyphens (collapseRuns (· == '-') '-'
        (collapseRuns pySpace '-' (name.toList.filter (fun c => !invalidChar c))))).take 100 ≠ [] := by
      intro h; rw [h] at hE; simp at hE
    refine ⟨?_, ?_, ?_, ?_, ?_, ?_, ?_⟩
    · intro h
      exact hne (by simpa [String.ext_iff] using h)
    · rw [length_mk]; exact hLen
    · intro c hc
      rw [toList_mk] at hc
      rcases hP c hc with h | ⟨_, hinv, hsp⟩
      · subst h; exact ⟨by decide, by decide⟩
      · exact ⟨hinv, hsp⟩
    · rw [toList_mk]; exact hDD
    · intro c hc
      rw [toList_mk] at hc
      exact hHd c hc
    · by_cases hlen : (stripHyphens (collapseRuns (· == '-') '-'
          (collapseRuns pySpace '-' (name.toList.filter (fun c => !invalidChar c))))).length ≤ 100
      · right
        intro c hc
        rw [toList_mk] at hc
        exact hLast hlen c hc
      · left
        rw [length_mk]
        exact hTrunc hlen
    · intro hall
      exfalso
      apply hne
      apply hEmpty
      intro c hc
      rcases hchars c hc with h | ⟨hmem, hinv, hsp⟩
      · simp [h]
      · rcases hall c hmem with h | h | h
        · rw [hinv] at h; exact absurd h (by simp)
        · rw [hsp] at h; exact absurd h (by simp)
        · simp [h]

/-- C10 counterexample input: 99 `a`s followed by `" b"`; sanitizing yields
99 `a`s followed by a hyphen — a trailing hyphen, contradicting the claim. -/
def c10Input : String := String.mk (List.replicate 99 'a' ++ [' ', 'b'])

/-- C10 counterexample: the sanitized name ends in a hyphen (the hyphen strip
happens before the 100-character truncation), falsifying the claim that no
output ever has a trailing hyphen. -/
theorem C10_sanitize_filename_counterexample :
    (sanitize_filename c10Input).toList.getLast? = some '-' ∧
    sanitize_filename c10Input = String.mk (List.replicate 99 'a' ++ ['-']) := by
  constructor <;> decide

/-- C10 witness: the amended theorem applied at concrete inputs, discharging
the all-invalid-input hypothesis. -/
theorem C10_sanitize_filename_amended_witness :
    sanitize_filename (String.mk ['<', '>', ':']) = "untitled" ∧
    sanitize_filename "Hello  World" ≠ "" :=
  ⟨(C10_sanitize_filename_amended (String.mk ['<', '>', ':'])).2.2.2.2.2.2 (by decide),
   (C10_sanitize_filename_amended "Hello  World").1⟩

/-! ## Resource model and classification (import_cartridge.py, lines 90-152 and 552-586)

XML payload files are modelled by their parse results: a `FileEntry` is either
unreadable (any attempt to read or parse it raises an `OSError`), or readable
with a raw text (what `read_text` returns) and a parse outcome (what
`defusedxml` parsing of it yields).  Parsing a readable file of the wrong kind
yields no recognised fields, which the per-kind parsers return as their empty
result.  The HTML-to-Markdown converter and the HTML title heuristic are the
black-box collaborators of the spec; they are passed in as parameters. -/

/-- A value stored in a loosely-typed Python metadata dict. -/
inductive MetaVal where
  | s (v : String)
  | f (v : Int)
  | ls (v : List String)
deriving DecidableEq

/-- A string-keyed, insertion-ordered metadata dict. -/
abbrev Metadata := List (String × MetaVal)

/-- Python dict assignment `d[k] = v`: update in place, else append. -/
def assocUpd {α : Type} (l : List (String × α)) (k : String) (v : α) : List (String × α) :=
  if l.any (fun kv => kv.1 = k) then
    l.map (fun kv => if kv.1 = k then (k, v) else kv)
  else l ++ [(k, v)]

/-- A QTI question record (`{number, stem, type, answers, points}`). -/
structure Question where
  number : Nat
  stem : String
  qtype : String
  answers : List (String × Bool)
  points : Int
deriving DecidableEq

/-- The parse outcome of an XML payload file. -/
inductive Parsed where
  | malformed
  | asg (m : Metadata)
  | rub (r : Option Metadata)
  | quizDoc (hasAssessment : Bool) (title : Option String)
      (qmeta : List (String × String)) (description : String)
      (questions : List Question)
deriving DecidableEq

/-- A file in the extracted cartridge tree. -/
structure FileEntry where
  readable : Bool
  raw : String := ""
  parsed : Parsed := .malformed
deriving DecidableEq

/-- The extracted scratch tree: path (relative to the scratch dir) to file. -/
abbrev FS := String → Option FileEntry

/-- Black-box collaborators: `convert_canvas_html_to_markdown` (wrapped by
`html_to_markdown`) and `extract_title_from_html`. -/
structure Conv where
  h2m : String → String
  extractTitle : String → Option String

/-- `ResourceItem` dataclass. -/
structure ResourceItem where
  identifier : String
  resource_type : String
  href : String
  title : String := ""
  files : List String := []
deriving DecidableEq

/-- `ContentItem` dataclass. -/
structure ContentItem where
  identifier : String
  title : String
  item_type : String
  content : String := ""
  metadata : Metadata := []
  module_path : String := ""
  position : Nat := 0
  rubric : Option Metadata := none
deriving DecidableEq

/-- `QuizItem` dataclass. -/
structure QuizItem where
  identifier : String
  title : String
  questions : List Question := []
  metadata : List (String × String) := []
  module_path : String := ""
  position : Nat := 0
deriving DecidableEq

/-- `ModuleItem` dataclass. -/
structure ModuleItem where
  identifier : String
  title : String
  position : Nat
  items : List String := []
deriving DecidableEq

/-- `QuestionBankItem` dataclass. -/
structure QuestionBankItem where
  identifier : String
  title : String
  questions : List Question := []
deriving DecidableEq

/-- `CartridgeImport` dataclass. -/
structure CartridgeImport where
  title : String
  content_items : List ContentItem := []
  quizzes : List QuizItem := []
  question_banks : List QuestionBankItem := []
  modules : List ModuleItem := []
  assets : List (String × String) := []
  shared_rubrics : List (String × Metadata) := []
deriving DecidableEq

/-- `is_page_resource`: `"webcontent" in resource.resource_type.lower()`. -/
def is_page_resource (r : ResourceItem) : Bool :=
  strContains (strLower r.resource_type) "webcontent"

/-- `is_assignment_resource`: type mentions assignment or
learning-application-resource, or some file path ends in `assignment.xml`. -/
def is_assignment_resource (r : ResourceItem) : Bool :=
  strContains (strLower r.resource_type) "assignment" ||
  strContains (strLower r.resource_type) "learning-application-resource" ||
  r.files.any (fun f => strEndsWith f "assignment.xml")

/-- `is_quiz_resource`. -/
def is_quiz_resource (r : ResourceItem) : Bool :=
  strContains (strLower r.resource_type) "assessment" ||
  strContains (strLower r.resource_type) "imsqti"

/-- `is_link_resource`. -/
def is_link_resource (r : ResourceItem) : Bool :=
  strContains (strLower r.resource_type) "imswl" ||
  strContains (strLower r.resource_type) "weblink"

/-- `is_asset_resource`: never an assignment; else `associatedcontent` in the
type, or the type is exactly `webcontent`. -/
def is_asset_resource (r : ResourceItem) : Bool :=
  if is_assignment_resource r then false
  else strContains (strLower r.resource_type) "associatedcontent" ||
       r.resource_type == "webcontent"

inductive RClass where
  | page | assignment | quiz | link | asset
deriving DecidableEq

/-- The dispatch order of `process_resources` (lines 511-541): page is tested
first, then assignment, quiz, link, asset; anything else is ignored. -/
def classify (r : ResourceItem) : Option RClass :=
  if is_page_resource r then some .page
  else if is_assignment_resource r then some .assignment
  else if is_quiz_resource r then some .quiz
  else if is_link_resource r then some .link
  else if is_asset_resource r then some .asset
  else none

/-! ## Content transformation (import_cartridge.py, lines 593-1224) -/

/-- Python `a or b` for strings: the first non-empty one. -/
def pyOr (a b : String) : String := if a ≠ "" then a else b

/-- The HTML load of `process_page` (lines 602-606): when the `href` names an
existing file, `read_text` is called on it and can raise. -/
def pageHtml (fs : FS) (r : ResourceItem) : Except Unit String :=
  if r.href ≠ "" then
    match fs r.href with
    | some e => if e.readable then pure e.raw else throw ()
    | none => pure ""
  else pure ""

/-- `process_page`: read the referenced HTML (raising when the file exists but
cannot be read), convert, and derive a title. -/
def process_page (cv : Conv) (fs : FS) (r : ResourceItem)
    (module_path : String) (position : Nat) : Except Unit ContentItem := do
  let content_html ← pageHtml fs r
  let content_md := cv.h2m content_html
  let title := pyOr r.title (pyOr ((cv.extractTitle content_html).getD "") r.identifier)
  pure { identifier := r.identifier, title := title, item_type := "page",
         content := content_md, module_path := module_path, position := position }

/-- The HTML-content loop of `process_assignment` (lines 650-655): take the
first file with an HTML suffix that exists on disk; reading it can raise. -/
def findHtmlContent (fs : FS) : List String → Except Unit String
  | [] => pure ""
  | f :: rest =>
    if strEndsWith f "content.html" || strEndsWith f ".html" then
      match fs f with
      | some e => if e.readable then pure e.raw else throw ()
      | none => findHtmlContent fs rest
    else findHtmlContent fs rest

/-- `parse_assignment_xml`: catches every exception internally and returns the
empty dict; a readable file of another kind yields no recognised fields. -/
def parse_assignment_xml (fs : FS) (p : String) : Metadata :=
  match fs p with
  | some e =>
    if e.readable then
      match e.parsed with
      | .asg m => m
      | _ => []
    else []
  | none => []

/-- `parse_rubric_xml`: catches every exception internally; an empty or
foreign document yields `None`. -/
def parse_rubric_xml (fs : FS) (p : String) : Option Metadata :=
  match fs p with
  | some e =>
    if e.readable then
      match e.parsed with
      | .rub rr => rr
      | _ => none
    else none
  | none => none

/-- The assignment-descriptor step of `process_assignment` (lines 640-647). -/
def assignmentMeta (fs : FS) (r : ResourceItem) : Metadata :=
  match r.files.find? (fun f => strEndsWith f "assignment.xml") with
  | some p => if (fs p).isSome then parse_assignment_xml fs p else []
  | none => []

/-- The rubric-descriptor step of `process_assignment` (lines 657-665). -/
def assignmentRubric (fs : FS) (r : ResourceItem) : Option Metadata :=
  match r.files.find? (fun f => strEndsWith f "rubric.xml") with
  | some p => if (fs p).isSome then parse_rubric_xml fs p else none
  | none => none

/-- `process_assignment`. -/
def process_assignment (cv : Conv) (fs : FS) (r : ResourceItem)
    (module_path : String) (position : Nat) : Except Unit ContentItem := do
  let metadata := assignmentMeta fs r
  let content_html ← findHtmlContent fs r.files
  let rubric := assignmentRubric fs r
  let content_md := cv.h2m content_html
  let title :=
    match metadata.lookup "title" with
    | some (.s t) => pyOr t (pyOr r.title r.identifier)
    | _ => pyOr r.title r.identifier
  pure { identifier := r.identifier, title := title, item_type := "assignment",
         content := content_md, metadata := metadata,
         module_path := module_path, position := position, rubric := rubric }

/-- `is_question_bank` heuristic. -/
def is_question_bank (r : ResourceItem) (title : String) : Bool :=
  let check_text := strLower r.identifier ++ " " ++ strLower title
  if ["bank", "pool", "item_bank", "question_bank", "qti_bank"].any
      (fun kw => strContains check_text kw) then true
  else strContains (strLower r.resource_type) "objectbank"

/-- The assessment-file lookup at the top of `process_quiz` (lines 874-882):
the first file with an XML suffix, if it exists on disk. -/
def assessmentEntry (fs : FS) (r : ResourceItem) : Option FileEntry :=
  match r.files.find? (fun f => strEndsWith f "assessment.xml" || strEndsWith f ".xml") with
  | some f => fs f
  | none => none

/-- `process_quiz`: the whole body is wrapped in `try/except`, so any failure
(unreadable file, malformed XML) yields `(None, None)` — the resource is
dropped and nothing else happens. -/
def process_quiz (cv : Conv) (fs : FS) (r : ResourceItem)
    (module_path : String) (position : Nat) :
    Option QuizItem × Option QuestionBankItem :=
  match assessmentEntry fs r with
  | none => (none, none)
  | some e =>
    if e.readable then
      match e.parsed with
      | .quizDoc hasAssessment qtitle qmeta description questions =>
        if hasAssessment then
          let title := qtitle.getD r.identifier
          let is_inline := qmeta.lookup "zaphod_inline_questions" == some "True"
          if is_inline || !is_question_bank r title then
            let dconv := if description ≠ "" then cv.h2m description else ""
            let meta := if dconv ≠ "" then assocUpd qmeta "description" dconv else qmeta
            (some { identifier := r.identifier, title := title,
                    questions := questions, metadata := meta,
                    module_path := module_path, position := position }, none)
          else
            (none, some { identifier := r.identifier, title := title,
                          questions := questions })
        else (none, none)
      | _ => (none, none)
    else (none, none)

/-- `process_link`. -/
def process_link (r : ResourceItem) (module_path : String) (position : Nat) :
    ContentItem :=
  { identifier := r.identifier,
    title := pyOr r.title (pyOr r.href r.identifier),
    item_type := "link",
    metadata := [("external_url", .s r.href)],
    module_path := module_path, position := position }

/-- The asset-tracking branch of `process_resources` (lines 534-541). -/
def trackAssets (fs : FS) (assets : List (String × String)) (files : List String) :
    List (String × String) :=
  files.foldl
    (fun acc f =>
      if (fs f).isSome then
        assocUpd acc f (strReplace f "web_resources/assets/" "")
      else acc)
    assets

/-- The module lookup built at the top of `process_resources`; a later module
claiming the same item wins (dict overwrite). -/
def moduleLookup (modules : List ModuleItem) (id : String) : Option ModuleItem :=
  (modules.filter (fun m => id ∈ m.items)).getLast?

/-- One iteration of the `process_resources` loop. -/
def process_step (cv : Conv) (fs : FS) (modules : List ModuleItem)
    (agg : CartridgeImport) (r : ResourceItem) : Except Unit CartridgeImport :=
  let mp := match moduleLookup modules r.identifier with
    | some m => (sanitize_filename m.title, m.items.indexOf r.identifier)
    | none => ("", 0)
  match classify r with
  | some .page => do
    let item ← process_page cv fs r mp.1 mp.2
    pure { agg with content_items := agg.content_items ++ [item] }
  | some .assignment => do
    let item ← process_assignment cv fs r mp.1 mp.2
    pure { agg with content_items := agg.content_items ++ [item] }
  | some .quiz =>
    let qb := process_quiz cv fs r mp.1 mp.2
    pure { agg with quizzes := agg.quizzes ++ qb.1.toList,
                    question_banks := agg.question_banks ++ qb.2.toList }
  | some .link =>
    pure { agg with content_items := agg.content_items ++ [process_link r mp.1 mp.2] }
  | some .asset =>
    pure { agg with assets := trackAssets fs agg.assets r.files }
  | none => pure agg

/-- `process_resources`: a plain fold over the resources, with **no**
per-resource exception handling — an exception in a step aborts the run. -/
def process_resources (cv : Conv) (fs : FS) (resources : List ResourceItem)
    (modules : List ModuleItem) : Except Unit CartridgeImport :=
  (resources.foldlM (process_step cv fs modules)
      { title := "Imported Course" }).map
    (fun agg => { agg with modules := modules })

/-! ## Claim C1: webcontent + assignment.xml classification -/

/-- A trivial concrete instantiation of the black-box collaborators. -/
def cv0 : Conv := { h2m := id, extractTitle := fun _ => none }

/-- A `webcontent` resource that carries an assignment descriptor file. -/
def r_c1 : ResourceItem :=
  { identifier := "res1", resource_type := "webcontent", href := "",
    files := ["a1/assignment.xml"] }

/-- The scratch tree for the C1 counterexample: the assignment descriptor is
present and well-formed. -/
def fs_c1 : FS := fun p =>
  if p = "a1/assignment.xml" then
    some { readable := true, parsed := .asg [("title", .s "HW 1")] }
  else none

/-- C1 counterexample: a resource with declared type `webcontent` whose file
list ends in `assignment.xml` satisfies the assignment predicate, yet
`process_resources` produces a **page** content item for it and no assignment
item, because the dispatch tests `is_page_resource` first. -/
theorem C1_webcontent_assignment_counterexample :
    is_page_resource r_c1 = true ∧
    is_assignment_resource r_c1 = true ∧
    (process_resources cv0 fs_c1 [r_c1] []).map
      (fun a => a.content_items.map (fun i => i.item_type)) = .ok ["page"] := by
  refine ⟨by decide, by decide, by decide⟩

/-- C1 (amended): a resource whose declared type contains `webcontent` is
always classified as a page — the assignment-descriptor-file check never
overrides the page rule (it only overrides the asset rule). -/
theorem C1_webcontent_classifies_page_amended (r : ResourceItem)
    (h : strContains (strLower r.resource_type) "webcontent" = true) :
    classify r = some RClass.page := by
  simp [classify, is_page_resource, h]

/-- C1 witness: the amended theorem at the concrete counterexample resource. -/
theorem C1_webcontent_classifies_page_amended_witness :
    classify r_c1 = some RClass.page :=
  C1_webcontent_classifies_page_amended r_c1 (by decide)

/-! ## Claim C2: per-resource failure semantics -/

/-- The quiz transformation fails inside its `try` block: no assessment file
is found on disk, or the file is unreadable or not a parseable QTI document. -/
def quiz_source_failed (fs : FS) (r : ResourceItem) : Bool :=
  match assessmentEntry fs r with
  | some e =>
    !e.readable ||
      (match e.parsed with
       | .quizDoc _ _ _ _ _ => false
       | _ => true)
  | none => true

theorem process_quiz_of_failed {cv : Conv} {fs : FS} {r : ResourceItem}
    (h : quiz_source_failed fs r = true) (mp : String) (pos : Nat) :
    process_quiz cv fs r mp pos = (none, none) := by
  unfold quiz_source_failed at h
  unfold process_quiz
  cases he : assessmentEntry fs r with
  | none => rfl
  | some e =>
    rw [he] at h
    dsimp only at h ⊢
    cases hr : e.readable with
    | false => simp [hr]
    | true =>
      rw [hr] at h
      simp only [Bool.not_true, Bool.false_or] at h
      cases hp : e.parsed with
      | quizDoc a b c d q => rw [hp] at h; simp at h
      | malformed => simp [hr, hp]
      | asg m => simp [hr, hp]
      | rub rr => simp [hr, hp]

theorem process_step_skip_failed_quiz {cv : Conv} {fs : FS}
    {modules : List ModuleItem} {r : ResourceItem}
    (hc : classify r = some RClass.quiz) (hq : quiz_source_failed fs r = true)
    (agg : CartridgeImport) :
    process_step cv fs modules agg r = .ok agg := by
  unfold process_step
  rw [hc]
  simp only [process_quiz_of_failed hq]
  show pure ({ agg with
        quizzes := agg.quizzes ++ ([] : List QuizItem),
        question_banks := agg.question_banks ++ ([] : List QuestionBankItem) } :
      CartridgeImport) = Except.ok agg
  rw [List.append_nil, List.append_nil]
  rfl

theorem foldlM_skip {cv : Conv} {fs : FS} {modules : List ModuleItem}
    {r : ResourceItem}
    (hstep : ∀ agg, process_step cv fs modules agg r = .ok agg) :
    ∀ (pre post : List ResourceItem) (init : CartridgeImport),
      List.foldlM (process_step cv fs modules) init (pre ++ r :: post) =
      List.foldlM (process_step cv fs modules) init (pre ++ post) := by
  intro pre
  induction pre with
  | nil =>
    intro post init
    simp only [List.nil_append, List.foldlM_cons, hstep init]
    rfl
  | cons x xs ih =>
    intro post init
    simp only [List.cons_append, List.foldlM_cons]
    cases hx : process_step cv fs modules init x with
    | error e => rfl
    | ok a =>
      show Except.bind (.ok a) _ = Except.bind (.ok a) _
      simp only [Except.bind]
      exact ih post a

/-- C2 (amended).  (1) A failed quiz transformation is caught inside
`process_quiz` and only that resource is dropped: the run over the remaining
resources is unchanged.  (2) A malformed (or unreadable) assignment
descriptor is caught inside `parse_assignment_xml`: the assignment is kept
with empty metadata, not dropped.  (3) But an existing, unreadable referenced
HTML file in page processing raises an uncaught exception and aborts the
whole run — the original claim's "never aborts" does not hold there. -/
theorem C2_failure_semantics_amended :
    (∀ (cv : Conv) (fs : FS) (modules : List ModuleItem)
        (pre post : List ResourceItem) (q : ResourceItem),
        classify q = some RClass.quiz → quiz_source_failed fs q = true →
        process_resources cv fs (pre ++ q :: post) modules =
          process_resources cv fs (pre ++ post) modules) ∧
    (∀ (cv : Conv) (fs : FS) (r : ResourceItem) (mp : String) (pos : Nat)
        (p : String) (e : FileEntry),
        r.files.find? (fun f => strEndsWith f "assignment.xml") = some p →
        fs p = some e → (e.readable = false ∨ ∀ m, e.parsed ≠ .asg m) →
        (∃ s, findHtmlContent fs r.files = .ok s) →
        ∃ item, process_assignment cv fs r mp pos = .ok item ∧
          item.metadata = [] ∧ item.item_type = "assignment") ∧
    (∀ (cv : Conv) (fs : FS) (modules : List ModuleItem) (r : ResourceItem)
        (e : FileEntry),
        classify r = some RClass.page → r.href ≠ "" →
        fs r.href = some e → e.readable = false →
        process_resources cv fs [r] modules = .error ()) := by
  refine ⟨?_, ?_, ?_⟩
  · intro cv fs modules pre post q hc hq
    unfold process_resources
    rw [foldlM_skip (process_step_skip_failed_quiz hc hq) pre post]
  · intro cv fs r mp pos p e hfind hfs hbad ⟨s, hs⟩
    have hparse : parse_assignment_xml fs p = [] := by
      unfold parse_assignment_xml
      rw [hfs]
      rcases hbad with h | h
      · simp [h]
      · cases hp : e.parsed with
        | asg m => exact absurd hp (h m)
        | malformed => simp [hp]
        | rub rr => simp [hp]
        | quizDoc a b c d q => simp [hp]
    have hmeta : assignmentMeta fs r = [] := by
      unfold assignmentMeta
      rw [hfind]
      dsimp only
      rw [hfs]
      simp [hparse]
    refine ⟨{ identifier := r.identifier, title := pyOr r.title r.identifier,
              item_type := "assignment", content := cv.h2m s, metadata := [],
              module_path := mp, position := pos,
              rubric := assignmentRubric fs r }, ?_, rfl, rfl⟩
    unfold process_assignment
    rw [hmeta, hs]
    rfl
  · intro cv fs modules r e hc hhref hfs hread
    have hpage : pageHtml fs r = .error () := by
      unfold pageHtml
      rw [if_pos hhref, hfs]
      dsimp only
      rw [hread]
      rfl
    unfold process_resources
    simp only [List.foldlM_cons, List.foldlM_nil]
    unfold process_step
    rw [hc]
    unfold process_page
    rw [hpage]
    rfl

/-- C2 counterexample: a single page resource whose referenced HTML file
exists but cannot be read makes the whole `process_resources` run abort
(`read_text` raises and nothing catches it), contradicting the claim that
any single resource's transformation failure is caught. -/
def r_c2 : ResourceItem :=
  { identifier := "p1", resource_type := "webcontent", href := "p.html" }

def fs_c2 : FS := fun p => if p = "p.html" then some { readable := false } else none

theorem C2_failure_semantics_counterexample :
    process_resources cv0 fs_c2 [r_c2] [] = .error () := by decide

/-- C2 witness: the amended theorem applied at concrete inputs. -/
def fs_c2q : FS := fun p => if p = "q.xml" then some { readable := false } else none

def r_c2q : ResourceItem :=
  { identifier := "q1", resource_type := "imsqti_xmlv1p2/assessment", href := "",
    files := ["q.xml"] }

def fs_c2a : FS := fun p =>
  if p = "a2/assignment.xml" then some { readable := true, parsed := .malformed }
  else none

def r_c2a : ResourceItem :=
  { identifier := "a2", resource_type := "assignment", href := "",
    files := ["a2/assignment.xml"] }

theorem C2_failure_semantics_amended_witness :
    (process_resources cv0 fs_c2q [r_c2q] [] = process_resources cv0 fs_c2q [] []) ∧
    (∃ item, process_assignment cv0 fs_c2a r_c2a "" 0 = .ok item ∧
      item.metadata = [] ∧ item.item_type = "assignment") ∧
    process_resources cv0 fs_c2 [r_c2] [] = .error () :=
  ⟨C2_failure_semantics_amended.1 cv0 fs_c2q [] [] [] r_c2q (by decide) (by decide),
   C2_failure_semantics_amended.2.1 cv0 fs_c2a r_c2a "" 0 "a2/assignment.xml"
     { readable := true, parsed := .malformed } (by decide) (by decide)
     (Or.inr (by intro m h; simp at h)) ⟨"", by decide⟩,
   C2_failure_semantics_amended.2.2 cv0 fs_c2 [] r_c2 { readable := false }
     (by decide) (by decide) (by decide) rfl⟩

/-! ## Secure archive extraction (import_cartridge.py, lines 215-366)

`extract_cartridge` is modelled over the archive's central directory: a list
of `ZipInfo` records (name, declared uncompressed size, compressed size).
One discrepancy with the source's apparent intent is load-bearing and is
modelled deliberately: on Python ≥ 3.12 the code calls
`zf.extractall(temp_dir, filter='data')`, but `zipfile.ZipFile.extractall`
accepts only `(path, members, pwd)` — extraction filters are a tarfile API —
so that call raises `TypeError` before extracting anything, the surrounding
`except TypeError: pass` swallows it, `use_filter` stays `False`, and the
manual validation branch always runs.  The `filter='data'` path is dead code
on every Python version. -/

def MAX_TOTAL_SIZE : Nat := 500 * 1024 * 1024
def MAX_FILE_SIZE : Nat := 50 * 1024 * 1024
def MAX_FILES : Nat := 10000
def MAX_COMPRESSION_RATIO : Nat := 100

/-- An entry of the zip central directory. -/
structure ZipInfo where
  filename : String
  file_size : Nat
  compress_size : Nat
deriving DecidableEq

/-- Split a character list on `/`. -/
def splitSlash : List Char → List (List Char)
  | [] => [[]]
  | c :: cs =>
    match splitSlash cs with
    | s :: rest => if c = '/' then [] :: s :: rest else (c :: s) :: rest
    | [] => if c = '/' then [[], []] else [[c]]

/-- `is_safe_member_name` (lines 215-253). -/
def is_safe_member_name (m : String) : Bool :=
  let cs := m.toList
  match cs with
  | [] => false
  | c0 :: rest =>
    if c0 = '/' || c0 = '\\' then false
    else if rest.head? = some ':' then false
    else
      let parts := splitSlash (cs.map (fun c => if c = '\\' then '/' else c))
      if parts.any (fun p => p = ['.', '.']) then false
      else if cs.any (fun c =>
          c = '\x00' || c = '<' || c = '>' || c = '|' || c = '?' || c = '*') then false
      else true

/-- The post-validation containment re-check (lines 341-349):
`(temp_dir / member).resolve().relative_to(temp_dir)` fails exactly when the
member's own dot segments lexically climb above the scratch root (the scratch
dir is freshly created, so it contains no symlinks). -/
def escapesTemp (m : String) : Bool :=
  go 0 (splitSlash m.toList)
where
  go : Int → List (List Char) → Bool
    | _, [] => false
    | d, s :: rest =>
      if s = ['.', '.'] then (if d ≤ 0 then true else go (d - 1) rest)
      else if s = ['.'] || s = [] then go d rest
      else go (d + 1) rest

/-- The member is skipped for size (lines 296-299 / 324-327). -/
def sizeSkip (m : ZipInfo) : Bool := MAX_FILE_SIZE < m.file_size

/-- The member is skipped for a suspicious compression ratio (lines 301-306 /
329-334); `file_size / compress_size > 100` over positive integers. -/
def ratioSkip (m : ZipInfo) : Bool :=
  0 < m.file_size && 0 < m.compress_size &&
    MAX_COMPRESSION_RATIO * m.compress_size < m.file_size

/-- The size-accounting loop of the Python-3.12 branch (lines 293-310): emits
skip warnings and checks the running extracted size; writes nothing.  Returns
the warnings, the fatal error if any, and the final value of the
`extracted_size` counter, which the source initializes once (line 285) and
does not reset before the manual branch. -/
def sizeCheckLoop : Nat → List ZipInfo → List String × Option String × Nat
  | extracted, [] => ([], none, extracted)
  | extracted, m :: rest =>
    if sizeSkip m then
      let (w, f, e) := sizeCheckLoop extracted rest
      (m.filename :: w, f, e)
    else if ratioSkip m then
      let (w, f, e) := sizeCheckLoop extracted rest
      (m.filename :: w, f, e)
    else
      let extracted' := extracted + m.file_size
      if MAX_TOTAL_SIZE < extracted' then
        ([], some "Extracted size exceeds limit during extraction", extracted')
      else sizeCheckLoop extracted' rest

/-- The manual validation branch (lines 319-357): per member, skip oversized,
suspicious-ratio, unsafe-name and escaping members with a warning; extract the
rest, aborting if the running size exceeds the total ceiling. -/
def manualExtractLoop : Nat → List ZipInfo → List String × List String × Option String
  | _, [] => ([], [], none)
  | extracted, m :: rest =>
    if sizeSkip m then
      let (w, wr, f) := manualExtractLoop extracted rest
      (m.filename :: w, wr, f)
    else if ratioSkip m then
      let (w, wr, f) := manualExtractLoop extracted rest
      (m.filename :: w, wr, f)
    else if !is_safe_member_name m.filename then
      let (w, wr, f) := manualExtractLoop extracted rest
      (m.filename :: w, wr, f)
    else if escapesTemp m.filename then
      let (w, wr, f) := manualExtractLoop extracted rest
      (m.filename :: w, wr, f)
    else
      let extracted' := extracted + m.file_size
      if MAX_TOTAL_SIZE < extracted' then
        ([], [], some "Extracted size exceeds limit during extraction")
      else
        let (w, wr, f) := manualExtractLoop extracted' rest
        (w, m.filename :: wr, f)

/-- The observable outcome of `extract_cartridge`: log warnings, the files
left in the scratch directory, the fatal error if any, and whether the
scratch directory still exists afterwards (the `except` block removes it
before re-raising). -/
structure ExtractTrace where
  warnings : List String := []
  written : List String := []
  fatal : Option String := none
  residualTemp : Bool := true
deriving DecidableEq

/-- `extract_cartridge` (lines 256-366).  `extracted_size` is a single
variable shared by the 3.12 size-check loop and the manual branch: when both
run, every byte counted by the first loop is counted again by the second, so
the effective aggregate ceiling of the manual loop is what the ceiling left
over after the pre-check accumulation. -/
def extract_cartridge (py312 : Bool) (ms : List ZipInfo) : ExtractTrace :=
  if MAX_FILES < ms.length then
    { warnings := [], written := [],
      fatal := some "Cartridge contains too many files", residualTemp := false }
  else if MAX_TOTAL_SIZE < (ms.map (fun m => m.file_size)).sum then
    { warnings := [], written := [],
      fatal := some "Cartridge too large", residualTemp := false }
  else
    let pre := if py312 then sizeCheckLoop 0 ms else ([], none, 0)
    match pre.2.1 with
    | some err =>
      { warnings := pre.1, written := [], fatal := some err, residualTemp := false }
    | none =>
      -- the `extractall(..., filter='data')` call raises `TypeError`
      -- (swallowed); the manual branch always runs, continuing from the
      -- already-accumulated `extracted_size`
      let res := manualExtractLoop pre.2.2 ms
      match res.2.2 with
      | some err =>
        { warnings := pre.1 ++ res.1, written := [],
          fatal := some err, residualTemp := false }
      | none =>
        { warnings := pre.1 ++ res.1, written := res.2.1,
          fatal := none, residualTemp := true }

/-! ### Lemmas about the extraction loops -/

theorem sizeCheckLoop_no_fatal : ∀ (ms : List ZipInfo) (extracted : Nat),
    extracted + (ms.map (fun m => m.file_size)).sum ≤ MAX_TOTAL_SIZE →
    (sizeCheckLoop extracted ms).2.1 = none := by
  intro ms
  induction ms with
  | nil => intro extracted _; rfl
  | cons m rest ih =>
    intro extracted h
    simp only [List.map_cons, List.sum_cons] at h
    unfold sizeCheckLoop
    by_cases h1 : sizeSkip m
    · simp only [if_pos h1]
      have := ih extracted (by omega)
      rcases hrec : sizeCheckLoop extracted rest with ⟨w, f, e⟩
      rw [hrec] at this
      simpa using this
    · simp only [if_neg h1]
      by_cases h2 : ratioSkip m
      · simp only [if_pos h2]
        have := ih extracted (by omega)
        rcases hrec : sizeCheckLoop extracted rest with ⟨w, f, e⟩
        rw [hrec] at this
        simpa using this
      · simp only [if_neg h2]
        have hno : ¬ MAX_TOTAL_SIZE < extracted + m.file_size := by omega
        simp only [if_neg hno]
        exact ih (extracted + m.file_size) (by omega)

/-- The shared counter after the 3.12 size-check loop is bounded by its
start plus the declared total. -/
theorem sizeCheckLoop_size_le : ∀ (ms : List ZipInfo) (extracted : Nat),
    (sizeCheckLoop extracted ms).2.2 ≤
      extracted + (ms.map (fun m => m.file_size)).sum := by
  intro ms
  induction ms with
  | nil => intro extracted; simp [sizeCheckLoop]
  | cons m rest ih =>
    intro extracted
    simp only [List.map_cons, List.sum_cons]
    unfold sizeCheckLoop
    by_cases h1 : sizeSkip m
    · simp only [if_pos h1]
      have := ih extracted
      rcases hrec : sizeCheckLoop extracted rest with ⟨w, f, e⟩
      rw [hrec] at this
      dsimp only at this ⊢
      omega
    · simp only [if_neg h1]
      by_cases h2 : ratioSkip m
      · simp only [if_pos h2]
        have := ih extracted
        rcases hrec : sizeCheckLoop extracted rest with ⟨w, f, e⟩
        rw [hrec] at this
        dsimp only at this ⊢
        omega
      · simp only [if_neg h2]
        by_cases h3 : MAX_TOTAL_SIZE < extracted + m.file_size
        · simp only [if_pos h3]
          omega
        · simp only [if_neg h3]
          have := ih (extracted + m.file_size)
          omega

theorem manualExtractLoop_no_fatal : ∀ (ms : List ZipInfo) (extracted : Nat),
    extracted + (ms.map (fun m => m.file_size)).sum ≤ MAX_TOTAL_SIZE →
    (manualExtractLoop extracted ms).2.2 = none := by
  intro ms
  induction ms with
  | nil => intro extracted _; rfl
  | cons m rest ih =>
    intro extracted h
    simp only [List.map_cons, List.sum_cons] at h
    unfold manualExtractLoop
    by_cases h1 : sizeSkip m
    · simp only [if_pos h1]
      have := ih extracted (by omega)
      cases hrec : manualExtractLoop extracted rest with
      | mk w p => rw [hrec] at this; simpa using this
    · simp only [if_neg h1]
      by_cases h2 : ratioSkip m
      · simp only [if_pos h2]
        have := ih extracted (by omega)
        cases hrec : manualExtractLoop extracted rest with
        | mk w p => rw [hrec] at this; simpa using this
      · simp only [if_neg h2]
        by_cases h3 : !is_safe_member_name m.filename
        · simp only [if_pos h3]
          have := ih extracted (by omega)
          cases hrec : manualExtractLoop extracted rest with
          | mk w p => rw [hrec] at this; simpa using this
        · simp only [if_neg h3]
          by_cases h4 : escapesTemp m.filename
          · simp only [if_pos h4]
            have := ih extracted (by omega)
            cases hrec : manualExtractLoop extracted rest with
            | mk w p => rw [hrec] at this; simpa using this
          · simp only [if_neg h4]
            have hno : ¬ MAX_TOTAL_SIZE < extracted + m.file_size := by omega
            simp only [if_neg hno]
            have := ih (extracted + m.file_size) (by omega)
            cases hrec : manualExtractLoop (extracted + m.file_size) rest with
            | mk w p => rw [hrec] at this; simpa using this

/-- In the manual branch, a member skipped for size or ratio is warned. -/
theorem manualExtractLoop_warns : ∀ (ms : List ZipInfo) (extracted : Nat)
    (m : ZipInfo), m ∈ ms →
    extracted + (ms.map (fun m => m.file_size)).sum ≤ MAX_TOTAL_SIZE →
    (sizeSkip m || ratioSkip m) = true →
    m.filename ∈ (manualExtractLoop extracted ms).1 := by
  intro ms
  induction ms with
  | nil => intro _ m hm; simp at hm
  | cons x rest ih =>
    intro extracted m hm h hskip
    simp only [List.map_cons, List.sum_cons] at h
    rcases List.mem_cons.mp hm with rfl | hm'
    · unfold manualExtractLoop
      rcases Bool.or_eq_true_iff.mp hskip with h1 | h2
      · simp only [if_pos h1]
        cases manualExtractLoop extracted rest with
        | mk w p => exact List.mem_cons_self _ _
      · by_cases h1 : sizeSkip m
        · simp only [if_pos h1]
          cases manualExtractLoop extracted rest with
          | mk w p => exact List.mem_cons_self _ _
        · simp only [if_neg h1, if_pos h2]
          cases manualExtractLoop extracted rest with
          | mk w p => exact List.mem_cons_self _ _
    · unfold manualExtractLoop
      by_cases h1 : sizeSkip x
      · simp only [if_pos h1]
        have := ih extracted m hm' (by omega) hskip
        cases hrec : manualExtractLoop extracted rest with
        | mk w p =>
          rw [hrec] at this
          exact List.mem_cons_of_mem _ this
      · simp only [if_neg h1]
        by_cases h2 : ratioSkip x
        · simp only [if_pos h2]
          have := ih extracted m hm' (by omega) hskip
          cases hrec : manualExtractLoop extracted rest with
          | mk w p =>
            rw [hrec] at this
            exact List.mem_cons_of_mem _ this
        · simp only [if_neg h2]
          by_cases h3 : !is_safe_member_name x.filename
          · simp only [if_pos h3]
            have := ih extracted m hm' (by omega) hskip
            cases hrec : manualExtractLoop extracted rest with
            | mk w p =>
              rw [hrec] at this
              exact List.mem_cons_of_mem _ this
          · simp only [if_neg h3]
            by_cases h4 : escapesTemp x.filename
            · simp only [if_pos h4]
              have := ih extracted m hm' (by omega) hskip
              cases hrec : manualExtractLoop extracted rest with
              | mk w p =>
                rw [hrec] at this
                exact List.mem_cons_of_mem _ this
            · simp only [if_neg h4]
              have hno : ¬ MAX_TOTAL_SIZE < extracted + x.file_size := by omega
              simp only [if_neg hno]
              have := ih (extracted + x.file_size) m hm' (by omega) hskip
              cases hrec : manualExtractLoop (extracted + x.file_size) rest with
              | mk w p =>
                rw [hrec] at this
                exact this

/-- Every name written by the manual branch belongs to a member that passed
both the size check and the ratio check. -/
theorem manualExtractLoop_written_sound : ∀ (ms : List ZipInfo) (extracted : Nat)
    (n : String), n ∈ (manualExtractLoop extracted ms).2.1 →
    ∃ m ∈ ms, m.filename = n ∧ sizeSkip m = false ∧ ratioSkip m = false := by
  intro ms
  induction ms with
  | nil => intro extracted n hn; simp [manualExtractLoop] at hn
  | cons x rest ih =>
    intro extracted n hn
    unfold manualExtractLoop at hn
    by_cases h1 : sizeSkip x
    · simp only [if_pos h1] at hn
      rcases hrec : manualExtractLoop extracted rest with ⟨w, wr, f⟩
      rw [hrec] at hn
      obtain ⟨m, hm, rest'⟩ := ih extracted n (by rw [hrec]; exact hn)
      exact ⟨m, List.mem_cons_of_mem _ hm, rest'⟩
    · simp only [if_neg h1] at hn
      by_cases h2 : ratioSkip x
      · simp only [if_pos h2] at hn
        rcases hrec : manualExtractLoop extracted rest with ⟨w, wr, f⟩
        rw [hrec] at hn
        obtain ⟨m, hm, rest'⟩ := ih extracted n (by rw [hrec]; exact hn)
        exact ⟨m, List.mem_cons_of_mem _ hm, rest'⟩
      · simp only [if_neg h2] at hn
        by_cases h3 : !is_safe_member_name x.filename
        · simp only [if_pos h3] at hn
          rcases hrec : manualExtractLoop extracted rest with ⟨w, wr, f⟩
          rw [hrec] at hn
          obtain ⟨m, hm, rest'⟩ := ih extracted n (by rw [hrec]; exact hn)
          exact ⟨m, List.mem_cons_of_mem _ hm, rest'⟩
        · simp only [if_neg h3] at hn
          by_cases h4 : escapesTemp x.filename
          · simp only [if_pos h4] at hn
            rcases hrec : manualExtractLoop extracted rest with ⟨w, wr, f⟩
            rw [hrec] at hn
            obtain ⟨m, hm, rest'⟩ := ih extracted n (by rw [hrec]; exact hn)
            exact ⟨m, List.mem_cons_of_mem _ hm, rest'⟩
          · simp only [if_neg h4] at hn
            by_cases h5 : MAX_TOTAL_SIZE < extracted + x.file_size
            · simp only [if_pos h5] at hn
              simp at hn
            · simp only [if_neg h5] at hn
              rcases hrec : manualExtractLoop (extracted + x.file_size) rest with ⟨w, wr, f⟩
              rw [hrec] at hn
              rcases List.mem_cons.mp hn with rfl | hn'
              · exact ⟨x, List.mem_cons_self _ _, rfl,
                  Bool.not_eq_true _ ▸ h1, Bool.not_eq_true _ ▸ h2⟩
              · obtain ⟨m, hm, rest'⟩ := ih (extracted + x.file_size) n
                  (by rw [hrec]; exact hn')
                exact ⟨m, List.mem_cons_of_mem _ hm, rest'⟩

/-- A member that passes every per-member check is written. -/
theorem manualExtractLoop_writes : ∀ (ms : List ZipInfo) (extracted : Nat)
    (m : ZipInfo), m ∈ ms →
    extracted + (ms.map (fun m => m.file_size)).sum ≤ MAX_TOTAL_SIZE →
    sizeSkip m = false → ratioSkip m = false →
    is_safe_member_name m.filename = true → escapesTemp m.filename = false →
    m.filename ∈ (manualExtractLoop extracted ms).2.1 := by
  intro ms
  induction ms with
  | nil => intro _ m hm; simp at hm
  | cons x rest ih =>
    intro extracted m hm h hs hr hsafe hesc
    simp only [List.map_cons, List.sum_cons] at h
    rcases List.mem_cons.mp hm with rfl | hm'
    · unfold manualExtractLoop
      have hno : ¬ MAX_TOTAL_SIZE < extracted + m.file_size := by omega
      rcases hrec : manualExtractLoop (extracted + m.file_size) rest with ⟨w, wr, f⟩
      simp [hs, hr, hsafe, hesc, hno, hrec]
    · unfold manualExtractLoop
      by_cases h1 : sizeSkip x
      · simp only [if_pos h1]
        have := ih extracted m hm' (by omega) hs hr hsafe hesc
        cases hrec : manualExtractLoop extracted rest with
        | mk w p => rw [hrec] at this; exact this
      · simp only [if_neg h1]
        by_cases h2 : ratioSkip x
        · simp only [if_pos h2]
          have := ih extracted m hm' (by omega) hs hr hsafe hesc
          cases hrec : manualExtractLoop extracted rest with
          | mk w p => rw [hrec] at this; exact this
        · simp only [if_neg h2]
          by_cases h3 : !is_safe_member_name x.filename
          · simp only [if_pos h3]
            have := ih extracted m hm' (by omega) hs hr hsafe hesc
            cases hrec : manualExtractLoop extracted rest with
            | mk w p => rw [hrec] at this; exact this
          · simp only [if_neg h3]
            by_cases h4 : escapesTemp x.filename
            · simp only [if_pos h4]
              have := ih extracted m hm' (by omega) hs hr hsafe hesc
              cases hrec : manualExtractLoop extracted rest with
              | mk w p => rw [hrec] at this; exact this
            · simp only [if_neg h4]
              have hno : ¬ MAX_TOTAL_SIZE < extracted + x.file_size := by omega
              simp only [if_neg hno]
              have := ih (extracted + x.file_size) m hm' (by omega) hs hr hsafe hesc
              cases hrec : manualExtractLoop (extracted + x.file_size) rest with
              | mk w p =>
                rw [hrec] at this
                exact List.mem_cons_of_mem _ this

/-- The C3 counterexample archive: one oversized member plus six stored
45 MB members; the declared total (320 MB) is within the 500 MB ceiling, but
the 270 MB of non-skipped bytes exceed the halved effective budget of the
3.12 path. -/
def msC3ce : List ZipInfo :=
  [⟨"big.bin", 50 * 1024 * 1024 + 1, 1000⟩,
   ⟨"f1.dat", 45 * 1024 * 1024, 45 * 1024 * 1024⟩,
   ⟨"f2.dat", 45 * 1024 * 1024, 45 * 1024 * 1024⟩,
   ⟨"f3.dat", 45 * 1024 * 1024, 45 * 1024 * 1024⟩,
   ⟨"f4.dat", 45 * 1024 * 1024, 45 * 1024 * 1024⟩,
   ⟨"f5.dat", 45 * 1024 * 1024, 45 * 1024 * 1024⟩,
   ⟨"f6.dat", 45 * 1024 * 1024, 45 * 1024 * 1024⟩]

/-- C3 (counterexample).  On the Python-3.12 path the oversized member is
skipped with a warning, yet the rest of the extraction does not proceed: the
`extracted_size` counter is shared between the size-check loop and the manual
loop, so the manual loop starts at the 270 MB already accumulated, re-counts
the same bytes, crosses the 500 MB ceiling and aborts fatally with nothing
written — even though the archive's declared total is within bounds. -/
theorem C3_member_bounds_counterexample :
    (msC3ce.map (fun m => m.file_size)).sum ≤ MAX_TOTAL_SIZE ∧
    msC3ce.length ≤ MAX_FILES ∧
    (⟨"big.bin", 50 * 1024 * 1024 + 1, 1000⟩ : ZipInfo) ∈ msC3ce ∧
    sizeSkip ⟨"big.bin", 50 * 1024 * 1024 + 1, 1000⟩ = true ∧
    "big.bin" ∈ (extract_cartridge true msC3ce).warnings ∧
    (extract_cartridge true msC3ce).fatal =
      some "Extracted size exceeds limit during extraction" ∧
    (extract_cartridge true msC3ce).written = [] := by
  decide

/-- C3 (amended).  A member exceeding the per-file ceiling or the ratio
ceiling is warned about and its bytes are never written; and provided the
declared total fits the effective aggregate budget — the plain ceiling on the
pre-3.12 path, but only half of it on the 3.12 path, because the shared
`extracted_size` counter counts every non-skipped byte in both loops — the
run is not fatal and every member that passes all per-member checks is still
extracted. -/
theorem C3_member_bounds_amended (py : Bool) (ms : List ZipInfo) (m : ZipInfo)
    (hmem : m ∈ ms)
    (hnodup : (ms.map (fun m => m.filename)).Nodup)
    (hcount : ms.length ≤ MAX_FILES)
    (htotal : (ms.map (fun m => m.file_size)).sum +
      (if py then (ms.map (fun m => m.file_size)).sum else 0) ≤
        MAX_TOTAL_SIZE)
    (hskip : (sizeSkip m || ratioSkip m) = true) :
    (extract_cartridge py ms).fatal = none ∧
    m.filename ∈ (extract_cartridge py ms).warnings ∧
    m.filename ∉ (extract_cartridge py ms).written ∧
    (∀ m' ∈ ms, sizeSkip m' = false → ratioSkip m' = false →
      is_safe_member_name m'.filename = true → escapesTemp m'.filename = false →
      m'.filename ∈ (extract_cartridge py ms).written) := by
  have hsum : (ms.map (fun m => m.file_size)).sum ≤ MAX_TOTAL_SIZE := by
    cases py <;> simp at htotal <;> omega
  have hc1 : ¬ MAX_FILES < ms.length := by omega
  have hc2 : ¬ MAX_TOTAL_SIZE < (ms.map (fun m => m.file_size)).sum := by omega
  have hpre2 : (if py then sizeCheckLoop 0 ms else ([], none, 0)).2.1 = none := by
    cases py
    · rfl
    · simpa using sizeCheckLoop_no_fatal ms 0 (by simpa using hsum)
  have hpreSize : (if py then sizeCheckLoop 0 ms else ([], none, 0)).2.2 +
      (ms.map (fun m => m.file_size)).sum ≤ MAX_TOTAL_SIZE := by
    cases py
    · simpa using hsum
    · have h1 := sizeCheckLoop_size_le ms 0
      have h2 : (ms.map (fun m => m.file_size)).sum +
          (ms.map (fun m => m.file_size)).sum ≤ MAX_TOTAL_SIZE := by
        simpa using htotal
      show (sizeCheckLoop 0 ms).2.2 + (ms.map (fun m => m.file_size)).sum ≤
        MAX_TOTAL_SIZE
      omega
  have hres : (manualExtractLoop
      (if py then sizeCheckLoop 0 ms else ([], none, 0)).2.2 ms).2.2 = none :=
    manualExtractLoop_no_fatal ms _ hpreSize
  have hextract : extract_cartridge py ms =
      { warnings := (if py then sizeCheckLoop 0 ms else ([], none, 0)).1 ++
          (manualExtractLoop
            (if py then sizeCheckLoop 0 ms else ([], none, 0)).2.2 ms).1,
        written := (manualExtractLoop
          (if py then sizeCheckLoop 0 ms else ([], none, 0)).2.2 ms).2.1,
        fatal := none, residualTemp := true } := by
    unfold extract_cartridge
    rw [if_neg hc1, if_neg hc2]
    dsimp only
    rw [hpre2]
    dsimp only
    rw [hres]
  rw [hextract]
  refine ⟨rfl, ?_, ?_, ?_⟩
  · exact List.mem_append_right _
      (manualExtractLoop_warns ms _ m hmem hpreSize hskip)
  · intro hw
    obtain ⟨m', hm', hname, hs', hr'⟩ := manualExtractLoop_written_sound ms _ _ hw
    have : m' = m := List.inj_on_of_nodup_map hnodup hm' hmem hname
    subst this
    rcases Bool.or_eq_true_iff.mp hskip with h | h
    · rw [hs'] at h; exact Bool.false_ne_true h
    · rw [hr'] at h; exact Bool.false_ne_true h
  · intro m' hm' hs' hr' hsafe' hesc'
    exact manualExtractLoop_writes ms _ m' hm' hpreSize hs' hr' hsafe' hesc'

/-- The C3 example archive: a normal manifest plus one oversized member. -/
def msEx : List ZipInfo :=
  [⟨"imsmanifest.xml", 100, 50⟩, ⟨"big.bin", 50 * 1024 * 1024 + 1, 1000⟩]

/-- C3 witness: the amended theorem at the example archive, on the 3.12 code
path. -/
theorem C3_member_bounds_amended_witness :
    (extract_cartridge true msEx).fatal = none ∧
    "big.bin" ∈ (extract_cartridge true msEx).warnings ∧
    "big.bin" ∉ (extract_cartridge true msEx).written ∧
    "imsmanifest.xml" ∈ (extract_cartridge true msEx).written := by
  have h := C3_member_bounds_amended true msEx ⟨"big.bin", 50 * 1024 * 1024 + 1, 1000⟩
    (by decide) (by decide) (by decide) (by decide) (by decide)
  exact ⟨h.1, h.2.1, h.2.2.1,
    h.2.2.2 ⟨"imsmanifest.xml", 100, 50⟩ (by decide) (by decide) (by decide)
      (by decide) (by decide)⟩

/-- C4 (claim).  An archive whose member count exceeds the count ceiling or
whose declared aggregate size exceeds the total ceiling makes
`extract_cartridge` fail fatally; and every fatal outcome deletes the scratch
directory before the error propagates. -/
theorem C4_archive_bounds_fatal_cleanup :
    (∀ (py : Bool) (ms : List ZipInfo),
        MAX_FILES < ms.length ∨
          MAX_TOTAL_SIZE < (ms.map (fun m => m.file_size)).sum →
        (extract_cartridge py ms).fatal.isSome = true) ∧
    (∀ (py : Bool) (ms : List ZipInfo),
        (extract_cartridge py ms).fatal.isSome = true →
        (extract_cartridge py ms).residualTemp = false) := by
  constructor
  · intro py ms h
    unfold extract_cartridge
    by_cases h1 : MAX_FILES < ms.length
    · rw [if_pos h1]
      rfl
    · rw [if_neg h1]
      have h2 : MAX_TOTAL_SIZE < (ms.map (fun m => m.file_size)).sum := by
        rcases h with h | h
        · exact absurd h h1
        · exact h
      rw [if_pos h2]
      rfl
  · intro py ms
    unfold extract_cartridge
    split
    · intro _; rfl
    · split
      · intro _; rfl
      · dsimp only
        split
        · intro _; rfl
        · split
          · intro _; rfl
          · intro h; simp at h

/-- C4 witness: a single member declaring 600 MB trips the aggregate bound
fatally, and the scratch directory is gone. -/
theorem C4_archive_bounds_fatal_cleanup_witness :
    (extract_cartridge true [⟨"a", 600 * 1024 * 1024, 10⟩]).fatal.isSome = true ∧
    (extract_cartridge true [⟨"a", 600 * 1024 * 1024, 10⟩]).residualTemp = false :=
  ⟨C4_archive_bounds_fatal_cleanup.1 true _ (Or.inr (by decide)),
   C4_archive_bounds_fatal_cleanup.2 true _
     (C4_archive_bounds_fatal_cleanup.1 true _ (Or.inr (by decide)))⟩

/-! ## Manifest parsing with namespace fallback (import_cartridge.py, 72-83, 159-201, 373-481)

An `ElementTree` element stores its namespace inside its tag
(`"{uri}tag"`); we model it as a separate `ns` field, `""` meaning no
namespace.  `find("{uri}tag")` and `find("tag")` search direct children.
The id-based de-duplication in `findall_ns` never fires for a well-formed
tree because each child has exactly one namespace and so matches at most one
of the namespaced/plain queries; it is therefore omitted. -/

/-- An XML element: namespace, tag, attributes, text, children. -/
inductive XElem where
  | mk (ns : String) (tag : String) (attrs : List (String × String))
       (text : String) (children : List XElem)

def XElem.ns : XElem → String | .mk n _ _ _ _ => n
def XElem.tag : XElem → String | .mk _ t _ _ _ => t
def XElem.attrs : XElem → List (String × String) | .mk _ _ a _ _ => a
def XElem.text : XElem → String | .mk _ _ _ x _ => x
def XElem.children : XElem → List XElem | .mk _ _ _ _ c => c

/-- The `NS` dict of known Common Cartridge namespace URIs, in its
(insertion) iteration order. -/
def NS_URIS : List String :=
  ["http://www.imsglobal.org/xsd/imsccv1p3/imscp_v1p1",
   "http://ltsc.ieee.org/xsd/imsccv1p3/LOM/resource",
   "http://ltsc.ieee.org/xsd/imsccv1p3/LOM/manifest",
   "http://www.w3.org/2001/XMLSchema-instance"]

/-- `elem.find(f"{{{uri}}}{tag}")` (`uri = ""` is `elem.find(tag)`): the
first direct child with that namespace and tag. -/
def findTag (e : XElem) (u tag : String) : Option XElem :=
  e.children.find? (fun c => c.ns == u && c.tag == tag)

/-- `elem.findall(...)`, same convention. -/
def findallTag (e : XElem) (u tag : String) : List XElem :=
  e.children.filter (fun c => c.ns == u && c.tag == tag)

/-- The loop of `find_ns`: try each known URI, first match wins. -/
def find_ns_go (e : XElem) (tag : String) : List String → Option XElem
  | [] => findTag e "" tag
  | u :: rest =>
    match findTag e u tag with
    | some r => some r
    | none => find_ns_go e tag rest

/-- `find_ns` (lines 159-174): each known namespace in priority order, then
the no-namespace fallback. -/
def find_ns (e : XElem) (tag : String) : Option XElem :=
  find_ns_go e tag NS_URIS

/-- `findall_ns` (lines 177-201): concatenate the matches of every known
namespace, then the no-namespace matches. -/
def findall_ns (e : XElem) (tag : String) : List XElem :=
  (NS_URIS.map (fun u => findallTag e u tag)).flatten ++ findallTag e "" tag

/-- Python `str.strip()`. -/
def pyStrip (s : String) : String :=
  String.mk ((s.toList.dropWhile pySpace).rdropWhile pySpace)

/-- `get_text` (lines 204-208). -/
def get_text (e : Option XElem) (default : String) : String :=
  match e with
  | some el => if el.text ≠ "" then pyStrip el.text else default
  | none => default

/-- `elem.get(key, default)`. -/
def getAttr (e : XElem) (k d : String) : String := (e.attrs.lookup k).getD d

/-- `parse_resource` (lines 406-427). -/
def parse_resource (resource_elem : XElem) : Option ResourceItem :=
  let identifier := getAttr resource_elem "identifier" ""
  let resource_type := getAttr resource_elem "type" ""
  let href := getAttr resource_elem "href" ""
  if identifier = "" then none
  else
    let files := (findall_ns resource_elem "file").filterMap (fun fe =>
      let fh := getAttr fe "href" ""
      if fh ≠ "" then some fh else none)
    some { identifier := identifier, resource_type := resource_type,
           href := href, files := files }

/-- The resource table built by `parse_manifest` (lines 389-397):
`resources[resource.identifier] = resource` over the manifest's resource
elements. -/
def parse_manifest_resources (root : XElem) : List (String × ResourceItem) :=
  match find_ns root "resources" with
  | none => []
  | some resources_elem =>
    (findall_ns resources_elem "resource").foldl
      (fun acc relem =>
        match parse_resource relem with
        | some r => assocUpd acc r.identifier r
        | none => acc) []

/-- `parse_module_item` (lines 457-480). -/
def parse_module_item (item_elem : XElem) (position : Nat) : Option ModuleItem :=
  let identifier := getAttr item_elem "identifier" ""
  if identifier = "" then none
  else
    let title := get_text (find_ns item_elem "title") identifier
    let items := (findall_ns item_elem "item").filterMap (fun sub =>
      let ref := getAttr sub "identifierref" ""
      if ref ≠ "" then some ref else none)
    some { identifier := identifier, title := title, position := position,
           items := items }

/-- `parse_modules` (lines 434-454): walk the first organization's top-level
items, assigning consecutive positions to the items that parse. -/
def parse_modules (root : XElem) : List ModuleItem :=
  match find_ns root "organizations" with
  | none => []
  | some orgs =>
    match find_ns orgs "organization" with
    | none => []
    | some org =>
      ((findall_ns org "item").foldl
        (fun (acc : List ModuleItem × Nat) item_elem =>
          match parse_module_item item_elem acc.2 with
          | some m => (acc.1 ++ [m], acc.2 + 1)
          | none => acc) ([], 0)).1

/-! ### Logical manifests and their namespace realizations (claim C7) -/

/-- A logical (namespace-free) manifest element. -/
inductive LElem where
  | mk (tag : String) (attrs : List (String × String)) (text : String)
       (children : List LElem)

def LElem.tag : LElem → String | .mk t _ _ _ => t
def LElem.attrs : LElem → List (String × String) | .mk _ a _ _ => a
def LElem.text : LElem → String | .mk _ _ x _ => x
def LElem.children : LElem → List LElem | .mk _ _ _ c => c

/-- Express a logical manifest in namespace `u` (`""` = no namespace): every
element is tagged with `u`. -/
def realize (u : String) : LElem → XElem
  | .mk tag attrs text children =>
    .mk u tag attrs text (children.attach.map (fun c => realize u c.1))
decreasing_by
  have := List.sizeOf_lt_of_mem c.2
  simp only [LElem.mk.sizeOf_spec]
  omega

theorem realize_mk (u tag : String) (attrs : List (String × String))
    (text : String) (children : List LElem) :
    realize u (.mk tag attrs text children) =
      .mk u tag attrs text (children.map (realize u)) := by
  rw [realize]
  congr 1
  exact List.attach_map_coe _ _

theorem realize_ns (u : String) (l : LElem) : (realize u l).ns = u := by
  cases l; rw [realize_mk]; rfl

theorem realize_tag (u : String) (l : LElem) : (realize u l).tag = l.tag := by
  cases l; rw [realize_mk]; rfl

theorem realize_attrs (u : String) (l : LElem) :
    (realize u l).attrs = l.attrs := by
  cases l; rw [realize_mk]; rfl

theorem realize_text (u : String) (l : LElem) : (realize u l).text = l.text := by
  cases l; rw [realize_mk]; rfl

theorem realize_children (u : String) (l : LElem) :
    (realize u l).children = l.children.map (realize u) := by
  cases l; rw [realize_mk]; rfl

/-- Namespace-free direct-child lookup on a logical element. -/
def lfind (l : LElem) (tag : String) : Option LElem :=
  l.children.find? (fun c => c.tag == tag)

def lfindall (l : LElem) (tag : String) : List LElem :=
  l.children.filter (fun c => c.tag == tag)

def lgetAttr (l : LElem) (k d : String) : String := (l.attrs.lookup k).getD d

theorem getAttr_realize (u : String) (l : LElem) (k d : String) :
    getAttr (realize u l) k d = lgetAttr l k d := by
  unfold getAttr lgetAttr
  rw [realize_attrs]

theorem findTag_realize (u v tag : String) (l : LElem) :
    findTag (realize u l) v tag =
      if v = u then (lfind l tag).map (realize u) else none := by
  unfold findTag lfind
  rw [realize_children, List.find?_map]
  by_cases hv : v = u
  · subst hv
    rw [if_pos rfl]
    have hpred : ((fun c : XElem => c.ns == v && c.tag == tag) ∘ realize v) =
        (fun c : LElem => c.tag == tag) := by
      funext c
      simp [Function.comp, realize_ns, realize_tag]
    rw [hpred]
  · rw [if_neg hv]
    have hpred : ((fun c : XElem => c.ns == v && c.tag == tag) ∘ realize u) =
        (fun _ : LElem => false) := by
      funext c
      simp only [Function.comp, realize_ns, realize_tag, Bool.and_eq_false_imp,
        beq_eq_false_iff_ne, ne_eq, beq_iff_eq]
      intro h
      exact absurd h.symm hv
    rw [hpred]
    have : List.find? (fun _ : LElem => false) l.children = none := by
      rw [List.find?_eq_none]
      intro x _
      simp
    rw [this]
    rfl

theorem findallTag_realize (u v tag : String) (l : LElem) :
    findallTag (realize u l) v tag =
      if v = u then (lfindall l tag).map (realize u) else [] := by
  unfold findallTag lfindall
  rw [realize_children, List.filter_map]
  by_cases hv : v = u
  · subst hv
    rw [if_pos rfl]
    have hpred : ((fun c : XElem => c.ns == v && c.tag == tag) ∘ realize v) =
        (fun c : LElem => c.tag == tag) := by
      funext c
      simp [Function.comp, realize_ns, realize_tag]
    rw [hpred]
  · rw [if_neg hv]
    have hpred : ((fun c : XElem => c.ns == v && c.tag == tag) ∘ realize u) =
        (fun _ : LElem => false) := by
      funext c
      simp only [Function.comp, realize_ns, realize_tag, Bool.and_eq_false_imp,
        beq_eq_false_iff_ne, ne_eq, beq_iff_eq]
      intro h
      exact absurd h.symm hv
    rw [hpred]
    simp

theorem find_ns_go_realize (l : LElem) (tag : String) {u : String} (hu : u ≠ "") :
    ∀ uris : List String, find_ns_go (realize u l) tag uris =
      if u ∈ uris then (lfind l tag).map (realize u) else none := by
  intro uris
  induction uris with
  | nil =>
    unfold find_ns_go
    rw [findTag_realize, if_neg (Ne.symm hu)]
    simp
  | cons v rest ih =>
    unfold find_ns_go
    rw [findTag_realize]
    by_cases hv : v = u
    · subst hv
      rw [if_pos rfl]
      cases hl : lfind l tag with
      | some r => simp
      | none =>
        simp only [Option.map_none']
        rw [ih, hl]
        split <;> simp
    · rw [if_neg hv]
      show find_ns_go (realize u l) tag rest = _
      rw [ih]
      by_cases hm : u ∈ rest
      · rw [if_pos hm, if_pos (List.mem_cons_of_mem v hm)]
      · rw [if_neg hm, if_neg (fun h => by
          rcases List.mem_cons.mp h with h | h
          · exact hv h.symm
          · exact hm h)]

theorem ns_uri_ne_empty {u : String} (hu : u ∈ NS_URIS) : u ≠ "" := by
  simp only [NS_URIS, List.mem_cons, List.not_mem_nil, or_false] at hu
  rcases hu with rfl | rfl | rfl | rfl <;> decide

theorem find_ns_realize (l : LElem) (tag : String) {u : String}
    (hu : u ∈ NS_URIS ∨ u = "") :
    find_ns (realize u l) tag = (lfind l tag).map (realize u) := by
  rcases hu with hu | rfl
  · rw [find_ns, find_ns_go_realize l tag (ns_uri_ne_empty hu), if_pos hu]
  · simp [find_ns, NS_URIS, find_ns_go, findTag_realize]

theorem flatten_findall_realize (l : LElem) (tag : String) {u : String} :
    ∀ uris : List String, uris.Nodup →
    ((uris.map (fun v => findallTag (realize u l) v tag)).flatten) =
      if u ∈ uris then (lfindall l tag).map (realize u) else [] := by
  intro uris
  induction uris with
  | nil => intro _; simp
  | cons v rest ih =>
    intro hnd
    simp only [List.map_cons, List.flatten_cons]
    rw [findallTag_realize, ih hnd.of_cons]
    by_cases hv : v = u
    · subst hv
      rw [if_pos rfl]
      have hvr : v ∉ rest := hnd.not_mem
      rw [if_neg hvr, if_pos (List.mem_cons_self v rest)]
      simp
    · rw [if_neg hv]
      by_cases hm : u ∈ rest
      · rw [if_pos hm, if_pos (List.mem_cons_of_mem v hm)]
        simp
      · rw [if_neg hm, if_neg (fun h => by
          rcases List.mem_cons.mp h with h | h
          · exact hv h.symm
          · exact hm h)]
        simp

theorem findall_ns_realize (l : LElem) (tag : String) {u : String}
    (hu : u ∈ NS_URIS ∨ u = "") :
    findall_ns (realize u l) tag = (lfindall l tag).map (realize u) := by
  unfold findall_ns
  rcases hu with hu | rfl
  · rw [flatten_findall_realize l tag NS_URIS (by decide), if_pos hu,
        findallTag_realize, if_neg (Ne.symm (ns_uri_ne_empty hu))]
    simp
  · rw [flatten_findall_realize l tag NS_URIS (by decide),
        if_neg (by decide), findallTag_realize, if_pos rfl]
    simp

/-! ### Namespace-independence of the parse (claim C7) -/

/-- The namespace-free reading of a resource element. -/
def lparse_resource (le : LElem) : Option ResourceItem :=
  let identifier := lgetAttr le "identifier" ""
  let resource_type := lgetAttr le "type" ""
  let href := lgetAttr le "href" ""
  if identifier = "" then none
  else
    let files := (lfindall le "file").filterMap (fun fe =>
      let fh := lgetAttr fe "href" ""
      if fh ≠ "" then some fh else none)
    some { identifier := identifier, resource_type := resource_type,
           href := href, files := files }

def lparse_manifest_resources (root : LElem) : List (String × ResourceItem) :=
  match lfind root "resources" with
  | none => []
  | some resources_elem =>
    (lfindall resources_elem "resource").foldl
      (fun acc relem =>
        match lparse_resource relem with
        | some r => assocUpd acc r.identifier r
        | none => acc) []

def lget_text (e : Option LElem) (default : String) : String :=
  match e with
  | some el => if el.text ≠ "" then pyStrip el.text else default
  | none => default

def lparse_module_item (item_elem : LElem) (position : Nat) : Option ModuleItem :=
  let identifier := lgetAttr item_elem "identifier" ""
  if identifier = "" then none
  else
    let title := lget_text (lfind item_elem "title") identifier
    let items := (lfindall item_elem "item").filterMap (fun sub =>
      let ref := lgetAttr sub "identifierref" ""
      if ref ≠ "" then some ref else none)
    some { identifier := identifier, title := title, position := position,
           items := items }

def lparse_modules (root : LElem) : List ModuleItem :=
  match lfind root "organizations" with
  | none => []
  | some orgs =>
    match lfind orgs "organization" with
    | none => []
    | some org =>
      ((lfindall org "item").foldl
        (fun (acc : List ModuleItem × Nat) item_elem =>
          match lparse_module_item item_elem acc.2 with
          | some m => (acc.1 ++ [m], acc.2 + 1)
          | none => acc) ([], 0)).1

theorem parse_resource_realize (le : LElem) {u : String}
    (hu : u ∈ NS_URIS ∨ u = "") :
    parse_resource (realize u le) = lparse_resource le := by
  unfold parse_resource lparse_resource
  rw [getAttr_realize, getAttr_realize, getAttr_realize,
      findall_ns_realize le "file" hu, List.filterMap_map]
  have hfe : ((fun fe : XElem =>
        let fh := getAttr fe "href" ""
        if fh ≠ "" then some fh else none) ∘ realize u) =
      (fun fe : LElem =>
        let fh := lgetAttr fe "href" ""
        if fh ≠ "" then some fh else none) := by
    funext fe
    simp [Function.comp, getAttr_realize]
  rw [hfe]

theorem parse_manifest_resources_realize (root : LElem) {u : String}
    (hu : u ∈ NS_URIS ∨ u = "") :
    parse_manifest_resources (realize u root) = lparse_manifest_resources root := by
  unfold parse_manifest_resources lparse_manifest_resources
  rw [find_ns_realize root "resources" hu]
  cases lfind root "resources" with
  | none => rfl
  | some relem =>
    simp only [Option.map_some']
    rw [findall_ns_realize relem "resource" hu, List.foldl_map]
    have hstep : (fun (acc : List (String × ResourceItem)) (e : LElem) =>
        match parse_resource (realize u e) with
        | some r => assocUpd acc r.identifier r
        | none => acc) =
        (fun acc e =>
        match lparse_resource e with
        | some r => assocUpd acc r.identifier r
        | none => acc) := by
      funext acc e
      rw [parse_resource_realize e hu]
    rw [hstep]

theorem get_text_realize (e : Option LElem) (u d : String) :
    get_text (e.map (realize u)) d = lget_text e d := by
  cases e with
  | none => rfl
  | some el =>
    unfold get_text lget_text
    simp only [Option.map_some']
    rw [realize_text]

theorem parse_module_item_realize (item : LElem) (pos : Nat) {u : String}
    (hu : u ∈ NS_URIS ∨ u = "") :
    parse_module_item (realize u item) pos = lparse_module_item item pos := by
  unfold parse_module_item lparse_module_item
  dsimp only
  rw [getAttr_realize, find_ns_realize item "title" hu, get_text_realize,
      findall_ns_realize item "item" hu, List.filterMap_map]
  have hsub : ((fun sub : XElem =>
        let ref := getAttr sub "identifierref" ""
        if ref ≠ "" then some ref else none) ∘ realize u) =
      (fun sub : LElem =>
        let ref := lgetAttr sub "identifierref" ""
        if ref ≠ "" then some ref else none) := by
    funext sub
    simp [Function.comp, getAttr_realize]
  rw [hsub]

theorem parse_modules_realize (root : LElem) {u : String}
    (hu : u ∈ NS_URIS ∨ u = "") :
    parse_modules (realize u root) = lparse_modules root := by
  unfold parse_modules lparse_modules
  rw [find_ns_realize root "organizations" hu]
  cases lfind root "organizations" with
  | none => rfl
  | some orgs =>
    simp only [Option.map_some']
    rw [find_ns_realize orgs "organization" hu]
    cases lfind orgs "organization" with
    | none => rfl
    | some org =>
      simp only [Option.map_some']
      rw [findall_ns_realize org "item" hu, List.foldl_map]
      have hstep : (fun (acc : List ModuleItem × Nat) (e : LElem) =>
          match parse_module_item (realize u e) acc.2 with
          | some m => (acc.1 ++ [m], acc.2 + 1)
          | none => acc) =
          (fun acc e =>
          match lparse_module_item e acc.2 with
          | some m => (acc.1 ++ [m], acc.2 + 1)
          | none => acc) := by
        funext acc e
        rw [parse_module_item_realize e acc.2 hu]
      rw [hstep]

/-- C7.  Expressing the same logical manifest in any of the known namespace
URIs, or in no namespace at all, yields an identical resource table and an
identical module list: every structural lookup tries each known URI in the
fixed priority order and falls back to no namespace, so the parse does not
depend on which namespace the producing system used. -/
theorem C7_namespace_fallback (L : LElem) (u : String)
    (hu : u ∈ NS_URIS ∨ u = "") :
    parse_manifest_resources (realize u L) =
      parse_manifest_resources (realize "" L) ∧
    parse_modules (realize u L) = parse_modules (realize "" L) :=
  ⟨(parse_manifest_resources_realize L hu).trans
      (parse_manifest_resources_realize L (Or.inr rfl)).symm,
   (parse_modules_realize L hu).trans
      (parse_modules_realize L (Or.inr rfl)).symm⟩

/-- A small concrete logical manifest: one webcontent resource with one file,
one module containing it. -/
def L0 : LElem :=
  .mk "manifest" [] ""
    [.mk "resources" [] ""
       [.mk "resource"
          [("identifier", "r1"), ("type", "webcontent"), ("href", "a.html")] ""
          [.mk "file" [("href", "a.html")] "" []]],
     .mk "organizations" [] ""
       [.mk "organization" [] ""
          [.mk "item" [("identifier", "m1")] ""
             [.mk "title" [] "Week 1" [],
              .mk "item" [("identifierref", "r1")] "" []]]]]

/-- C7 witness: the theorem at the concrete manifest and the primary
Common Cartridge namespace URI. -/
theorem C7_namespace_fallback_witness :
    parse_manifest_resources
        (realize "http://www.imsglobal.org/xsd/imsccv1p3/imscp_v1p1" L0) =
      parse_manifest_resources (realize "" L0) ∧
    parse_modules
        (realize "http://www.imsglobal.org/xsd/imsccv1p3/imscp_v1p1" L0) =
      parse_modules (realize "" L0) :=
  C7_namespace_fallback L0 "http://www.imsglobal.org/xsd/imsccv1p3/imscp_v1p1"
    (Or.inl (by decide))

/-! ## Asset registry (asset_registry.py)

Paths are modelled as `pathlib.Path` values: an absolute flag plus a segment
list (single dots and empty segments are removed at construction by
`pathlib`; `..` segments are kept).  Byte content is a `String`; the md5
digest of a file is modelled by its content (`hashKey`), since the code only
ever compares digests for equality.  The filesystem maps resolved segment
lists to file contents.  `save`/`load` persistence is outside the model. -/

/-- A `pathlib.Path` value. -/
structure PPath where
  isAbs : Bool
  segs : List String
deriving DecidableEq

/-- `pathlib` `/` operator: an absolute right operand replaces the left. -/
def PPath.join (a b : PPath) : PPath :=
  if b.isAbs then b else ⟨a.isAbs, a.segs ++ b.segs⟩

/-- `Path.name`. -/
def PPath.name (p : PPath) : String := (p.segs.getLast?).getD ""

/-- `Path.as_posix()`. -/
def PPath.asPosix (p : PPath) : String :=
  if p.isAbs then "/" ++ String.intercalate "/" p.segs
  else if p.segs.isEmpty then "." else String.intercalate "/" p.segs

/-- `Path.relative_to`: strip a lexical prefix, else raise (`none`). -/
def PPath.relativeTo (a b : PPath) : Option PPath :=
  if a.isAbs = b.isAbs ∧ b.segs.isPrefixOf a.segs then
    some ⟨false, a.segs.drop b.segs.length⟩
  else none

/-- Lexical `..`/`.` resolution, as the OS does for a symlink-free tree
(`..` at the root stays at the root). -/
def resolveSegs (segs : List String) : List String :=
  go [] segs
where
  go : List String → List String → List String
    | stack, [] => stack.reverse
    | stack, s :: rest =>
      if s = ".." then go stack.tail rest
      else if s = "." || s = "" then go stack rest
      else go (s :: stack) rest

/-- The filesystem: resolved segment list to file bytes. -/
abbrev DiskFS := List String → Option String

/-- `Path.is_file()` / `read_bytes()` on the modelled filesystem. -/
def fileAt (fs : DiskFS) (p : PPath) : Option String := fs (resolveSegs p.segs)

/-- `Path(path_str)`: parse a stored path string back into a path value. -/
def parsePath (s : String) : PPath :=
  match s.toList with
  | '/' :: rest => ⟨true, cleanSegs (splitSlash rest)⟩
  | cs => ⟨false, cleanSegs (splitSlash cs)⟩
where
  cleanSegs (segs : List (List Char)) : List String :=
    (segs.map (fun cs => String.mk cs)).filter (fun t => t ≠ "" && t ≠ ".")

/-- The registry key for a file's content digest. -/
def hashKey (content : String) : String := "content-hash-" ++ content

/-- One entry of the `assets` table. -/
structure AssetEntry where
  local_paths : List String := []
  canvas_file_id : Int
  canvas_url : String
  content_hash : String
  uploaded_at : Nat
  file_size : Option Int := none
  filename : String
deriving DecidableEq

/-- The registry document: `assets` and `path_lookup`, both
insertion-ordered string-keyed dicts. -/
structure AssetRegistry where
  assets : List (String × AssetEntry) := []
  path_lookup : List (String × String) := []
deriving DecidableEq

def emptyRegistry : AssetRegistry := {}

/-- `self.course_root / local_path` when the input is relative. -/
def resolveInput (root : PPath) (p : PPath) : PPath :=
  if !p.isAbs then root.join p else p

/-- The normalized storage form of a tracked path (lines 179-185). -/
def normName (root : PPath) (p : PPath) : String :=
  match (resolveInput root p).relativeTo root with
  | some rel => rel.asPosix
  | none => (resolveInput root p).asPosix

/-- Append `p` to an entry's `local_paths` when absent (lines 205-206). -/
def addPathEntry (p : String) (e : AssetEntry) : AssetEntry :=
  { e with local_paths :=
      if p ∈ e.local_paths then e.local_paths else e.local_paths ++ [p] }

/-- Append `p` to the `local_paths` of the entry at `hk` when absent. -/
def addLocalPath (assets : List (String × AssetEntry)) (hk p : String) :
    List (String × AssetEntry) :=
  assets.map (fun kv => if kv.1 = hk then (kv.1, addPathEntry p kv.2) else kv)

/-- The in-place field refresh of an existing entry (lines 199-202). -/
def updFields (cid : Int) (url : String) (now : Nat) (e : AssetEntry) :
    AssetEntry :=
  { e with canvas_file_id := cid, canvas_url := url, uploaded_at := now }

/-- Create-or-update of the `assets` entry at `hk` (lines 187-202). -/
def upsertAsset (assets : List (String × AssetEntry)) (hk : String)
    (ent : AssetEntry) (cid : Int) (url : String) (now : Nat) :
    List (String × AssetEntry) :=
  if (assets.lookup hk).isSome then
    assets.map (fun kv =>
      if kv.1 = hk then (kv.1, updFields cid url now kv.2) else kv)
  else assets ++ [(hk, ent)]

/-- Register one alias string for the entry at `hk`: append it to the
entry's `local_paths` when absent and point `path_lookup` at `hk`
(lines 204-209 and 218-220). -/
def registerAlias (reg : AssetRegistry) (hk p : String) : AssetRegistry :=
  { assets := addLocalPath reg.assets hk p,
    path_lookup := assocUpd reg.path_lookup p hk }

/-- The conventional content-folder alias (lines 211-222):
`Path("../../assets") / local_path.relative_to(course_root / "assets")`. -/
def synthAlias (relAssets : PPath) : PPath :=
  PPath.join ⟨false, ["..", "..", "assets"]⟩ relAssets

/-- `AssetRegistry.track_upload` (lines 148-222).  Raises
(`FileNotFoundError`) when the file does not exist — before any mutation. -/
def track_upload (root : PPath) (fs : DiskFS) (reg : AssetRegistry)
    (local_path : PPath) (canvas_file_id : Int) (canvas_url : String)
    (file_size : Option Int) (now : Nat) : Except Unit AssetRegistry :=
  let lp := resolveInput root local_path
  match fileAt fs lp with
  | none => throw ()
  | some content =>
    let hash_key := hashKey content
    let filename := lp.name
    let file_size := match file_size with
      | some s => some s
      | none => some (content.length : Int)
    let normalized_path := normName root local_path
    let newEnt : AssetEntry :=
      { local_paths := [], canvas_file_id := canvas_file_id,
        canvas_url := canvas_url, content_hash := content,
        uploaded_at := now, file_size := file_size, filename := filename }
    let r1 := registerAlias
      { assets := upsertAsset reg.assets hash_key newEnt canvas_file_id
          canvas_url now,
        path_lookup := reg.path_lookup }
      hash_key normalized_path
    match lp.relativeTo (root.join ⟨false, ["assets"]⟩) with
    | some relAssets =>
      let rel_from_content := (synthAlias relAssets).asPosix
      if (r1.path_lookup.lookup rel_from_content).isSome then
        pure r1
      else
        pure (registerAlias r1 hash_key rel_from_content)
    | none => pure r1

/-! ### Association-list lemmas (the two registry dicts) -/

theorem lookup_nil {β : Type} (k : String) :
    (([] : List (String × β)).lookup k) = none := rfl

theorem lookup_cons {β : Type} (a : String) (b : β) (t : List (String × β))
    (k : String) :
    (((a, b) :: t).lookup k) = if a = k then some b else t.lookup k := by
  by_cases h : a = k
  · subst h
    simp [List.lookup]
  · have hb : (k == a) = false := by
      rw [beq_eq_false_iff_ne]
      exact fun e => h e.symm
    simp [List.lookup, hb, h]

theorem lookup_some_mem {β : Type} {l : List (String × β)} {k : String} {v : β}
    (h : l.lookup k = some v) : (k, v) ∈ l := by
  induction l with
  | nil => simp [lookup_nil] at h
  | cons kv t ih =>
    obtain ⟨a, b⟩ := kv
    rw [lookup_cons] at h
    by_cases hak : a = k
    · rw [if_pos hak] at h
      subst hak
      obtain rfl : b = v := Option.some_injective _ h
      exact List.mem_cons_self _ _
    · rw [if_neg hak] at h
      exact List.mem_cons_of_mem _ (ih h)

theorem mem_lookup_of_nodup {β : Type} {l : List (String × β)}
    (hnd : (l.map Prod.fst).Nodup) {k : String} {v : β} (h : (k, v) ∈ l) :
    l.lookup k = some v := by
  induction l with
  | nil => simp at h
  | cons kv t ih =>
    obtain ⟨a, b⟩ := kv
    simp only [List.map_cons, List.nodup_cons] at hnd
    rw [lookup_cons]
    rcases List.mem_cons.mp h with heq | hmem
    · simp only [Prod.mk.injEq] at heq
      obtain ⟨rfl, rfl⟩ := heq
      rw [if_pos rfl]
    · have hak : a ≠ k := by
        intro hk
        exact hnd.1 (hk ▸ (List.mem_map.mpr ⟨(k, v), hmem, rfl⟩))
      rw [if_neg hak]
      exact ih hnd.2 hmem

theorem lookup_none_iff {β : Type} (l : List (String × β)) (k : String) :
    l.lookup k = none ↔ k ∉ l.map Prod.fst := by
  induction l with
  | nil => simp [lookup_nil]
  | cons kv t ih =>
    obtain ⟨a, b⟩ := kv
    rw [lookup_cons]
    by_cases hak : a = k
    · subst hak
      simp
    · simp [hak, ih, Ne.symm hak]

theorem lookup_append_pair {β : Type} (l : List (String × β)) (a : String)
    (b : β) (k : String) :
    (l ++ [(a, b)]).lookup k =
      (match l.lookup k with
       | some w => some w
       | none => if a = k then some b else none) := by
  induction l with
  | nil =>
    rw [List.nil_append, lookup_cons, lookup_nil]
  | cons hd t ih =>
    obtain ⟨c, d⟩ := hd
    rw [List.cons_append, lookup_cons, lookup_cons, ih]
    by_cases hck : c = k
    · rw [if_pos hck, if_pos hck]
    · rw [if_neg hck, if_neg hck]

theorem lookup_updEntry {β : Type} (l : List (String × β)) (k kq : String)
    (f : β → β) :
    (l.map (fun kv => if kv.1 = k then (kv.1, f kv.2) else kv)).lookup kq =
      if kq = k then (l.lookup k).map f else l.lookup kq := by
  induction l with
  | nil => by_cases h : kq = k <;> simp [lookup_nil, h]
  | cons kv t ih =>
    obtain ⟨a, b⟩ := kv
    rw [List.map_cons]
    dsimp only
    by_cases hak : a = k
    · rw [if_pos hak, lookup_cons, lookup_cons, lookup_cons, ih]
      by_cases hq : a = kq
      · have hqk : kq = k := hq ▸ hak
        simp [hq, hqk, hak]
      · have hqk : ¬kq = k := fun e => hq (hak.trans e.symm)
        simp [hq, hqk]
    · rw [if_neg hak, lookup_cons, lookup_cons, lookup_cons, ih]
      by_cases hq : a = kq
      · have hqk : ¬kq = k := fun e => hak (hq.trans e)
        simp [hq, hqk, hak]
      · simp [hq, hak]

theorem lookup_updConst {β : Type} (l : List (String × β)) (k kq : String)
    (v : β) :
    (l.map (fun kv => if kv.1 = k then (k, v) else kv)).lookup kq =
      if kq = k then (l.lookup k).map (fun _ => v) else l.lookup kq := by
  have hfun : (fun kv : String × β => if kv.1 = k then (k, v) else kv) =
      (fun kv : String × β => if kv.1 = k then (kv.1, (fun _ => v) kv.2) else kv) := by
    funext kv
    by_cases h : kv.1 = k
    · rw [if_pos h, if_pos h, h]
    · rw [if_neg h, if_neg h]
  rw [hfun]
  exact lookup_updEntry l k kq (fun _ => v)

theorem lookup_assocUpd {β : Type} (l : List (String × β)) (k kq : String)
    (v : β) :
    (assocUpd l k v).lookup kq = if kq = k then some v else l.lookup kq := by
  unfold assocUpd
  by_cases hany : l.any (fun kv => kv.1 = k)
  · have hsome : ∃ w, l.lookup k = some w := by
      simp only [List.any_eq_true, decide_eq_true_eq] at hany
      obtain ⟨kv, hmem, hk⟩ := hany
      rcases hl : l.lookup k with _ | w
      · exact absurd (hk ▸ List.mem_map.mpr ⟨kv, hmem, rfl⟩)
          ((lookup_none_iff l k).mp hl)
      · exact ⟨w, rfl⟩
    obtain ⟨w, hw⟩ := hsome
    rw [if_pos hany, lookup_updConst, hw]
    by_cases hq : kq = k
    · rw [if_pos hq, if_pos hq]
      rfl
    · rw [if_neg hq, if_neg hq]
  · have hnone : l.lookup k = none := by
      rw [lookup_none_iff]
      intro hmem
      obtain ⟨kv, hkv, hk⟩ := List.mem_map.mp hmem
      exact hany (List.any_eq_true.mpr ⟨kv, hkv, by simp [hk]⟩)
    rw [if_neg hany, lookup_append_pair]
    by_cases hq : kq = k
    · subst hq
      rw [hnone, if_pos rfl]
    · rw [if_neg hq]
      rcases hl : l.lookup kq with _ | w
      · show (if k = kq then some v else none) = none
        rw [if_neg (fun h => hq h.symm)]
      · rfl

theorem nodupKeys_updEntry {β : Type} {l : List (String × β)}
    (h : (l.map Prod.fst).Nodup) (k : String) (f : β → β) :
    ((l.map (fun kv => if kv.1 = k then (kv.1, f kv.2) else kv)).map
      Prod.fst).Nodup := by
  have hmap : (l.map (fun kv => if kv.1 = k then (kv.1, f kv.2) else kv)).map
      Prod.fst = l.map Prod.fst := by
    rw [List.map_map]
    apply List.map_congr_left
    intro kv _
    by_cases hk : kv.1 = k
    · simp [hk]
    · simp [hk]
  rw [hmap]
  exact h

theorem nodupKeys_assocUpd {β : Type} {l : List (String × β)}
    (h : (l.map Prod.fst).Nodup) (k : String) (v : β) :
    ((assocUpd l k v).map Prod.fst).Nodup := by
  unfold assocUpd
  by_cases hany : l.any (fun kv => kv.1 = k)
  · rw [if_pos hany]
    have hfun : (fun kv : String × β => if kv.1 = k then (k, v) else kv) =
        (fun kv : String × β => if kv.1 = k then (kv.1, (fun _ => v) kv.2) else kv) := by
      funext kv
      by_cases hk : kv.1 = k
      · rw [if_pos hk, if_pos hk, hk]
      · rw [if_neg hk, if_neg hk]
    rw [hfun]
    exact nodupKeys_updEntry h k (fun _ => v)
  · rw [if_neg hany, List.map_append]
    rw [List.nodup_append]
    refine ⟨h, List.nodup_singleton _, ?_⟩
    intro a ha hb
    simp only [List.map_cons, List.map_nil, List.mem_singleton] at hb
    subst hb
    obtain ⟨kv, hkv, hk⟩ := List.mem_map.mp ha
    exact hany (List.any_eq_true.mpr ⟨kv, hkv, by simp [hk]⟩)

theorem nodupKeys_filter {β : Type} {l : List (String × β)}
    (h : (l.map Prod.fst).Nodup) (q : String × β → Bool) :
    ((l.filter q).map Prod.fst).Nodup :=
  List.Nodup.sublist (List.Sublist.map Prod.fst (List.filter_sublist l)) h

theorem lookup_filter_of_nodup {β : Type} {l : List (String × β)}
    (hnd : (l.map Prod.fst).Nodup) (q : String × β → Bool) {k : String}
    {v : β} (h : (l.filter q).lookup k = some v) :
    l.lookup k = some v ∧ q (k, v) = true := by
  have hmem := lookup_some_mem h
  rw [List.mem_filter] at hmem
  exact ⟨mem_lookup_of_nodup hnd hmem.1, hmem.2⟩

theorem nodup_keys_mem_eq {β : Type} {l : List (String × β)}
    (hnd : (l.map Prod.fst).Nodup) {k : String} {a b : β}
    (ha : (k, a) ∈ l) (hb : (k, b) ∈ l) : a = b := by
  have h1 := mem_lookup_of_nodup hnd ha
  have h2 := mem_lookup_of_nodup hnd hb
  rw [h1] at h2
  exact Option.some_injective _ h2


/-- The filename-only last resort of `get_canvas_url` (lines 256-260). -/
def urlByFilename (reg : AssetRegistry) (p : PPath) : Option String :=
  (reg.assets.find? (fun kv => kv.2.filename == p.name)).map
    (fun kv => kv.2.canvas_url)

/-- `AssetRegistry.get_canvas_url` (lines 224-262): exact alias match, then
content-hash match of the file on disk, then filename match.  A dangling
`path_lookup` entry would raise a `KeyError` (`self.assets[hash_key]`). -/
def get_canvas_url (root : PPath) (fs : DiskFS) (reg : AssetRegistry)
    (local_path : PPath) : Except Unit (Option String) :=
  let normalized := local_path.asPosix
  match reg.path_lookup.lookup normalized with
  | some hash_key =>
    match reg.assets.lookup hash_key with
    | some e => pure (some e.canvas_url)
    | none => throw ()
  | none =>
    let path_obj := resolveInput root local_path
    match fileAt fs path_obj with
    | some content =>
      match reg.assets.lookup (hashKey content) with
      | some e => pure (some e.canvas_url)
      | none => pure (urlByFilename reg local_path)
    | none => pure (urlByFilename reg local_path)

/-- `AssetRegistry.prune_missing` (lines 336-370): drop every entry none of
whose aliases resolves to an existing file, and un-index those aliases. -/
def prune_missing (root : PPath) (fs : DiskFS) (reg : AssetRegistry) :
    AssetRegistry :=
  let to_remove := reg.assets.filter (fun kv =>
    !(kv.2.local_paths.any (fun ps =>
        (fileAt fs (root.join (parsePath ps))).isSome)))
  let removedKeys := to_remove.map (fun kv => kv.1)
  let removedPaths := (to_remove.map (fun kv => kv.2.local_paths)).flatten
  { assets := reg.assets.filter (fun kv => !(removedKeys.contains kv.1)),
    path_lookup := reg.path_lookup.filter (fun kv => !(removedPaths.contains kv.1)) }

/-! ### C9: the path_lookup/assets coherence invariant -/

/-- Spec section 4.5: every `path_lookup` image is a live `assets` key and
the looked-up path is among that entry's `local_paths`. -/
def RegInv (reg : AssetRegistry) : Prop :=
  ∀ p hk, reg.path_lookup.lookup p = some hk →
    ∃ e, reg.assets.lookup hk = some e ∧ p ∈ e.local_paths

/-- Both registry dicts have unique keys (as Python dicts do). -/
def RegWF (reg : AssetRegistry) : Prop :=
  (reg.assets.map Prod.fst).Nodup ∧ (reg.path_lookup.map Prod.fst).Nodup

theorem mem_addPathEntry_self (p : String) (e : AssetEntry) :
    p ∈ (addPathEntry p e).local_paths := by
  unfold addPathEntry
  by_cases h : p ∈ e.local_paths
  · simpa [h]
  · simp [h]

theorem mem_addPathEntry_mono {x : String} {e : AssetEntry}
    (h : x ∈ e.local_paths) (p : String) :
    x ∈ (addPathEntry p e).local_paths := by
  unfold addPathEntry
  by_cases hp : p ∈ e.local_paths
  · simpa [hp]
  · simp only [hp, ite_false, List.mem_append]
    exact Or.inl h

theorem lookup_addLocalPath (A : List (String × AssetEntry)) (hk p kq : String) :
    (addLocalPath A hk p).lookup kq =
      if kq = hk then (A.lookup hk).map (addPathEntry p) else A.lookup kq := by
  unfold addLocalPath
  exact lookup_updEntry A hk kq (addPathEntry p)

theorem lookup_upsert_self (A : List (String × AssetEntry)) (hk : String)
    (ent : AssetEntry) (cid : Int) (url : String) (now : Nat) :
    ((upsertAsset A hk ent cid url now).lookup hk).isSome := by
  unfold upsertAsset
  by_cases h : (A.lookup hk).isSome
  · rw [if_pos h, lookup_updEntry, if_pos rfl]
    rcases hl : A.lookup hk with _ | w
    · rw [hl] at h
      simp at h
    · simp
  · have hnone : A.lookup hk = none := by
      rcases hl : A.lookup hk with _ | w
      · rfl
      · rw [hl] at h
        simp at h
    rw [if_neg h, lookup_append_pair, hnone]
    simp

theorem lookup_upsert_other (A : List (String × AssetEntry)) {hk kq : String}
    (h : ¬kq = hk) (ent : AssetEntry) (cid : Int) (url : String) (now : Nat) :
    (upsertAsset A hk ent cid url now).lookup kq = A.lookup kq := by
  unfold upsertAsset
  by_cases hs : (A.lookup hk).isSome
  · rw [if_pos hs, lookup_updEntry, if_neg h]
  · rw [if_neg hs, lookup_append_pair]
    rcases hl : A.lookup kq with _ | w
    · show (if hk = kq then some ent else none) = none
      rw [if_neg (fun e => h e.symm)]
    · rfl

theorem lookup_upsert_preserved (A : List (String × AssetEntry)) (hk : String)
    (ent : AssetEntry) (cid : Int) (url : String) (now : Nat) {kq : String}
    {e : AssetEntry} (h : A.lookup kq = some e) :
    ∃ e2, (upsertAsset A hk ent cid url now).lookup kq = some e2 ∧
      e2.local_paths = e.local_paths := by
  by_cases hq : kq = hk
  · subst hq
    unfold upsertAsset
    rw [if_pos (by rw [h]; rfl), lookup_updEntry, if_pos rfl, h]
    exact ⟨updFields cid url now e, rfl, rfl⟩
  · rw [lookup_upsert_other A hq ent cid url now, h]
    exact ⟨e, rfl, rfl⟩

theorem RegInv_registerAlias {reg : AssetRegistry} (hInv : RegInv reg)
    {hk : String} (hsome : (reg.assets.lookup hk).isSome) (p : String) :
    RegInv (registerAlias reg hk p) := by
  intro q hk2 hq
  unfold registerAlias at hq ⊢
  dsimp only at hq ⊢
  rw [lookup_assocUpd] at hq
  by_cases hqp : q = p
  · rw [if_pos hqp] at hq
    obtain rfl : hk = hk2 := Option.some_injective _ hq
    rcases hl : reg.assets.lookup hk with _ | e
    · rw [hl] at hsome
      simp at hsome
    · refine ⟨addPathEntry p e, ?_, ?_⟩
      · rw [lookup_addLocalPath, if_pos rfl, hl]
        rfl
      · rw [hqp]
        exact mem_addPathEntry_self p e
  · rw [if_neg hqp] at hq
    obtain ⟨e, he, hm⟩ := hInv q hk2 hq
    by_cases hkk : hk2 = hk
    · subst hkk
      refine ⟨addPathEntry p e, ?_, mem_addPathEntry_mono hm p⟩
      rw [lookup_addLocalPath, if_pos rfl, he]
      rfl
    · refine ⟨e, ?_, hm⟩
      rw [lookup_addLocalPath, if_neg hkk]
      exact he

theorem registerAlias_lookup_some {reg : AssetRegistry} {hk : String}
    (hsome : (reg.assets.lookup hk).isSome) (p : String) :
    ((registerAlias reg hk p).assets.lookup hk).isSome := by
  unfold registerAlias
  dsimp only
  rw [lookup_addLocalPath, if_pos rfl]
  rcases hl : reg.assets.lookup hk with _ | e
  · rw [hl] at hsome
    simp at hsome
  · simp

theorem RegInv_upsert {reg : AssetRegistry} (hInv : RegInv reg)
    (hk : String) (ent : AssetEntry) (cid : Int) (url : String) (now : Nat) :
    RegInv { assets := upsertAsset reg.assets hk ent cid url now,
             path_lookup := reg.path_lookup } := by
  intro q hk2 hq
  dsimp only at hq ⊢
  obtain ⟨e, he, hm⟩ := hInv q hk2 hq
  obtain ⟨e2, he2, hlp⟩ := lookup_upsert_preserved reg.assets hk ent cid url now he
  exact ⟨e2, he2, hlp ▸ hm⟩

/-- Every successful `track_upload` is one or two `registerAlias` steps on
top of the create-or-update of the content-hash entry. -/
theorem track_upload_ok_form {root : PPath} {fs : DiskFS} {reg : AssetRegistry}
    {p : PPath} {cid : Int} {url : String} {sz : Option Int} {now : Nat}
    {r : AssetRegistry}
    (hr : track_upload root fs reg p cid url sz now = Except.ok r) :
    ∃ content ent s,
      fileAt fs (resolveInput root p) = some content ∧
      (r = registerAlias
            { assets := upsertAsset reg.assets (hashKey content) ent cid url now,
              path_lookup := reg.path_lookup }
            (hashKey content) (normName root p) ∨
       r = registerAlias
            (registerAlias
              { assets := upsertAsset reg.assets (hashKey content) ent cid url now,
                path_lookup := reg.path_lookup }
              (hashKey content) (normName root p))
            (hashKey content) s) := by
  unfold track_upload at hr
  dsimp only at hr
  rcases hfs : fileAt fs (resolveInput root p) with _ | content
  · rw [hfs] at hr
    exact absurd hr (by simp [throw, throwThe, MonadExceptOf.throw])
  · rw [hfs] at hr
    dsimp only at hr
    repeat split at hr
    all_goals
      (cases hr
       first
         | exact ⟨content, _, "", rfl, Or.inl rfl⟩
         | exact ⟨content, _, _, rfl, Or.inr rfl⟩)

theorem RegInv_track {root : PPath} {fs : DiskFS} {reg : AssetRegistry}
    (hInv : RegInv reg) {p : PPath} {cid : Int} {url : String}
    {sz : Option Int} {now : Nat} {r : AssetRegistry}
    (hr : track_upload root fs reg p cid url sz now = Except.ok r) :
    RegInv r := by
  obtain ⟨content, ent, s, _, hform⟩ := track_upload_ok_form hr
  have h1 : RegInv (registerAlias
      { assets := upsertAsset reg.assets (hashKey content) ent cid url now,
        path_lookup := reg.path_lookup }
      (hashKey content) (normName root p)) :=
    RegInv_registerAlias (RegInv_upsert hInv _ _ _ _ _)
      (lookup_upsert_self _ _ _ _ _ _) _
  rcases hform with rfl | rfl
  · exact h1
  · exact RegInv_registerAlias h1
      (registerAlias_lookup_some (lookup_upsert_self _ _ _ _ _ _) _) _

theorem RegWF_registerAlias {reg : AssetRegistry} (h : RegWF reg)
    (hk p : String) : RegWF (registerAlias reg hk p) := by
  constructor
  · unfold registerAlias addLocalPath
    dsimp only
    exact nodupKeys_updEntry h.1 hk _
  · unfold registerAlias
    dsimp only
    exact nodupKeys_assocUpd h.2 p hk

theorem RegWF_upsert {reg : AssetRegistry} (h : RegWF reg) (hk : String)
    (ent : AssetEntry) (cid : Int) (url : String) (now : Nat) :
    RegWF { assets := upsertAsset reg.assets hk ent cid url now,
            path_lookup := reg.path_lookup } := by
  refine ⟨?_, h.2⟩
  dsimp only
  unfold upsertAsset
  by_cases hs : (reg.assets.lookup hk).isSome
  · rw [if_pos hs]
    exact nodupKeys_updEntry h.1 hk _
  · have hnone : reg.assets.lookup hk = none := by
      rcases hl : reg.assets.lookup hk with _ | w
      · rfl
      · rw [hl] at hs
        simp at hs
    rw [if_neg hs, List.map_append, List.nodup_append]
    refine ⟨h.1, List.nodup_singleton _, ?_⟩
    intro a ha hb
    simp only [List.map_cons, List.map_nil, List.mem_singleton] at hb
    subst hb
    exact (lookup_none_iff _ _).mp hnone ha

theorem RegWF_track {root : PPath} {fs : DiskFS} {reg : AssetRegistry}
    (hWF : RegWF reg) {p : PPath} {cid : Int} {url : String}
    {sz : Option Int} {now : Nat} {r : AssetRegistry}
    (hr : track_upload root fs reg p cid url sz now = Except.ok r) :
    RegWF r := by
  obtain ⟨content, ent, s, _, hform⟩ := track_upload_ok_form hr
  have h1 := RegWF_registerAlias (RegWF_upsert hWF (hashKey content) ent cid url now)
    (hashKey content) (normName root p)
  rcases hform with rfl | rfl
  · exact h1
  · exact RegWF_registerAlias h1 (hashKey content) s

theorem RegWF_prune (root : PPath) (fs : DiskFS) {reg : AssetRegistry}
    (h : RegWF reg) : RegWF (prune_missing root fs reg) := by
  unfold prune_missing
  exact ⟨nodupKeys_filter h.1 _, nodupKeys_filter h.2 _⟩

theorem contains_false_not_mem {l : List String} {a : String}
    (h : l.contains a = false) : a ∉ l := by
  simp only [List.contains_eq_any_beq] at h
  intro hm
  simp [List.any_eq_true] at h
  exact h a hm rfl

theorem not_mem_contains_false {l : List String} {a : String}
    (h : a ∉ l) : l.contains a = false := by
  rw [List.contains_eq_any_beq, List.any_eq_false]
  intro x hx
  simp only [Bool.not_eq_true]
  rw [beq_eq_false_iff_ne]
  intro e
  cases e
  exact h hx

theorem RegInv_prune (root : PPath) (fs : DiskFS) {reg : AssetRegistry}
    (hWF : RegWF reg) (hInv : RegInv reg) :
    RegInv (prune_missing root fs reg) := by
  intro q hk hq
  unfold prune_missing at hq ⊢
  dsimp only at hq ⊢
  obtain ⟨hq0, hkeep⟩ := lookup_filter_of_nodup hWF.2 _ hq
  obtain ⟨e, he, hm⟩ := hInv q hk hq0
  have hmeme : (hk, e) ∈ reg.assets := lookup_some_mem he
  have hqnot : q ∉ ((reg.assets.filter (fun kv =>
      !(kv.2.local_paths.any (fun ps =>
        (fileAt fs (root.join (parsePath ps))).isSome)))).map
      (fun kv => kv.2.local_paths)).flatten := by
    rw [Bool.not_eq_true'] at hkeep
    exact contains_false_not_mem hkeep
  have hknot : (hk, e) ∉ reg.assets.filter (fun kv =>
      !(kv.2.local_paths.any (fun ps =>
        (fileAt fs (root.join (parsePath ps))).isSome))) := by
    intro hrem
    exact hqnot (List.mem_flatten.mpr
      ⟨e.local_paths, List.mem_map.mpr ⟨(hk, e), hrem, rfl⟩, hm⟩)
  have hknotin : hk ∉ (reg.assets.filter (fun kv =>
      !(kv.2.local_paths.any (fun ps =>
        (fileAt fs (root.join (parsePath ps))).isSome)))).map
      (fun kv => kv.1) := by
    intro hmemk
    obtain ⟨kv, hkv, hfst⟩ := List.mem_map.mp hmemk
    have hkvassets : kv ∈ reg.assets := (List.mem_filter.mp hkv).1
    obtain ⟨k1, e1⟩ := kv
    obtain rfl : k1 = hk := hfst
    obtain rfl : e1 = e := nodup_keys_mem_eq hWF.1 hkvassets hmeme
    exact hknot hkv
  refine ⟨e, ?_, hm⟩
  apply mem_lookup_of_nodup (nodupKeys_filter hWF.1 _)
  apply List.mem_filter.mpr
  refine ⟨hmeme, ?_⟩
  dsimp only
  rw [Bool.not_eq_true']
  exact not_mem_contains_false hknotin

/-- One registry mutation: a (possibly failing) upload tracking against
some filesystem state, or a prune against some filesystem state. -/
inductive RegOp where
  | track (fs : DiskFS) (p : PPath) (cid : Int) (url : String)
      (sz : Option Int) (now : Nat)
  | prune (fs : DiskFS)

/-- Apply one operation; a raising `track_upload` leaves the registry
unchanged (the exception fires before any mutation). -/
def regStep (root : PPath) (reg : AssetRegistry) : RegOp → AssetRegistry
  | RegOp.track fs p cid url sz now =>
    match track_upload root fs reg p cid url sz now with
    | Except.ok r => r
    | Except.error _ => reg
  | RegOp.prune fs => prune_missing root fs reg

theorem RegWF_RegInv_foldl (root : PPath) (ops : List RegOp)
    (reg : AssetRegistry) (h : RegWF reg ∧ RegInv reg) :
    RegWF (ops.foldl (regStep root) reg) ∧
      RegInv (ops.foldl (regStep root) reg) := by
  induction ops generalizing reg with
  | nil => exact h
  | cons op rest ih =>
    rw [List.foldl_cons]
    apply ih
    cases op with
    | track fs p cid url sz now =>
      show RegWF (regStep root reg (RegOp.track fs p cid url sz now)) ∧ _
      unfold regStep
      dsimp only
      rcases hr : track_upload root fs reg p cid url sz now with e | r
      · exact h
      · exact ⟨RegWF_track h.1 hr, RegInv_track h.2 hr⟩
    | prune fs =>
      exact ⟨RegWF_prune root fs h.1, RegInv_prune root fs h.1 h.2⟩

/-- C9: starting from the empty registry, after any sequence of registry
operations — `track_upload` calls (including the synthesized-alias
registration; a raising call mutates nothing) and `prune_missing` calls,
each against an arbitrary filesystem state — every `path_lookup` binding
`path ↦ hash_key` names an existing `assets` entry whose `local_paths`
contains `path`. -/
theorem C9_registry_invariant (root : PPath) (ops : List RegOp) :
    RegInv (ops.foldl (regStep root) emptyRegistry) :=
  (RegWF_RegInv_foldl root ops emptyRegistry
    ⟨⟨List.nodup_nil, List.nodup_nil⟩,
     fun _ _ h => absurd h (by simp [emptyRegistry, lookup_nil])⟩).2

/-! ### C6: content-hash deduplication of `track_upload` -/

/-- The alias set of the entry at `hk` (empty when the entry is absent). -/
def aliasSet (reg : AssetRegistry) (hk : String) : List String :=
  match reg.assets.lookup hk with
  | some e => e.local_paths
  | none => []

/-- The value `track_upload` returns once the digest of the existing file
is known: the source's lines 172-222 as a total function. -/
def trackOk (root : PPath) (reg : AssetRegistry) (p : PPath) (cid : Int)
    (url : String) (sz : Option Int) (now : Nat) (content : String) :
    AssetRegistry :=
  let lp := resolveInput root p
  let hash_key := hashKey content
  let file_size := match sz with
    | some s => some s
    | none => some (content.length : Int)
  let newEnt : AssetEntry :=
    { local_paths := [], canvas_file_id := cid, canvas_url := url,
      content_hash := content, uploaded_at := now, file_size := file_size,
      filename := lp.name }
  let r1 := registerAlias
    { assets := upsertAsset reg.assets hash_key newEnt cid url now,
      path_lookup := reg.path_lookup } hash_key (normName root p)
  match lp.relativeTo (root.join ⟨false, ["assets"]⟩) with
  | some relAssets =>
    let rel_from_content := (synthAlias relAssets).asPosix
    if (r1.path_lookup.lookup rel_from_content).isSome then r1
    else registerAlias r1 hash_key rel_from_content
  | none => r1

theorem track_upload_eq_trackOk {root : PPath} {fs : DiskFS}
    {reg : AssetRegistry} {p : PPath} {cid : Int} {url : String}
    {sz : Option Int} {now : Nat} {c : String}
    (hfs : fileAt fs (resolveInput root p) = some c) :
    track_upload root fs reg p cid url sz now =
      Except.ok (trackOk root reg p cid url sz now c) := by
  unfold track_upload trackOk
  dsimp only
  rw [hfs]
  dsimp only
  split
  · split
    · rfl
    · rfl
  · rfl

theorem keys_updEntry {β : Type} (l : List (String × β)) (k : String)
    (f : β → β) :
    (l.map (fun kv => if kv.1 = k then (kv.1, f kv.2) else kv)).map Prod.fst =
      l.map Prod.fst := by
  rw [List.map_map]
  apply List.map_congr_left
  intro kv _
  by_cases hk : kv.1 = k
  · simp [hk]
  · simp [hk]

theorem keys_registerAlias (reg : AssetRegistry) (hk p : String) :
    (registerAlias reg hk p).assets.map Prod.fst = reg.assets.map Prod.fst := by
  unfold registerAlias addLocalPath
  dsimp only
  exact keys_updEntry _ _ _

theorem keys_upsert (A : List (String × AssetEntry)) (hk : String)
    (ent : AssetEntry) (cid : Int) (url : String) (now : Nat) :
    (upsertAsset A hk ent cid url now).map Prod.fst =
      if (A.lookup hk).isSome then A.map Prod.fst
      else A.map Prod.fst ++ [hk] := by
  unfold upsertAsset
  by_cases hs : (A.lookup hk).isSome
  · rw [if_pos hs, if_pos hs]
    exact keys_updEntry _ _ _
  · rw [if_neg hs, if_neg hs, List.map_append]
    rfl

theorem keys_trackOk (root : PPath) (reg : AssetRegistry) (p : PPath)
    (cid : Int) (url : String) (sz : Option Int) (now : Nat) (c : String) :
    (trackOk root reg p cid url sz now c).assets.map Prod.fst =
      if (reg.assets.lookup (hashKey c)).isSome then reg.assets.map Prod.fst
      else reg.assets.map Prod.fst ++ [hashKey c] := by
  unfold trackOk
  dsimp only
  split
  · split
    · rw [keys_registerAlias]
      dsimp only
      rw [keys_upsert]
    · rw [keys_registerAlias, keys_registerAlias]
      dsimp only
      rw [keys_upsert]
  · rw [keys_registerAlias]
    dsimp only
    rw [keys_upsert]

theorem addPathEntry_canvas_url (p : String) (e : AssetEntry) :
    (addPathEntry p e).canvas_url = e.canvas_url := rfl

theorem addPathEntry_mem_noop {p : String} {e : AssetEntry}
    (h : p ∈ e.local_paths) : addPathEntry p e = e := by
  unfold addPathEntry
  rw [if_pos h]

theorem registerAlias_entry {reg : AssetRegistry} {hk : String}
    {e : AssetEntry} (he : reg.assets.lookup hk = some e) (p : String) :
    (registerAlias reg hk p).assets.lookup hk = some (addPathEntry p e) := by
  unfold registerAlias
  dsimp only
  rw [lookup_addLocalPath, if_pos rfl, he]
  rfl

theorem upsert_entry (A : List (String × AssetEntry)) (hk : String)
    (ent : AssetEntry) (cid : Int) (url : String) (now : Nat)
    (hu : ent.canvas_url = url) (hc : ent.canvas_file_id = cid) :
    ∃ e, (upsertAsset A hk ent cid url now).lookup hk = some e ∧
      e.canvas_url = url ∧ e.canvas_file_id = cid ∧
      ((∃ e0, A.lookup hk = some e0 ∧ e.local_paths = e0.local_paths) ∨
       (A.lookup hk = none ∧ e = ent)) := by
  unfold upsertAsset
  by_cases hs : (A.lookup hk).isSome
  · rcases hl : A.lookup hk with _ | e0
    · rw [hl] at hs
      simp at hs
    · refine ⟨updFields cid url now e0, ?_, rfl, rfl, Or.inl ⟨e0, rfl, rfl⟩⟩
      have hcond : (some e0 : Option AssetEntry).isSome = true := rfl
      rw [if_pos hcond, lookup_updEntry, if_pos rfl, hl]
      rfl
  · have hnone : A.lookup hk = none := by
      rcases hl : A.lookup hk with _ | w
      · rfl
      · rw [hl] at hs
        simp at hs
    refine ⟨ent, ?_, hu, hc, Or.inr ⟨hnone, rfl⟩⟩
    rw [if_neg hs, lookup_append_pair, hnone]
    show (if hk = hk then some ent else none) = some ent
    rw [if_pos rfl]

theorem trackOk_entry (root : PPath) (reg : AssetRegistry) (p : PPath)
    (cid : Int) (url : String) (sz : Option Int) (now : Nat) (c : String) :
    ∃ e, (trackOk root reg p cid url sz now c).assets.lookup (hashKey c) =
        some e ∧
      e.canvas_url = url ∧ e.canvas_file_id = cid ∧
      normName root p ∈ e.local_paths ∧
      ∀ x ∈ aliasSet reg (hashKey c), x ∈ e.local_paths := by
  obtain ⟨e1, he1, hu1, hc1, hbr⟩ := upsert_entry reg.assets (hashKey c)
    { local_paths := [], canvas_file_id := cid, canvas_url := url,
      content_hash := c, uploaded_at := now,
      file_size := match sz with
        | some s => some s
        | none => some (c.length : Int),
      filename := (resolveInput root p).name } cid url now rfl rfl
  have hold : ∀ x ∈ aliasSet reg (hashKey c), x ∈ e1.local_paths := by
    intro x hx
    unfold aliasSet at hx
    rcases hl : reg.assets.lookup (hashKey c) with _ | e0
    · rw [hl] at hx
      simp at hx
    · rw [hl] at hx
      rcases hbr with ⟨e0b, he0b, hlp⟩ | ⟨hnone, _⟩
      · rw [hl] at he0b
        obtain rfl : e0b = e0 := (Option.some_injective _ he0b).symm
        rw [hlp]
        exact hx
      · rw [hl] at hnone
        cases hnone
  unfold trackOk
  dsimp only
  split
  · split
    · refine ⟨addPathEntry (normName root p) e1, registerAlias_entry he1 _,
        hu1, hc1, mem_addPathEntry_self _ _, ?_⟩
      intro x hx
      exact mem_addPathEntry_mono (hold x hx) _
    · refine ⟨addPathEntry _ (addPathEntry (normName root p) e1),
        registerAlias_entry (registerAlias_entry he1 _) _, hu1, hc1,
        mem_addPathEntry_mono (mem_addPathEntry_self _ _) _, ?_⟩
      intro x hx
      exact mem_addPathEntry_mono (mem_addPathEntry_mono (hold x hx) _) _
  · refine ⟨addPathEntry (normName root p) e1, registerAlias_entry he1 _,
      hu1, hc1, mem_addPathEntry_self _ _, ?_⟩
    intro x hx
    exact mem_addPathEntry_mono (hold x hx) _

theorem lookup_trackOk_path (root : PPath) (reg : AssetRegistry) (p : PPath)
    (cid : Int) (url : String) (sz : Option Int) (now : Nat) (c : String)
    (q : String) :
    (trackOk root reg p cid url sz now c).path_lookup.lookup q =
        some (hashKey c) ∨
      (trackOk root reg p cid url sz now c).path_lookup.lookup q =
        reg.path_lookup.lookup q := by
  unfold trackOk registerAlias
  dsimp only
  rcases hrel : (resolveInput root p).relativeTo (root.join ⟨false, ["assets"]⟩)
      with _ | rel
  · dsimp only
    rw [lookup_assocUpd]
    by_cases hq : q = normName root p
    · rw [if_pos hq]
      exact Or.inl rfl
    · rw [if_neg hq]
      exact Or.inr rfl
  · dsimp only
    split
    · rw [lookup_assocUpd]
      by_cases hq : q = normName root p
      · rw [if_pos hq]
        exact Or.inl rfl
      · rw [if_neg hq]
        exact Or.inr rfl
    · rw [lookup_assocUpd, lookup_assocUpd]
      by_cases hq1 : q = (synthAlias rel).asPosix
      · rw [if_pos hq1]
        exact Or.inl rfl
      · rw [if_neg hq1]
        by_cases hq2 : q = normName root p
        · rw [if_pos hq2]
          exact Or.inl rfl
        · rw [if_neg hq2]
          exact Or.inr rfl

theorem trackOk_synth_isSome (root : PPath) (reg : AssetRegistry) (p : PPath)
    (cid : Int) (url : String) (sz : Option Int) (now : Nat) (c : String)
    {rel : PPath}
    (hrel : (resolveInput root p).relativeTo (root.join ⟨false, ["assets"]⟩) =
      some rel) :
    ((trackOk root reg p cid url sz now c).path_lookup.lookup
      ((synthAlias rel).asPosix)).isSome := by
  unfold trackOk registerAlias
  dsimp only
  rw [hrel]
  dsimp only
  split
  · assumption
  · rw [lookup_assocUpd, if_pos rfl]
    rfl

theorem trackOk_valuesAll {reg : AssetRegistry} {c : String}
    (h : ∀ q hk2, reg.path_lookup.lookup q = some hk2 → hk2 = hashKey c)
    (root : PPath) (p : PPath) (cid : Int) (url : String) (sz : Option Int)
    (now : Nat) :
    ∀ q hk2, (trackOk root reg p cid url sz now c).path_lookup.lookup q =
      some hk2 → hk2 = hashKey c := by
  intro q hk2 hq
  rcases lookup_trackOk_path root reg p cid url sz now c q with h1 | h1
  · rw [h1] at hq
    exact (Option.some_injective _ hq).symm
  · rw [h1] at hq
    exact h q hk2 hq

theorem trackOk_path_persist {reg : AssetRegistry} (root : PPath) (p : PPath)
    (cid : Int) (url : String) (sz : Option Int) (now : Nat) (c : String)
    (q : String) (h : (reg.path_lookup.lookup q).isSome) :
    ((trackOk root reg p cid url sz now c).path_lookup.lookup q).isSome := by
  rcases lookup_trackOk_path root reg p cid url sz now c q with h1 | h1
  · rw [h1]
    rfl
  · rw [h1]
    exact h

theorem get_url_of_content {root : PPath} {fs : DiskFS} {reg : AssetRegistry}
    {p : PPath} {c : String} {e : AssetEntry}
    (he : reg.assets.lookup (hashKey c) = some e)
    (hcoh : ∀ q hk2, reg.path_lookup.lookup q = some hk2 → hk2 = hashKey c)
    (hsrc : fileAt fs (resolveInput root p) = some c ∨
      (reg.path_lookup.lookup p.asPosix).isSome) :
    get_canvas_url root fs reg p = Except.ok (some e.canvas_url) := by
  unfold get_canvas_url
  dsimp only
  rcases hl : reg.path_lookup.lookup p.asPosix with _ | hk2
  · dsimp only
    rcases hsrc with hfs | hhit
    · rw [hfs]
      dsimp only
      rw [he]
      rfl
    · rw [hl] at hhit
      simp at hhit
  · obtain rfl : hk2 = hashKey c := hcoh _ _ hl
    dsimp only
    rw [he]
    rfl

theorem upsert_lookup_update {A : List (String × AssetEntry)} {hk : String}
    {e0 : AssetEntry} (he0 : A.lookup hk = some e0) (ent : AssetEntry)
    (cid : Int) (url : String) (now : Nat) :
    (upsertAsset A hk ent cid url now).lookup hk =
      some (updFields cid url now e0) := by
  unfold upsertAsset
  rw [if_pos (by rw [he0]; rfl), lookup_updEntry, if_pos rfl, he0]
  rfl

theorem trackOk_stable_entry {reg : AssetRegistry} {c : String}
    {e0 : AssetEntry} (he0 : reg.assets.lookup (hashKey c) = some e0)
    {root p : PPath} (hm : normName root p ∈ e0.local_paths)
    (cid : Int) (url : String) (sz : Option Int) (now : Nat)
    (hsyn : ∀ rel, (resolveInput root p).relativeTo
        (root.join ⟨false, ["assets"]⟩) = some rel →
      (reg.path_lookup.lookup ((synthAlias rel).asPosix)).isSome) :
    (trackOk root reg p cid url sz now c).assets.lookup (hashKey c) =
      some (updFields cid url now e0) := by
  have hm2 : normName root p ∈ (updFields cid url now e0).local_paths := hm
  unfold trackOk registerAlias
  dsimp only
  rcases hrel : (resolveInput root p).relativeTo (root.join ⟨false, ["assets"]⟩)
      with _ | rel
  · dsimp only
    rw [lookup_addLocalPath, if_pos rfl, upsert_lookup_update he0 _ cid url now]
    show some (addPathEntry (normName root p) (updFields cid url now e0)) = _
    rw [addPathEntry_mem_noop hm2]
  · dsimp only
    have hcond : ((assocUpd reg.path_lookup (normName root p)
        (hashKey c)).lookup ((synthAlias rel).asPosix)).isSome = true := by
      rw [lookup_assocUpd]
      by_cases hsn : (synthAlias rel).asPosix = normName root p
      · rw [if_pos hsn]
        rfl
      · rw [if_neg hsn]
        exact hsyn rel hrel
    rw [if_pos hcond, lookup_addLocalPath, if_pos rfl,
      upsert_lookup_update he0 _ cid url now]
    show some (addPathEntry (normName root p) (updFields cid url now e0)) = _
    rw [addPathEntry_mem_noop hm2]

theorem aliasSet_trackOk_stable {reg : AssetRegistry} {c : String}
    {root p : PPath}
    (hmem : normName root p ∈ aliasSet reg (hashKey c))
    (cid : Int) (url : String) (sz : Option Int) (now : Nat)
    (hsyn : ∀ rel, (resolveInput root p).relativeTo
        (root.join ⟨false, ["assets"]⟩) = some rel →
      (reg.path_lookup.lookup ((synthAlias rel).asPosix)).isSome) :
    aliasSet (trackOk root reg p cid url sz now c) (hashKey c) =
      aliasSet reg (hashKey c) := by
  obtain ⟨e0, he0, hm0⟩ : ∃ e0, reg.assets.lookup (hashKey c) = some e0 ∧
      normName root p ∈ e0.local_paths := by
    unfold aliasSet at hmem
    rcases hl : reg.assets.lookup (hashKey c) with _ | e0
    · rw [hl] at hmem
      exact absurd hmem (List.not_mem_nil _)
    · rw [hl] at hmem
      exact ⟨e0, rfl, hmem⟩
  unfold aliasSet
  rw [trackOk_stable_entry he0 hm0 cid url sz now hsyn, he0]
  rfl

/-- C6: two uploads of byte-identical files from distinct paths from a
fresh registry yield exactly one `assets` entry (keyed by the shared
content digest) holding both normalized paths as aliases;
`get_canvas_url` answers the latest URL for both paths and for the
synthesized `../../assets/...` alias; re-tracking the same path with the
same remote id leaves the entry's alias set (hence its cardinality)
unchanged. -/
theorem C6_registry_dedup (root : PPath) (fs : DiskFS) (p1 p2 : PPath)
    (c : String) (cid1 cid2 : Int) (url1 url2 : String)
    (sz1 sz2 : Option Int) (t1 t2 : Nat)
    (hne : p1 ≠ p2)
    (h1 : fileAt fs (resolveInput root p1) = some c)
    (h2 : fileAt fs (resolveInput root p2) = some c) :
    ∃ r1 r2,
      track_upload root fs emptyRegistry p1 cid1 url1 sz1 t1 = Except.ok r1 ∧
      track_upload root fs r1 p2 cid2 url2 sz2 t2 = Except.ok r2 ∧
      r2.assets.map Prod.fst = [hashKey c] ∧
      (∃ e, r2.assets.lookup (hashKey c) = some e ∧
        normName root p1 ∈ e.local_paths ∧ normName root p2 ∈ e.local_paths) ∧
      get_canvas_url root fs r2 p1 = Except.ok (some url2) ∧
      get_canvas_url root fs r2 p2 = Except.ok (some url2) ∧
      (∀ rel, (resolveInput root p1).relativeTo (root.join ⟨false, ["assets"]⟩) =
          some rel →
        get_canvas_url root fs r2 (synthAlias rel) = Except.ok (some url2)) ∧
      (∃ q2, track_upload root fs r1 p1 cid1 url1 sz1 t2 = Except.ok q2 ∧
        aliasSet q2 (hashKey c) = aliasSet r1 (hashKey c)) := by
  have hzero : emptyRegistry.assets.lookup (hashKey c) = none := rfl
  have hno : ¬(emptyRegistry.assets.lookup (hashKey c)).isSome = true := by
    rw [hzero]
    simp
  have hempty : ∀ q hk2, emptyRegistry.path_lookup.lookup q = some hk2 →
      hk2 = hashKey c := by
    intro q hk2 h
    exact absurd h (by simp [emptyRegistry, lookup_nil])
  obtain ⟨e1, he1, hu1, hc1, hm1, hold1⟩ :=
    trackOk_entry root emptyRegistry p1 cid1 url1 sz1 t1 c
  have hsome1 : ((trackOk root emptyRegistry p1 cid1 url1 sz1 t1 c).assets.lookup
      (hashKey c)).isSome := by
    rw [he1]
    rfl
  obtain ⟨e2, he2, hu2, hc2, hm2, hold2⟩ :=
    trackOk_entry root (trackOk root emptyRegistry p1 cid1 url1 sz1 t1 c) p2
      cid2 url2 sz2 t2 c
  have halias1 : normName root p1 ∈
      aliasSet (trackOk root emptyRegistry p1 cid1 url1 sz1 t1 c) (hashKey c) := by
    unfold aliasSet
    rw [he1]
    exact hm1
  have hcoh1 : ∀ q hk2,
      (trackOk root emptyRegistry p1 cid1 url1 sz1 t1 c).path_lookup.lookup q =
        some hk2 → hk2 = hashKey c :=
    trackOk_valuesAll hempty root p1 cid1 url1 sz1 t1
  have hcoh2 : ∀ q hk2,
      (trackOk root (trackOk root emptyRegistry p1 cid1 url1 sz1 t1 c) p2 cid2
        url2 sz2 t2 c).path_lookup.lookup q = some hk2 → hk2 = hashKey c :=
    trackOk_valuesAll hcoh1 root p2 cid2 url2 sz2 t2
  refine ⟨trackOk root emptyRegistry p1 cid1 url1 sz1 t1 c,
    trackOk root (trackOk root emptyRegistry p1 cid1 url1 sz1 t1 c) p2 cid2
      url2 sz2 t2 c,
    track_upload_eq_trackOk h1, track_upload_eq_trackOk h2, ?_, ?_, ?_, ?_, ?_,
    ?_⟩
  · rw [keys_trackOk, if_pos hsome1, keys_trackOk, if_neg hno]
    rfl
  · refine ⟨e2, he2, ?_, hm2⟩
    exact hold2 (normName root p1) halias1
  · have := get_url_of_content he2 hcoh2 (Or.inl h1)
    rw [hu2] at this
    exact this
  · have := get_url_of_content he2 hcoh2 (Or.inl h2)
    rw [hu2] at this
    exact this
  · intro rel hrel
    have hsyn1 : ((trackOk root emptyRegistry p1 cid1 url1 sz1 t1
        c).path_lookup.lookup ((synthAlias rel).asPosix)).isSome :=
      trackOk_synth_isSome root emptyRegistry p1 cid1 url1 sz1 t1 c hrel
    have hsyn2 : ((trackOk root (trackOk root emptyRegistry p1 cid1 url1 sz1
        t1 c) p2 cid2 url2 sz2 t2 c).path_lookup.lookup
        ((synthAlias rel).asPosix)).isSome :=
      trackOk_path_persist root p2 cid2 url2 sz2 t2 c _ hsyn1
    have := @get_url_of_content root fs _ (synthAlias rel) c e2 he2 hcoh2
      (Or.inr hsyn2)
    rw [hu2] at this
    exact this
  · refine ⟨trackOk root (trackOk root emptyRegistry p1 cid1 url1 sz1 t1 c) p1
      cid1 url1 sz1 t2 c, track_upload_eq_trackOk h1, ?_⟩
    exact aliasSet_trackOk_stable halias1 cid1 url1 sz1 t2
      (fun rel hrel =>
        trackOk_synth_isSome root emptyRegistry p1 cid1 url1 sz1 t1 c hrel)

/-- The filesystem for the C6 witness: the same bytes at two paths under
the course root. -/
def fs_c6 : DiskFS := fun segs =>
  if segs = ["course", "assets", "img.png"] then some "IMG"
  else if segs = ["course", "content", "copy.png"] then some "IMG"
  else none

theorem C6_registry_dedup_witness :
    ∃ r1 r2,
      track_upload ⟨true, ["course"]⟩ fs_c6 emptyRegistry
          ⟨false, ["assets", "img.png"]⟩ 1 "u1" none 0 = Except.ok r1 ∧
      track_upload ⟨true, ["course"]⟩ fs_c6 r1
          ⟨false, ["content", "copy.png"]⟩ 2 "u2" none 1 = Except.ok r2 ∧
      r2.assets.map Prod.fst = [hashKey "IMG"] ∧
      (∃ e, r2.assets.lookup (hashKey "IMG") = some e ∧
        normName ⟨true, ["course"]⟩ ⟨false, ["assets", "img.png"]⟩ ∈
          e.local_paths ∧
        normName ⟨true, ["course"]⟩ ⟨false, ["content", "copy.png"]⟩ ∈
          e.local_paths) ∧
      get_canvas_url ⟨true, ["course"]⟩ fs_c6 r2
          ⟨false, ["assets", "img.png"]⟩ = Except.ok (some "u2") ∧
      get_canvas_url ⟨true, ["course"]⟩ fs_c6 r2
          ⟨false, ["content", "copy.png"]⟩ = Except.ok (some "u2") ∧
      (∀ rel, (resolveInput ⟨true, ["course"]⟩
            ⟨false, ["assets", "img.png"]⟩).relativeTo
            (PPath.join ⟨true, ["course"]⟩ ⟨false, ["assets"]⟩) = some rel →
        get_canvas_url ⟨true, ["course"]⟩ fs_c6 r2 (synthAlias rel) =
          Except.ok (some "u2")) ∧
      (∃ q2, track_upload ⟨true, ["course"]⟩ fs_c6 r1
          ⟨false, ["assets", "img.png"]⟩ 1 "u1" none 1 = Except.ok q2 ∧
        aliasSet q2 (hashKey "IMG") = aliasSet r1 (hashKey "IMG")) :=
  C6_registry_dedup ⟨true, ["course"]⟩ fs_c6 ⟨false, ["assets", "img.png"]⟩
    ⟨false, ["content", "copy.png"]⟩ "IMG" 1 2 "u1" "u2" none none 0 1
    (by decide) rfl rfl

/-! ## Rubric deduplication (rubric_dedup.py)

YAML documents are modelled by their parse results over a value type with
the scalar kinds the rubric schema uses (strings and numbers), arrays and
objects.  The sha256 fingerprint of a canonical JSON string is modelled by
the canonical (whitespace-stripped, key-sorted) value itself — digest
collisions are outside the model; where the code uses the digest string
(ordering the shared fingerprints, the `fp[:12]` slug fallback) the model
uses the value's serialization, which only permutes the processing order
and renames fallback slugs, neither of which the claims depend on.
`yaml.dump`/`yaml.safe_load` round-tripping is the identity on values.
Python's `\w` is modelled over ASCII. -/

/-- Decimal digits, most significant first (`str(n)` for a `Nat`). -/
def natStrAux : Nat → Nat → List Char
  | 0, _ => []
  | fuel + 1, n =>
    if n < 10 then [Char.ofNat (48 + n)]
    else natStrAux fuel (n / 10) ++ [Char.ofNat (48 + n % 10)]

/-- Python `str(n)`. -/
def natStr (n : Nat) : String := String.mk (natStrAux (n + 1) n)

def decDigits (l : List Char) : Nat :=
  l.foldl (fun acc c => acc * 10 + (c.toNat - 48)) 0

theorem decDigits_append (l : List Char) (c : Char) :
    decDigits (l ++ [c]) = decDigits l * 10 + (c.toNat - 48) := by
  unfold decDigits
  rw [List.foldl_append]
  rfl

theorem toNat_digit (n : Nat) (h : n < 10) :
    (Char.ofNat (48 + n)).toNat = 48 + n := by
  interval_cases n <;> decide

theorem decDigits_natStrAux : ∀ fuel n, n < fuel →
    decDigits (natStrAux fuel n) = n := by
  intro fuel
  induction fuel with
  | zero => omega
  | succ f ih =>
    intro n hn
    unfold natStrAux
    by_cases h : n < 10
    · rw [if_pos h]
      show decDigits ([] ++ [Char.ofNat (48 + n)]) = n
      rw [decDigits_append, toNat_digit n h,
        show decDigits [] = 0 from rfl]
      omega
    · rw [if_neg h]
      have h10 : n / 10 < f := by
        have := Nat.div_lt_self (by omega : 0 < n) (by omega : 1 < 10)
        omega
      rw [decDigits_append, ih (n / 10) h10,
        toNat_digit (n % 10) (Nat.mod_lt n (by omega))]
      omega

theorem natStr_inj {a b : Nat} (h : natStr a = natStr b) : a = b := by
  unfold natStr at h
  have hl : natStrAux (a + 1) a = natStrAux (b + 1) b := congrArg String.data h
  have ha := decDigits_natStrAux (a + 1) a (by omega)
  have hb := decDigits_natStrAux (b + 1) b (by omega)
  rw [hl, hb] at ha
  omega

/-- Candidate slug of `_unique_slug` for a counter. -/
def slugCand (base : String) (c : Nat) : String := base ++ "_" ++ natStr c

theorem slugCand_inj {base : String} {i j : Nat}
    (h : slugCand base i = slugCand base j) : i = j := by
  unfold slugCand at h
  apply natStr_inj
  have hdata := congrArg String.data h
  simp only [String.data_append] at hdata
  have hdd := List.append_cancel_left hdata
  exact congrArg String.mk hdd

/-- The `while slug in existing_slugs` loop of `_unique_slug`, with enough
fuel that a free candidate is always reached. -/
def uniqueSlugGo (base : String) (existing : List String) :
    Nat → Nat → String
  | 0, c => slugCand base c
  | fuel + 1, c =>
    if slugCand base c ∈ existing then uniqueSlugGo base existing fuel (c + 1)
    else slugCand base c

/-- `_unique_slug` (lines 283-290). -/
def unique_slug (base : String) (existing : List String) : String :=
  if base ∈ existing then uniqueSlugGo base existing (existing.length + 1) 2
  else base

theorem uniqueSlugGo_spec (base : String) (existing : List String) :
    ∀ fuel c, (∃ k, k < fuel ∧ slugCand base (c + k) ∉ existing) →
      uniqueSlugGo base existing fuel c ∉ existing := by
  intro fuel
  induction fuel with
  | zero =>
    intro c ⟨k, hk, _⟩
    omega
  | succ f ih =>
    intro c ⟨k, hk, hfree⟩
    unfold uniqueSlugGo
    by_cases hmem : slugCand base c ∈ existing
    · rw [if_pos hmem]
      apply ih
      have hk0 : k ≠ 0 := by
        intro h0
        rw [h0, Nat.add_zero] at hfree
        exact hfree hmem
      exact ⟨k - 1, by omega, by
        have : c + 1 + (k - 1) = c + k := by omega
        rw [this]
        exact hfree⟩
    · rw [if_neg hmem]
      exact hmem

theorem unique_slug_not_mem (base : String) (existing : List String) :
    unique_slug base existing ∉ existing := by
  unfold unique_slug
  by_cases hb : base ∈ existing
  · rw [if_pos hb]
    apply uniqueSlugGo_spec
    by_contra hall
    push_neg at hall
    have hsub : ∀ x ∈ (List.range (existing.length + 1)).map
        (fun k => slugCand base (2 + k)), x ∈ existing := by
      intro x hx
      obtain ⟨k, hk, rfl⟩ := List.mem_map.mp hx
      exact hall k (List.mem_range.mp hk)
    have hnd : ((List.range (existing.length + 1)).map
        (fun k => slugCand base (2 + k))).Nodup := by
      refine List.Nodup.map ?_ (List.nodup_range _)
      intro i j hij
      have := slugCand_inj hij
      omega
    have hcard : ((List.range (existing.length + 1)).map
        (fun k => slugCand base (2 + k))).toFinset.card = existing.length + 1 := by
      rw [List.toFinset_card_of_nodup hnd, List.length_map, List.length_range]
    have hle : ((List.range (existing.length + 1)).map
        (fun k => slugCand base (2 + k))).toFinset.card ≤
        existing.toFinset.card := by
      apply Finset.card_le_card
      intro x hx
      rw [List.mem_toFinset] at hx ⊢
      exact hsub x hx
    have := List.toFinset_card_le existing
    omega
  · rw [if_neg hb]
    exact hb

/- A parsed YAML value, mutual with its array and object spines, so that
all recursion over values is structural. -/
mutual
inductive Yaml where
  | str (s : String)
  | num (n : Int)
  | arr (xs : YList)
  | obj (fs : YFields)
inductive YList where
  | nil
  | cons (hd : Yaml) (tl : YList)
inductive YFields where
  | nil
  | cons (k : String) (v : Yaml) (tl : YFields)
end

mutual
def eqY : Yaml → Yaml → Bool
  | .str a, .str b => a == b
  | .num a, .num b => a == b
  | .arr a, .arr b => eqL a b
  | .obj a, .obj b => eqF a b
  | _, _ => false
def eqL : YList → YList → Bool
  | .nil, .nil => true
  | .cons a t, .cons b u => eqY a b && eqL t u
  | _, _ => false
def eqF : YFields → YFields → Bool
  | .nil, .nil => true
  | .cons k a t, .cons k2 b u => k == k2 && eqY a b && eqF t u
  | _, _ => false
end

mutual
theorem eqY_iff : ∀ a b : Yaml, eqY a b = true ↔ a = b
  | .str a, b => by
    cases b <;> simp [eqY]
  | .num a, b => by
    cases b <;> simp [eqY]
  | .arr a, b => by
    cases b <;> simp [eqY, eqL_iff a]
  | .obj a, b => by
    cases b <;> simp [eqY, eqF_iff a]
theorem eqL_iff : ∀ a b : YList, eqL a b = true ↔ a = b
  | .nil, b => by
    cases b <;> simp [eqL]
  | .cons x t, b => by
    cases b <;> simp [eqL, eqY_iff x, eqL_iff t]
theorem eqF_iff : ∀ a b : YFields, eqF a b = true ↔ a = b
  | .nil, b => by
    cases b <;> simp [eqF]
  | .cons k x t, b => by
    cases b <;> simp [eqF, eqY_iff x, eqF_iff t, and_assoc]
end

instance : DecidableEq Yaml := fun a b =>
  decidable_of_iff (eqY a b = true) (eqY_iff a b)

instance : DecidableEq YList := fun a b =>
  decidable_of_iff (eqL a b = true) (eqL_iff a b)

instance : DecidableEq YFields := fun a b =>
  decidable_of_iff (eqF a b = true) (eqF_iff a b)

/-- Python truthiness of a YAML value. -/
def ytruthy : Yaml → Bool
  | .str s => !(s == "")
  | .num n => !(n == 0)
  | .arr .nil => false
  | .arr _ => true
  | .obj .nil => false
  | .obj _ => true

def ylist : YList → List Yaml
  | .nil => []
  | .cons y t => y :: ylist t

def toYL : List Yaml → YList
  | [] => .nil
  | y :: t => .cons y (toYL t)

theorem ylist_toYL (l : List Yaml) : ylist (toYL l) = l := by
  induction l with
  | nil => rfl
  | cons y t ih =>
    unfold toYL ylist
    rw [ih]

/-- `dict.get(k)` on an object's fields (first binding wins, as in a parsed
YAML mapping, whose keys are unique). -/
def yLookup : YFields → String → Option Yaml
  | .nil, _ => none
  | .cons k v t, q => if k == q then some v else yLookup t q

def yHasKey (fs : YFields) (q : String) : Bool := (yLookup fs q).isSome

/-- In-place update of an existing key's value (`data["criteria"] = ...`). -/
def ySet : YFields → String → Yaml → YFields
  | .nil, k, v => .cons k v .nil
  | .cons k2 v2 t, k, v =>
    if k2 == k then .cons k2 v t else .cons k2 v2 (ySet t k v)

/-- Code-point comparison of strings (Python `<=` on `str`). -/
def charListLe : List Char → List Char → Bool
  | [], _ => true
  | _ :: _, [] => false
  | a :: as, b :: bs =>
    if a.val < b.val then true
    else if b.val < a.val then false
    else charListLe as bs

def strLe (a b : String) : Bool := charListLe a.data b.data

/-- Insert a field into a key-sorted field list (`json.dumps(sort_keys)`). -/
def insertField (k : String) (v : Yaml) : YFields → YFields
  | .nil => .cons k v .nil
  | .cons k2 v2 t =>
    if strLe k k2 then .cons k v (.cons k2 v2 t)
    else .cons k2 v2 (insertField k v t)

def sortFields : YFields → YFields
  | .nil => .nil
  | .cons k v t => insertField k v (sortFields t)

/- `_strip_strings` composed with `sort_keys=True`: the canonical form whose
JSON dump `_normalize` returns; a fingerprint is the canonical form. -/
mutual
def normY : Yaml → Yaml
  | .str s => .str (pyStrip s)
  | .num n => .num n
  | .arr xs => .arr (normL xs)
  | .obj fs => .obj (sortFields (normF fs))
def normL : YList → YList
  | .nil => .nil
  | .cons y t => .cons (normY y) (normL t)
def normF : YFields → YFields
  | .nil => .nil
  | .cons k v t => .cons k (normY v) (normF t)
end

/-- Python `str(n)` for a signed integer. -/
def intStr (n : Int) : String :=
  if n < 0 then "-" ++ natStr n.natAbs else natStr n.natAbs

/- JSON-like serialization; the model stand-in for the digested string,
used only to order fingerprints and for the fp[:12] slug fallback. -/
mutual
def serY : Yaml → String
  | .str s => "\"" ++ s ++ "\""
  | .num n => intStr n
  | .arr xs => "[" ++ serL xs ++ "]"
  | .obj fs => "\x7b" ++ serF fs ++ "\x7d"
def serL : YList → String
  | .nil => ""
  | .cons y .nil => serY y
  | .cons y t => serY y ++ ", " ++ serL t
def serF : YFields → String
  | .nil => ""
  | .cons k v .nil => "\"" ++ k ++ "\": " ++ serY v
  | .cons k v t => "\"" ++ k ++ "\": " ++ serY v ++ ", " ++ serF t
end

/-- ASCII `\w` of the slug regexes. -/
def wordChar (c : Char) : Bool := c.isAlphanum || c == '_'

/-- `_make_slug` (lines 274-280). -/
def make_slug (text : String) : String :=
  let s0 := (strLower text).data
  let s1 := s0.filter (fun c => wordChar c || pySpace c || c == '-')
  let s2 := collapseRuns (fun c => c == '-' || pySpace c) '-' s1
  let s3 := (stripHyphens s2).take 40
  let s4 := s3.rdropWhile (fun c => c == '-')
  if s4.isEmpty then "rubric" else String.mk s4

/-- The course tree as the deduplicator sees it: the inline `rubric.yaml`
files under `content/`, the shared rubrics `rubrics/<slug>.yaml`, and the
shared rows `rubrics/rows/<slug>.yaml` — each keyed and holding its parsed
YAML.  Files whose YAML fails to parse are skipped by every loader and
never rewritten; they are outside the model. -/
structure CourseState where
  docs : List (String × Yaml)
  sharedRubrics : List (String × Yaml)
  rows : List (String × Yaml)
deriving DecidableEq

def isObjY : Yaml → Bool
  | .obj _ => true
  | _ => false

/-- `data.get("criteria", [])`. -/
def getCriteria (fs : YFields) : Yaml := (yLookup fs "criteria").getD (.arr .nil)

/-- `_load_full_rubric` (lines 210-225). -/
def load_full_rubric (y : Yaml) : Option YFields :=
  match y with
  | .obj fs =>
    if yHasKey fs "use_rubric" || yHasKey fs "reference" then none
    else
      match yLookup fs "criteria" with
      | some cr => if ytruthy cr then some fs else none
      | none => none
  | _ => none

/-- `_load_rubric_criteria` (lines 228-245): the inline criterion dicts,
with `\x7b\x7brubric_row:...\x7d\x7d` placeholder strings filtered out. -/
def load_rubric_criteria (y : Yaml) : Option (List Yaml) :=
  match y with
  | .obj fs =>
    if yHasKey fs "use_rubric" || yHasKey fs "reference" then none
    else
      match yLookup fs "criteria" with
      | some (.arr YList.nil) => none
      | some (.arr xs) => some ((ylist xs).filter isObjY)
      | some _ => none
      | none => none
  | _ => none

def critsOf (y : Yaml) : List Yaml := (load_rubric_criteria y).getD []

def serFp12 (fp : Yaml) : String := String.mk ((serY fp).data.take 12)

/- Insertion sort of fingerprint-keyed groups by the fingerprint's
serialization — the model's `for fp in sorted(shared_fps)`; the claims'
properties do not depend on the iteration order. -/
def insertGroup {α : Type} (x : Yaml × α) : List (Yaml × α) → List (Yaml × α)
  | [] => [x]
  | g :: t =>
    if strLe (serY x.1) (serY g.1) then x :: g :: t else g :: insertGroup x t

def sortBySer {α : Type} : List (Yaml × α) → List (Yaml × α)
  | [] => []
  | g :: t => insertGroup g (sortBySer t)

def lookupFp (m : List (Yaml × String)) (fp : Yaml) : Option String :=
  (m.find? (fun g => eqY g.1 fp)).map (fun g => g.2)

/-- `_find_existing_rubric` (lines 293-303). -/
def find_existing_rubric (rubs : List (String × Yaml)) (fp : Yaml) :
    Option String :=
  (rubs.find? (fun sy => match sy.2 with
    | .obj fs => eqY (normY (getCriteria fs)) fp
    | _ => false)).map (fun sy => sy.1)

/-- The slug fallback of pass 1 (lines 104-106): the first criterion's
description, else the fingerprint prefix; raises on non-string truthy
fields and on subscripting a non-list criteria value. -/
def slugFromCriteria (data : YFields) (fp : Yaml) : Except String String :=
  match yLookup data "criteria" with
  | some (.arr (.cons first _)) =>
    match first with
    | .obj ffs =>
      match yLookup ffs "description" with
      | some (.str d) => if d == "" then .ok (serFp12 fp) else .ok (make_slug d)
      | some v => if ytruthy v then .error "AttributeError" else .ok (serFp12 fp)
      | none => .ok (serFp12 fp)
    | _ => .error "AttributeError"
  | some (.arr .nil) => .ok (serFp12 fp)
  | some (.num _) => .error "TypeError"
  | some (.obj _) => .error "KeyError"
  | some (.str s) =>
    if s == "" then .ok (serFp12 fp) else .error "AttributeError"
  | none => .ok (serFp12 fp)

/-- The slug derivation of pass 1 (lines 100-106). -/
def slugBase1 (data : YFields) (fp : Yaml) : Except String String :=
  match yLookup data "title" with
  | some (.str t) => if t == "" then slugFromCriteria data fp
                     else .ok (make_slug t)
  | some v => if ytruthy v then .error "AttributeError"
              else slugFromCriteria data fp
  | none => slugFromCriteria data fp

/-- Group the loaded rubrics of pass 1 by criteria fingerprint: path list
in first-seen order, data last-seen-wins (lines 74-80). -/
def addGroup1 (gs : List (Yaml × List String × YFields)) (fp : Yaml)
    (p : String) (fs : YFields) : List (Yaml × List String × YFields) :=
  if gs.any (fun g => eqY g.1 fp) then
    gs.map (fun g => if eqY g.1 fp then (g.1, g.2.1 ++ [p], fs) else g)
  else gs ++ [(fp, [p], fs)]

def buildGroups1 (files : List (String × YFields)) :
    List (Yaml × List String × YFields) :=
  files.foldl (fun gs pf => addGroup1 gs (normY (getCriteria pf.2)) pf.1 pf.2) []

/-- The extraction loop of pass 1 (lines 92-112): resolve against an
existing shared rubric or write a new one under a fresh slug. -/
def pass1Go : List (Yaml × List String × YFields) → List String →
    List (String × Yaml) →
    Except String (List (Yaml × String) × List (String × Yaml))
  | [], _, rubs => .ok ([], rubs)
  | (fp, _, data) :: rest, slugs, rubs =>
    match find_existing_rubric rubs fp with
    | some s =>
      match pass1Go rest slugs rubs with
      | .error e => .error e
      | .ok (m, rubs2) => .ok ((fp, s) :: m, rubs2)
    | none =>
      match slugBase1 data fp with
      | .error e => .error e
      | .ok base =>
        let slug := unique_slug base slugs
        match pass1Go rest (slug :: slugs) (assocUpd rubs slug (.obj data)) with
        | .error e => .error e
        | .ok (m, rubs2) => .ok ((fp, slug) :: m, rubs2)

/-- The reference replacement of pass 1 (lines 114-123): every document
whose criteria fingerprint got a slug becomes `use_rubric: slug`. -/
def rewriteDocs1 (m : List (Yaml × String)) (docs : List (String × Yaml)) :
    List (String × Yaml) :=
  docs.map (fun py =>
    match load_full_rubric py.2 with
    | some fs =>
      match lookupFp m (normY (getCriteria fs)) with
      | some slug => (py.1, .obj (.cons "use_rubric" (.str slug) .nil))
      | none => py
    | none => py)

/-- `_deduplicate_whole_rubrics` (lines 59-125). -/
def dedupWholeRubrics (S : CourseState) : Except String (Nat × CourseState) :=
  let loaded := S.docs.filterMap (fun py =>
    (load_full_rubric py.2).map (fun fs => (py.1, fs)))
  let groups := buildGroups1 loaded
  let shared := groups.filter (fun g => 2 ≤ g.2.1.length)
  if shared.isEmpty then .ok (0, S)
  else
    match pass1Go (sortBySer shared) (S.sharedRubrics.map Prod.fst)
        S.sharedRubrics with
    | .error e => .error e
    | .ok (m, rubs2) =>
      .ok (m.length,
        { S with docs := rewriteDocs1 m S.docs, sharedRubrics := rubs2 })

/-- The files pass 2 scans: inline rubrics plus the shared rubrics
(lines 140-143); `rubrics/rows/` is not globbed. -/
def filesOf (S : CourseState) : List (String × Yaml) :=
  S.docs ++ S.sharedRubrics.map (fun sy => ("rubrics/" ++ sy.1 ++ ".yaml", sy.2))

/-- Group the criterion dicts of pass 2 by fingerprint: path set in
first-seen order, representative criterion last-seen-wins (lines 151-158;
the two dicts are keyed by the same fingerprints, so one upsert keyed by
the fingerprint carries both). -/
def addGroup2 : List (Yaml × List String × Yaml) → Yaml → String → Yaml →
    List (Yaml × List String × Yaml)
  | [], fp, p, c => [(fp, [p], c)]
  | g :: t, fp, p, c =>
    if eqY g.1 fp then
      (g.1, (if p ∈ g.2.1 then g.2.1 else g.2.1 ++ [p]), c) :: t
    else g :: addGroup2 t fp p c

def addFileRows (gs : List (Yaml × List String × Yaml)) (p : String)
    (cs : List Yaml) : List (Yaml × List String × Yaml) :=
  cs.foldl (fun gs c => addGroup2 gs (normY c) p c) gs

def buildGroups2 (files : List (String × Yaml)) :
    List (Yaml × List String × Yaml) :=
  files.foldl (fun gs py => addFileRows gs py.1 (critsOf py.2)) []

/-- `_find_existing_row` (lines 313-323). -/
def find_existing_row (rows : List (String × Yaml)) (fp : Yaml) :
    Option String :=
  (rows.find? (fun sy => eqY (normY sy.2) fp)).map (fun sy => sy.1)

/-- The slug derivation of pass 2 (lines 178-179). -/
def slugBase2 (crit : Yaml) (fp : Yaml) : Except String String :=
  match crit with
  | .obj fs =>
    match yLookup fs "description" with
    | some (.str d) => if d == "" then .ok (serFp12 fp) else .ok (make_slug d)
    | some v => if ytruthy v then .error "AttributeError" else .ok (serFp12 fp)
    | none => .ok (serFp12 fp)
  | _ => .ok (serFp12 fp)

/-- The extraction loop of pass 2 (lines 169-184). -/
def pass2Go : List (Yaml × List String × Yaml) → List String →
    List (String × Yaml) →
    Except String (List (Yaml × String) × List (String × Yaml))
  | [], _, rows => .ok ([], rows)
  | (fp, _, crit) :: rest, slugs, rows =>
    match find_existing_row rows fp with
    | some s =>
      match pass2Go rest slugs rows with
      | .error e => .error e
      | .ok (m, rows2) => .ok ((fp, s) :: m, rows2)
    | none =>
      match slugBase2 crit fp with
      | .error e => .error e
      | .ok base =>
        let slug := unique_slug base slugs
        match pass2Go rest (slug :: slugs) (assocUpd rows slug crit) with
        | .error e => .error e
        | .ok (m, rows2) => .ok ((fp, slug) :: m, rows2)

def placeholder (slug : String) : String :=
  "\x7b\x7brubric_row:" ++ slug ++ "\x7d\x7d"

/-- One entry of `_rewrite_rubric_file`'s loop (lines 350-357). -/
def rewriteEntry (m : List (Yaml × String)) (e : Yaml) : Yaml :=
  match e with
  | .obj _ =>
    match lookupFp m (normY e) with
    | some slug => .str (placeholder slug)
    | none => e
  | _ => e

/-- `_rewrite_rubric_file` (lines 333-367).  The source writes the file
back only when an entry changed; writing the unchanged list back is the
same document, so the model sets `criteria` unconditionally. -/
def rewriteFile (m : List (Yaml × String)) (y : Yaml) : Yaml :=
  match y with
  | .obj fs =>
    match yLookup fs "criteria" with
    | some (.arr YList.nil) => y
    | some (.arr xs) =>
      .obj (ySet fs "criteria" (.arr (toYL ((ylist xs).map (rewriteEntry m)))))
    | some _ => y
    | none => y
  | _ => y

def affectedPaths (shared : List (Yaml × List String × Yaml)) : List String :=
  (shared.map (fun g => g.2.1)).flatten

/-- `_deduplicate_rows` (lines 133-193). -/
def dedupRows (S : CourseState) : Except String (Nat × CourseState) :=
  let files := filesOf S
  let groups := buildGroups2 files
  let shared := groups.filter (fun g => 2 ≤ g.2.1.length)
  if shared.isEmpty then .ok (0, S)
  else
    match pass2Go (sortBySer shared) (S.rows.map Prod.fst) S.rows with
    | .error e => .error e
    | .ok (m, rows2) =>
      let aff := affectedPaths shared
      .ok (m.length,
        { docs := S.docs.map (fun py =>
            if aff.contains py.1 then (py.1, rewriteFile m py.2) else py),
          sharedRubrics := S.sharedRubrics.map (fun sy =>
            if aff.contains ("rubrics/" ++ sy.1 ++ ".yaml") then
              (sy.1, rewriteFile m sy.2)
            else sy),
          rows := rows2 })

/-- `deduplicate_rubric_rows` (lines 42-51). -/
def deduplicate_rubric_rows (S : CourseState) :
    Except String (Nat × CourseState) :=
  match dedupWholeRubrics S with
  | .error e => .error e
  | .ok (n1, S1) =>
    match dedupRows S1 with
    | .error e => .error e
    | .ok (n2, S2) => .ok (n1 + n2, S2)

/-- The raw criteria list of a document. -/
def criteriaOf (y : Yaml) : List Yaml :=
  match y with
  | .obj fs =>
    match yLookup fs "criteria" with
    | some (.arr xs) => ylist xs
    | _ => []
  | _ => []

/-- The criterion dicts of a document whose fingerprint is `φ`. -/
def entriesWith (φ : Yaml) (y : Yaml) : List Yaml :=
  (criteriaOf y).filter (fun e => isObjY e && eqY (normY e) φ)

/-- The files among `files` in which fingerprint `φ` occurs as a counted
criterion dict. -/
def filesWith (files : List (String × Yaml)) (φ : Yaml) : List String :=
  files.filterMap (fun py =>
    if (critsOf py.2).any (fun c => eqY (normY c) φ) then some py.1 else none)

/-- The rubric documents in which fingerprint `φ` occurs (as a counted
criterion dict). -/
def docsWith (S : CourseState) (φ : Yaml) : List String :=
  filesWith (filesOf S) φ

/-! ### C5: the deduplicator is not idempotent -/

/-- A criterion row. -/
def cX : Yaml :=
  .obj (.cons "description" (.str "x") (.cons "points" (.num 5) .nil))

/-- A second, unshared criterion row. -/
def cY : Yaml :=
  .obj (.cons "description" (.str "y") (.cons "points" (.num 3) .nil))

/-- The C5 course tree: two assignments sharing row `cX`, and a third
whose rubric already holds the literal `\x7b\x7brubric_row:x\x7d\x7d`
placeholder (the state an earlier deduplication run leaves behind). -/
def c5S0 : CourseState :=
  { docs :=
      [("content/a1/rubric.yaml",
        .obj (.cons "title" (.str "T")
          (.cons "criteria" (.arr (.cons cX .nil)) .nil))),
       ("content/a2/rubric.yaml",
        .obj (.cons "criteria" (.arr (.cons cX (.cons cY .nil))) .nil)),
       ("content/b/rubric.yaml",
        .obj (.cons "title" (.str "T")
          (.cons "criteria" (.arr (.cons (.str (placeholder "x")) .nil))
            .nil)))],
    sharedRubrics := [], rows := [] }

/-- After the first run: row `x` extracted, `a1` and `a2` rewritten to the
placeholder — `a1` and `b` now carry identical criteria lists. -/
def c5S1 : CourseState :=
  { docs :=
      [("content/a1/rubric.yaml",
        .obj (.cons "title" (.str "T")
          (.cons "criteria" (.arr (.cons (.str (placeholder "x")) .nil))
            .nil))),
       ("content/a2/rubric.yaml",
        .obj (.cons "criteria"
          (.arr (.cons (.str (placeholder "x")) (.cons cY .nil))) .nil)),
       ("content/b/rubric.yaml",
        .obj (.cons "title" (.str "T")
          (.cons "criteria" (.arr (.cons (.str (placeholder "x")) .nil))
            .nil)))],
    sharedRubrics := [], rows := [("x", cX)] }

/-- After the second run: pass 1 now sees `a1` and `b` as duplicate whole
rubrics, extracts `rubrics/t.yaml` and rewrites both documents. -/
def c5S2 : CourseState :=
  { docs :=
      [("content/a1/rubric.yaml",
        .obj (.cons "use_rubric" (.str "t") .nil)),
       ("content/a2/rubric.yaml",
        .obj (.cons "criteria"
          (.arr (.cons (.str (placeholder "x")) (.cons cY .nil))) .nil)),
       ("content/b/rubric.yaml",
        .obj (.cons "use_rubric" (.str "t") .nil))],
    sharedRubrics :=
      [("t", .obj (.cons "title" (.str "T")
        (.cons "criteria" (.arr (.cons (.str (placeholder "x")) .nil))
          .nil)))],
    rows := [("x", cX)] }

/-- C5: running `deduplicate_rubric_rows` twice on the course tree `c5S0`
with no intervening edits is not stable: the first run extracts one shared
row, and the second run — far from extracting zero items and rewriting
zero documents — extracts one new shared-store file (`rubrics/t.yaml`) and
rewrites two documents, because the placeholder strings pass 2 writes make
previously distinct rubric documents compare equal to a document that
already carried the literal placeholder, and pass 1 fingerprints criteria
lists without filtering placeholders. -/
theorem C5_idempotence_code_bug :
    deduplicate_rubric_rows c5S0 = Except.ok (1, c5S1) ∧
    deduplicate_rubric_rows c5S1 = Except.ok (1, c5S2) ∧
    c5S1.sharedRubrics = [] ∧
    c5S2.sharedRubrics.map Prod.fst = ["t"] ∧
    c5S2 ≠ c5S1 :=
  ⟨rfl, rfl, rfl, rfl, by decide⟩

/-! ### C8: lemmas about pass 2 -/

theorem eqY_refl (a : Yaml) : eqY a a = true := (eqY_iff a a).mpr rfl

theorem insertGroup_perm {α : Type} (x : Yaml × α) (l : List (Yaml × α)) :
    (insertGroup x l).Perm (x :: l) := by
  induction l with
  | nil => exact List.Perm.refl _
  | cons g t ih =>
    unfold insertGroup
    by_cases h : strLe (serY x.1) (serY g.1)
    · rw [if_pos h]
    · rw [if_neg h]
      exact (List.Perm.cons g ih).trans (List.Perm.swap x g t)

theorem sortBySer_perm {α : Type} (l : List (Yaml × α)) :
    (sortBySer l).Perm l := by
  induction l with
  | nil => exact List.Perm.refl _
  | cons g t ih =>
    unfold sortBySer
    exact (insertGroup_perm g _).trans (List.Perm.cons g ih)

/-- The path list of the group keyed `φ`. -/
def groupPaths2 (gs : List (Yaml × List String × Yaml)) (φ : Yaml) :
    List String :=
  match gs.find? (fun g => eqY g.1 φ) with
  | some g => g.2.1
  | none => []

/-- Python `set.add` on an insertion-ordered path set. -/
def setAdd (p : String) (ps : List String) : List String :=
  if p ∈ ps then ps else ps ++ [p]

theorem setAdd_idem (p : String) (ps : List String) :
    setAdd p (setAdd p ps) = setAdd p ps := by
  unfold setAdd
  by_cases h : p ∈ ps
  · simp [h]
  · simp [h]

theorem groupPaths2_nil (φ : Yaml) : groupPaths2 [] φ = [] := rfl

theorem groupPaths2_cons (x : Yaml × List String × Yaml)
    (l : List (Yaml × List String × Yaml)) (φ : Yaml) :
    groupPaths2 (x :: l) φ =
      if eqY x.1 φ then x.2.1 else groupPaths2 l φ := by
  unfold groupPaths2
  by_cases h : eqY x.1 φ = true
  · simp [List.find?, h]
  · simp [List.find?, h]

theorem addGroup2_def_setAdd :
    ∀ (gs : List (Yaml × List String × Yaml)) (fp : Yaml) (p : String)
      (c : Yaml),
    addGroup2 gs fp p c = (match gs with
      | [] => [(fp, [p], c)]
      | g :: t =>
        if eqY g.1 fp then (g.1, setAdd p g.2.1, c) :: t
        else g :: addGroup2 t fp p c)
  | [], _, _, _ => rfl
  | _ :: _, _, _, _ => rfl

theorem groupPaths2_addGroup2 (fp : Yaml) (p : String) (c : Yaml) (φ : Yaml) :
    ∀ gs, groupPaths2 (addGroup2 gs fp p c) φ =
      if φ = fp then setAdd p (groupPaths2 gs fp) else groupPaths2 gs φ := by
  intro gs
  induction gs with
  | nil =>
    rw [addGroup2_def_setAdd, groupPaths2_cons, groupPaths2_nil,
      groupPaths2_nil]
    by_cases h : φ = fp
    · subst h
      rw [if_pos ((eqY_iff _ _).mpr rfl), if_pos rfl]
      rfl
    · rw [if_neg (fun e => h ((eqY_iff _ _).mp e).symm), if_neg h]
  | cons g t ih =>
    rw [addGroup2_def_setAdd]
    dsimp only
    by_cases hg : eqY g.1 fp = true
    · have hgfp : g.1 = fp := (eqY_iff _ _).mp hg
      rw [if_pos hg, groupPaths2_cons]
      dsimp only
      by_cases hφ : φ = fp
      · subst hφ
        simp [hgfp, eqY_refl, groupPaths2_cons]
      · have hc : eqY g.1 φ = false := by
          cases he : eqY g.1 φ
          · rfl
          · exact absurd (((eqY_iff _ _).mp he).symm.trans hgfp) hφ
        simp [hc, hφ, groupPaths2_cons]
    · rw [if_neg hg, groupPaths2_cons, ih]
      by_cases hgφ : eqY g.1 φ = true
      · have hgeq : g.1 = φ := (eqY_iff _ _).mp hgφ
        by_cases hφ : φ = fp
        · exact absurd (by rw [hgeq, hφ]; exact eqY_refl fp) hg
        · simp [hgφ, hφ, groupPaths2_cons]
      · by_cases hφ : φ = fp
        · subst hφ
          simp [hgφ, groupPaths2_cons]
        · simp [hgφ, hφ, groupPaths2_cons]

theorem addFileRows_cons (gs : List (Yaml × List String × Yaml)) (p : String)
    (c : Yaml) (cs : List Yaml) :
    addFileRows gs p (c :: cs) = addFileRows (addGroup2 gs (normY c) p c) p cs :=
  rfl

theorem groupPaths2_addFileRows (p : String) :
    ∀ (cs : List Yaml) (gs : List (Yaml × List String × Yaml)) (φ : Yaml),
    groupPaths2 (addFileRows gs p cs) φ =
      if ∃ c ∈ cs, normY c = φ then setAdd p (groupPaths2 gs φ)
      else groupPaths2 gs φ := by
  intro cs
  induction cs with
  | nil =>
    intro gs φ
    rw [if_neg (by simp)]
    rfl
  | cons c cs ih =>
    intro gs φ
    rw [addFileRows_cons, ih, groupPaths2_addGroup2]
    by_cases hc : normY c = φ
    · have hcons : ∃ c2 ∈ c :: cs, normY c2 = φ :=
        ⟨c, List.mem_cons_self c cs, hc⟩
      by_cases hrest : ∃ c2 ∈ cs, normY c2 = φ
      · rw [if_pos hrest, if_pos hc.symm, hc, setAdd_idem, if_pos hcons]
      · rw [if_neg hrest, if_pos hc.symm, hc, if_pos hcons]
    · have hφc : ¬φ = normY c := fun e => hc e.symm
      by_cases hrest : ∃ c2 ∈ cs, normY c2 = φ
      · obtain ⟨c2, hc2, he⟩ := hrest
        rw [if_pos ⟨c2, hc2, he⟩, if_neg hφc,
          if_pos ⟨c2, List.mem_cons_of_mem c hc2, he⟩]
      · rw [if_neg hrest, if_neg hφc, if_neg (by
          rintro ⟨c2, hc2, he⟩
          rcases List.mem_cons.mp hc2 with rfl | h2
          · exact hc he
          · exact hrest ⟨c2, h2, he⟩)]

theorem filesWith_nil (φ : Yaml) : filesWith [] φ = [] := rfl

theorem filesWith_cons (py : String × Yaml) (fs : List (String × Yaml))
    (φ : Yaml) :
    filesWith (py :: fs) φ =
      if ∃ c ∈ critsOf py.2, normY c = φ then py.1 :: filesWith fs φ
      else filesWith fs φ := by
  unfold filesWith
  rw [List.filterMap_cons]
  by_cases h : ∃ c ∈ critsOf py.2, normY c = φ
  · have hb : ((critsOf py.2).any fun c => eqY (normY c) φ) = true := by
      obtain ⟨c, hc, he⟩ := h
      exact List.any_eq_true.mpr ⟨c, hc, (eqY_iff _ _).mpr he⟩
    rw [if_pos h]
    simp only [hb, ite_true]
  · have hb : ((critsOf py.2).any fun c => eqY (normY c) φ) = false := by
      rw [List.any_eq_false]
      intro c hc
      simp only [Bool.not_eq_true]
      cases he : eqY (normY c) φ
      · rfl
      · exact absurd ⟨c, hc, (eqY_iff _ _).mp he⟩ h
    rw [if_neg h]
    simp only [hb]
    rfl

theorem groupPaths2_fold (φ : Yaml) :
    ∀ (files : List (String × Yaml)) (gs : List (Yaml × List String × Yaml)),
    (∀ p ∈ files.map Prod.fst, p ∉ groupPaths2 gs φ) →
    (files.map Prod.fst).Nodup →
    groupPaths2
        (files.foldl (fun gs py => addFileRows gs py.1 (critsOf py.2)) gs) φ =
      groupPaths2 gs φ ++ filesWith files φ := by
  intro files
  induction files with
  | nil =>
    intro gs _ _
    rw [filesWith_nil, List.append_nil]
    rfl
  | cons py fs ih =>
    intro gs hdisj hnd
    rw [List.foldl_cons, filesWith_cons]
    simp only [List.map_cons, List.nodup_cons] at hnd
    have hph : py.1 ∉ groupPaths2 gs φ :=
      hdisj py.1 (by simp)
    have hstep := groupPaths2_addFileRows py.1 (critsOf py.2) gs φ
    by_cases hc : ∃ c ∈ critsOf py.2, normY c = φ
    · rw [if_pos hc] at hstep
      have hset : setAdd py.1 (groupPaths2 gs φ) =
          groupPaths2 gs φ ++ [py.1] := by
        unfold setAdd
        rw [if_neg hph]
      have hdisj2 : ∀ q ∈ fs.map Prod.fst,
          q ∉ groupPaths2 (addFileRows gs py.1 (critsOf py.2)) φ := by
        intro q hq
        rw [hstep, hset]
        intro hmem
        rcases List.mem_append.mp hmem with h1 | h1
        · exact hdisj q (List.mem_cons_of_mem _ hq) h1
        · exact hnd.1 (List.mem_singleton.mp h1 ▸ hq)
      rw [ih _ hdisj2 hnd.2, hstep, hset, if_pos hc, List.append_assoc]
      rfl
    · rw [if_neg hc] at hstep
      have hdisj2 : ∀ q ∈ fs.map Prod.fst,
          q ∉ groupPaths2 (addFileRows gs py.1 (critsOf py.2)) φ := by
        intro q hq
        rw [hstep]
        exact hdisj q (List.mem_cons_of_mem _ hq)
      rw [ih _ hdisj2 hnd.2, hstep, if_neg hc]

theorem groupPaths2_buildGroups2 (files : List (String × Yaml)) (φ : Yaml)
    (hnd : (files.map Prod.fst).Nodup) :
    groupPaths2 (buildGroups2 files) φ = filesWith files φ := by
  unfold buildGroups2
  rw [groupPaths2_fold φ files [] (by intro p _ h; exact absurd h (by
      rw [groupPaths2_nil]; exact List.not_mem_nil p)) hnd]
  rfl

/-- The grouping invariant: each representative normalizes to its key and
the keys are distinct. -/
def G2WF (gs : List (Yaml × List String × Yaml)) : Prop :=
  (∀ g ∈ gs, normY g.2.2 = g.1) ∧ (gs.map Prod.fst).Nodup

theorem mem_keys_addGroup2 {k fp : Yaml} {p : String} {c : Yaml} :
    ∀ {gs : List (Yaml × List String × Yaml)},
    k ∈ (addGroup2 gs fp p c).map Prod.fst → k = fp ∨ k ∈ gs.map Prod.fst := by
  intro gs
  induction gs with
  | nil =>
    intro h
    simp only [addGroup2, List.map_cons, List.map_nil,
      List.mem_singleton] at h
    exact Or.inl h
  | cons g t ih =>
    intro h
    rw [addGroup2_def_setAdd] at h
    dsimp only at h
    by_cases hg : eqY g.1 fp = true
    · rw [if_pos hg] at h
      simp only [List.map_cons, List.mem_cons] at h
      rcases h with h | h
      · exact Or.inr (by
          rw [h, List.map_cons]
          exact List.mem_cons_self _ _)
      · exact Or.inr (by
          rw [List.map_cons]
          exact List.mem_cons_of_mem _ h)
    · rw [if_neg hg] at h
      simp only [List.map_cons, List.mem_cons] at h
      rcases h with h | h
      · exact Or.inr (by
          rw [h, List.map_cons]
          exact List.mem_cons_self _ _)
      · rcases ih h with h1 | h1
        · exact Or.inl h1
        · exact Or.inr (by
            rw [List.map_cons]
            exact List.mem_cons_of_mem _ h1)

theorem G2WF_addGroup2 {c fp : Yaml} (hc : normY c = fp) (p : String) :
    ∀ {gs : List (Yaml × List String × Yaml)}, G2WF gs →
    G2WF (addGroup2 gs fp p c) := by
  intro gs
  induction gs with
  | nil =>
    intro _
    refine ⟨?_, ?_⟩
    · intro g hg
      rw [List.mem_singleton.mp hg]
      exact hc
    · show (List.map Prod.fst [(fp, [p], c)]).Nodup
      rw [List.map_cons, List.map_nil]
      exact List.nodup_singleton fp
  | cons g t ih =>
    intro ⟨hrep, hnd⟩
    simp only [List.map_cons, List.nodup_cons] at hnd
    rw [addGroup2_def_setAdd]
    dsimp only
    by_cases hg : eqY g.1 fp = true
    · rw [if_pos hg]
      refine ⟨?_, ?_⟩
      · intro g2 hg2
        rcases List.mem_cons.mp hg2 with rfl | h2
        · show normY c = g.1
          rw [hc, (eqY_iff _ _).mp hg]
        · exact hrep g2 (List.mem_cons_of_mem _ h2)
      · simp only [List.map_cons, List.nodup_cons]
        exact hnd
    · rw [if_neg hg]
      have hih := ih ⟨fun g2 h2 => hrep g2 (List.mem_cons_of_mem _ h2), hnd.2⟩
      refine ⟨?_, ?_⟩
      · intro g2 hg2
        rcases List.mem_cons.mp hg2 with rfl | h2
        · exact hrep g2 (List.mem_cons_self _ _)
        · exact hih.1 g2 h2
      · simp only [List.map_cons, List.nodup_cons]
        refine ⟨?_, hih.2⟩
        intro hmem
        rcases mem_keys_addGroup2 hmem with h1 | h1
        · exact hg (h1 ▸ eqY_refl g.1)
        · exact hnd.1 h1

theorem G2WF_addFileRows (p : String) :
    ∀ (cs : List Yaml) {gs : List (Yaml × List String × Yaml)}, G2WF gs →
    G2WF (addFileRows gs p cs) := by
  intro cs
  induction cs with
  | nil => intro gs h; exact h
  | cons c cs ih =>
    intro gs h
    rw [addFileRows_cons]
    exact ih (G2WF_addGroup2 rfl p h)

theorem G2WF_buildGroups2 (files : List (String × Yaml)) :
    G2WF (buildGroups2 files) := by
  unfold buildGroups2
  have : ∀ (fs : List (String × Yaml)) (gs : List (Yaml × List String × Yaml)),
      G2WF gs → G2WF (fs.foldl (fun gs py => addFileRows gs py.1 (critsOf py.2)) gs) := by
    intro fs
    induction fs with
    | nil => intro gs h; exact h
    | cons py fs ih =>
      intro gs h
      rw [List.foldl_cons]
      exact ih _ (G2WF_addFileRows py.1 (critsOf py.2) h)
  exact this files [] ⟨by simp, by simp⟩

theorem lookupFp_cons (k : Yaml) (v : String) (m : List (Yaml × String))
    (φ : Yaml) :
    lookupFp ((k, v) :: m) φ = if eqY k φ then some v else lookupFp m φ := by
  unfold lookupFp
  by_cases h : eqY k φ = true
  · simp [List.find?, h]
  · simp [List.find?, h]

theorem find_existing_row_some {rows : List (String × Yaml)} {fp : Yaml}
    {s : String} (h : find_existing_row rows fp = some s) :
    ∃ sy ∈ rows, normY sy.2 = fp := by
  unfold find_existing_row at h
  rcases hf : rows.find? (fun sy => eqY (normY sy.2) fp) with _ | sy
  · rw [hf] at h
    exact Option.noConfusion h
  · have hpred := @List.find?_some (String × Yaml)
      (fun sy => eqY (normY sy.2) fp) sy rows hf
    exact ⟨sy, List.mem_of_find?_eq_some hf, (eqY_iff _ _).mp hpred⟩

theorem assocUpd_fresh {β : Type} {rows : List (String × β)} {slug : String}
    (h : slug ∉ rows.map Prod.fst) (v : β) :
    assocUpd rows slug v = rows ++ [(slug, v)] := by
  unfold assocUpd
  rw [if_neg (by
    intro hany
    obtain ⟨kv, hkv, hk⟩ := List.any_eq_true.mp hany
    exact h (List.mem_map.mpr ⟨kv, hkv, by
      exact (decide_eq_true_eq.mp hk)⟩))]

theorem pass2Go_spec :
    ∀ (todo : List (Yaml × List String × Yaml)) (slugs : List String)
      (rows : List (String × Yaml)) (m : List (Yaml × String))
      (rows2 : List (String × Yaml)),
    pass2Go todo slugs rows = Except.ok (m, rows2) →
    (∀ s ∈ rows.map Prod.fst, s ∈ slugs) →
    (∀ g ∈ todo, normY g.2.2 = g.1) →
    todo.Pairwise (fun a b => a.1 ≠ b.1) →
    (∃ written, rows2 = rows ++ written ∧
      ∀ sy ∈ written, ∃ g ∈ todo, normY sy.2 = g.1) ∧
    (∀ φ s, lookupFp m φ = some s → ∃ g ∈ todo, g.1 = φ) ∧
    (∀ φ, (∃ g ∈ todo, g.1 = φ) → (∀ sy ∈ rows, normY sy.2 ≠ φ) →
      ∃ slug crit, lookupFp m φ = some slug ∧ (slug, crit) ∈ rows2 ∧
        normY crit = φ ∧ slug ∉ rows.map Prod.fst ∧
        (∀ sy ∈ rows2, normY sy.2 = φ → sy = (slug, crit))) := by
  intro todo
  induction todo with
  | nil =>
    intro slugs rows m rows2 h _ _ _
    have h2 : Except.ok (([] : List (Yaml × String)), rows) =
        Except.ok (m, rows2) := h
    injection h2 with h3
    injection h3 with hm hr
    subst hm
    subst hr
    refine ⟨⟨[], by rw [List.append_nil], ?_⟩, ?_, ?_⟩
    · intro sy hsy
      exact absurd hsy (List.not_mem_nil sy)
    · intro φ s h4
      exact Option.noConfusion h4
    · intro φ hin _
      obtain ⟨g, hg, _⟩ := hin
      exact absurd hg (List.not_mem_nil g)
  | cons hd rest ih =>
    obtain ⟨fp, ps, crit⟩ := hd
    intro slugs rows m rows2 h hslugs hreps hpw
    have hrephd : normY crit = fp := hreps _ (List.mem_cons_self _ _)
    have hrepst : ∀ g ∈ rest, normY g.2.2 = g.1 :=
      fun g hg => hreps g (List.mem_cons_of_mem _ hg)
    rw [List.pairwise_cons] at hpw
    unfold pass2Go at h
    rcases hfind : find_existing_row rows fp with _ | s
    · rw [hfind] at h
      rcases hbase : slugBase2 crit fp with e | base
      · rw [hbase] at h
        exact Except.noConfusion h
      · rw [hbase] at h
        dsimp only at h
        have hfresh : unique_slug base slugs ∉ slugs :=
          unique_slug_not_mem base slugs
        have hfreshrows : unique_slug base slugs ∉ rows.map Prod.fst :=
          fun hm2 => hfresh (hslugs _ hm2)
        rw [assocUpd_fresh hfreshrows crit] at h
        rcases hrec : pass2Go rest (unique_slug base slugs :: slugs)
            (rows ++ [(unique_slug base slugs, crit)]) with e | pr
        · rw [hrec] at h
          exact Except.noConfusion h
        · obtain ⟨m1, rows21⟩ := pr
          rw [hrec] at h
          have h2 : Except.ok ((fp, unique_slug base slugs) :: m1, rows21) =
              Except.ok (m, rows2) := h
          injection h2 with h3
          injection h3 with hm hr
          subst hm
          subst hr
          have hslugs2 : ∀ s2 ∈ (rows ++ [(unique_slug base slugs, crit)]).map
              Prod.fst, s2 ∈ unique_slug base slugs :: slugs := by
            intro s2 hs2
            rw [List.map_append] at hs2
            rcases List.mem_append.mp hs2 with h4 | h4
            · exact List.mem_cons_of_mem _ (hslugs _ h4)
            · simp only [List.map_cons, List.map_nil,
                List.mem_singleton] at h4
              rw [h4]
              exact List.mem_cons_self _ _
          obtain ⟨⟨written, hw, hwp⟩, hP2, hP3⟩ :=
            ih (unique_slug base slugs :: slugs)
              (rows ++ [(unique_slug base slugs, crit)]) m1 rows21 hrec
              hslugs2 hrepst hpw.2
          refine ⟨⟨(unique_slug base slugs, crit) :: written, ?_, ?_⟩, ?_, ?_⟩
          · rw [hw, List.append_assoc]
            rfl
          · intro sy hsy
            rcases List.mem_cons.mp hsy with rfl | h4
            · exact ⟨(fp, ps, crit), List.mem_cons_self _ _, hrephd⟩
            · obtain ⟨g, hg, he⟩ := hwp sy h4
              exact ⟨g, List.mem_cons_of_mem _ hg, he⟩
          · intro φ s2 h4
            rw [lookupFp_cons] at h4
            by_cases hφ : eqY fp φ = true
            · exact ⟨(fp, ps, crit), List.mem_cons_self _ _,
                (eqY_iff _ _).mp hφ⟩
            · rw [if_neg hφ] at h4
              obtain ⟨g, hg, he⟩ := hP2 φ s2 h4
              exact ⟨g, List.mem_cons_of_mem _ hg, he⟩
          · intro φ hin hnophi
            by_cases hφ : φ = fp
            · subst hφ
              refine ⟨unique_slug base slugs, crit, ?_, ?_, hrephd, hfreshrows,
                ?_⟩
              · rw [lookupFp_cons, if_pos (eqY_refl _)]
              · rw [hw]
                exact List.mem_append.mpr (Or.inl
                  (List.mem_append.mpr (Or.inr (List.mem_singleton.mpr rfl))))
              · intro sy hsy he
                rw [hw] at hsy
                rcases List.mem_append.mp hsy with h4 | h4
                · rcases List.mem_append.mp h4 with h5 | h5
                  · exact absurd he (hnophi sy h5)
                  · rw [List.mem_singleton.mp h5]
                · obtain ⟨g, hg, hge⟩ := hwp sy h4
                  exact absurd (hge.symm.trans he).symm (hpw.1 g hg)
            · obtain ⟨g, hg, hge⟩ := hin
              have hgrest : g ∈ rest := by
                rcases List.mem_cons.mp hg with rfl | h4
                · exact absurd hge.symm hφ
                · exact h4
              have hnophi2 : ∀ sy ∈ rows ++ [(unique_slug base slugs, crit)],
                  normY sy.2 ≠ φ := by
                intro sy hsy
                rcases List.mem_append.mp hsy with h4 | h4
                · exact hnophi sy h4
                · rw [List.mem_singleton.mp h4]
                  show normY crit ≠ φ
                  rw [hrephd]
                  exact fun e => hφ e.symm
              obtain ⟨slug2, crit2, hl, hmem, hnorm, hnotin, huniq⟩ :=
                hP3 φ ⟨g, hgrest, hge⟩ hnophi2
              refine ⟨slug2, crit2, ?_, hmem, hnorm, ?_, huniq⟩
              · rw [lookupFp_cons, if_neg (fun e =>
                  hφ ((eqY_iff _ _).mp e).symm)]
                exact hl
              · intro hm2
                exact hnotin (by
                  rw [List.map_append]
                  exact List.mem_append.mpr (Or.inl hm2))
    · rw [hfind] at h
      rcases hrec : pass2Go rest slugs rows with e | pr
      · rw [hrec] at h
        exact Except.noConfusion h
      · obtain ⟨m1, rows21⟩ := pr
        rw [hrec] at h
        have h2 : Except.ok ((fp, s) :: m1, rows21) = Except.ok (m, rows2) := h
        injection h2 with h3
        injection h3 with hm hr
        subst hm
        subst hr
        obtain ⟨⟨written, hw, hwp⟩, hP2, hP3⟩ :=
          ih slugs rows m1 rows21 hrec hslugs hrepst hpw.2
        refine ⟨⟨written, hw, ?_⟩, ?_, ?_⟩
        · intro sy hsy
          obtain ⟨g, hg, he⟩ := hwp sy hsy
          exact ⟨g, List.mem_cons_of_mem _ hg, he⟩
        · intro φ s2 h4
          rw [lookupFp_cons] at h4
          by_cases hφ : eqY fp φ = true
          · exact ⟨(fp, ps, crit), List.mem_cons_self _ _,
              (eqY_iff _ _).mp hφ⟩
          · rw [if_neg hφ] at h4
            obtain ⟨g, hg, he⟩ := hP2 φ s2 h4
            exact ⟨g, List.mem_cons_of_mem _ hg, he⟩
        · intro φ hin hnophi
          by_cases hφ : φ = fp
          · subst hφ
            obtain ⟨sy, hsy, he⟩ := find_existing_row_some hfind
            exact absurd he (hnophi sy hsy)
          · obtain ⟨g, hg, hge⟩ := hin
            have hgrest : g ∈ rest := by
              rcases List.mem_cons.mp hg with rfl | h4
              · exact absurd hge.symm hφ
              · exact h4
            obtain ⟨slug2, crit2, hl, hmem, hnorm, hnotin, huniq⟩ :=
              hP3 φ ⟨g, hgrest, hge⟩ hnophi
            refine ⟨slug2, crit2, ?_, hmem, hnorm, hnotin, huniq⟩
            rw [lookupFp_cons, if_neg (fun e => hφ ((eqY_iff _ _).mp e).symm)]
            exact hl

theorem yLookup_ySet : ∀ (fs : YFields) (k : String) (v : Yaml),
    yLookup (ySet fs k v) k = some v
  | .nil, k, v => by
    show yLookup (.cons k v .nil) k = some v
    unfold yLookup
    rw [if_pos (by simp)]
  | .cons k2 v2 t, k, v => by
    unfold ySet
    by_cases h : (k2 == k) = true
    · rw [if_pos h]
      unfold yLookup
      rw [if_pos h]
    · rw [if_neg h]
      unfold yLookup
      rw [if_neg h]
      exact yLookup_ySet t k v

theorem criteriaOf_obj {fs : YFields} {xs : YList}
    (hcr : yLookup fs "criteria" = some (.arr xs)) :
    criteriaOf (.obj fs) = ylist xs := by
  unfold criteriaOf
  dsimp only
  rw [hcr]

theorem criteriaOf_rewriteFile_arr {fs : YFields} {xs : YList}
    (hcr : yLookup fs "criteria" = some (.arr xs)) (hne : xs ≠ YList.nil)
    (m : List (Yaml × String)) :
    criteriaOf (rewriteFile m (.obj fs)) = (ylist xs).map (rewriteEntry m) := by
  cases xs with
  | nil => exact absurd rfl hne
  | cons y0 t0 =>
    unfold rewriteFile
    dsimp only
    rw [hcr]
    dsimp only
    unfold criteriaOf
    dsimp only
    rw [yLookup_ySet]
    dsimp only
    rw [ylist_toYL]

theorem rewriteEntry_eq_of_none {m : List (Yaml × String)} {φ : Yaml}
    (hnone : lookupFp m φ = none) (e : Yaml) :
    (isObjY e = false → rewriteEntry m e = e) ∧
    (normY e = φ → rewriteEntry m e = e) := by
  constructor
  · intro hobj
    cases e with
    | str s => rfl
    | num n => rfl
    | arr xs => rfl
    | obj fs => exact Bool.noConfusion hobj
  · intro hφ
    cases e with
    | str s => rfl
    | num n => rfl
    | arr xs => rfl
    | obj fs =>
      unfold rewriteEntry
      rw [hφ, hnone]

theorem filter_map_rewriteEntry {m : List (Yaml × String)} {φ : Yaml}
    (hnone : lookupFp m φ = none) :
    ∀ l : List Yaml,
    (l.map (rewriteEntry m)).filter (fun e => isObjY e && eqY (normY e) φ) =
      l.filter (fun e => isObjY e && eqY (normY e) φ) := by
  intro l
  induction l with
  | nil => rfl
  | cons e t ih =>
    rw [List.map_cons, List.filter_cons, List.filter_cons, ih]
    by_cases hpred : (isObjY e && eqY (normY e) φ) = true
    · have hφ : normY e = φ :=
        (eqY_iff _ _).mp (Bool.and_elim_right hpred)
      rw [(rewriteEntry_eq_of_none hnone e).2 hφ]
    · rw [if_neg hpred]
      have hnew : (isObjY (rewriteEntry m e) &&
          eqY (normY (rewriteEntry m e)) φ) = false := by
        cases e with
        | str s => exact Bool.and_eq_false_iff.mpr (Or.inl rfl)
        | num n => exact Bool.and_eq_false_iff.mpr (Or.inl rfl)
        | arr xs => exact Bool.and_eq_false_iff.mpr (Or.inl rfl)
        | obj fs =>
          unfold rewriteEntry
          rcases hl : lookupFp m (normY (.obj fs)) with _ | slug
          · dsimp only
            cases hb : (isObjY (Yaml.obj fs) && eqY (normY (.obj fs)) φ)
            · rfl
            · exact absurd hb hpred
          · dsimp only
            exact Bool.and_eq_false_iff.mpr (Or.inl rfl)
      rw [if_neg (by rw [hnew]; exact Bool.false_ne_true)]

theorem entriesWith_rewriteFile {m : List (Yaml × String)} {φ : Yaml}
    (hnone : lookupFp m φ = none) (y : Yaml) :
    entriesWith φ (rewriteFile m y) = entriesWith φ y := by
  cases y with
  | str s => rfl
  | num n => rfl
  | arr xs => rfl
  | obj fs =>
    rcases hcr : yLookup fs "criteria" with _ | cr
    · unfold rewriteFile
      dsimp only
      rw [hcr]
    · cases cr with
      | str s =>
        unfold rewriteFile
        dsimp only
        rw [hcr]
      | num n =>
        unfold rewriteFile
        dsimp only
        rw [hcr]
      | obj fs2 =>
        unfold rewriteFile
        dsimp only
        rw [hcr]
      | arr xs =>
        cases xs with
        | nil =>
          unfold rewriteFile
          dsimp only
          rw [hcr]
        | cons y0 t0 =>
          unfold entriesWith
          rw [criteriaOf_rewriteFile_arr hcr (by intro h; cases h) m,
            criteriaOf_obj hcr, filter_map_rewriteEntry hnone]

theorem criteriaOf_get_rewrite {m : List (Yaml × String)} {φ : Yaml}
    {slug : String} (hsome : lookupFp m φ = some slug) {fs : YFields}
    {xs : YList} (hcr : yLookup fs "criteria" = some (.arr xs))
    (hne : xs ≠ YList.nil) (i : Nat) (e : Yaml)
    (hi : (criteriaOf (.obj fs)).get? i = some e) (hobj : isObjY e = true)
    (hφ : normY e = φ) :
    (criteriaOf (rewriteFile m (.obj fs))).get? i =
      some (.str (placeholder slug)) := by
  rw [criteriaOf_rewriteFile_arr hcr hne m]
  rw [criteriaOf_obj hcr] at hi
  rw [List.get?_map, hi]
  show some (rewriteEntry m e) = _
  cases e with
  | str s => exact absurd hobj (by simp [isObjY])
  | num n => exact absurd hobj (by simp [isObjY])
  | arr ys => exact absurd hobj (by simp [isObjY])
  | obj fs2 =>
    unfold rewriteEntry
    rw [hφ, hsome]

theorem load_shape {y : Yaml} {cs : List Yaml}
    (h : load_rubric_criteria y = some cs) :
    ∃ fs xs, y = .obj fs ∧ yLookup fs "criteria" = some (.arr xs) ∧
      xs ≠ YList.nil ∧ cs = (ylist xs).filter isObjY := by
  cases y with
  | str s => exact Option.noConfusion h
  | num n => exact Option.noConfusion h
  | arr xs => exact Option.noConfusion h
  | obj fs =>
    unfold load_rubric_criteria at h
    dsimp only at h
    by_cases hkeys : (yHasKey fs "use_rubric" || yHasKey fs "reference") = true
    · rw [if_pos hkeys] at h
      exact Option.noConfusion h
    · rw [if_neg hkeys] at h
      rcases hcr : yLookup fs "criteria" with _ | cr
      · rw [hcr] at h
        exact Option.noConfusion h
      · rw [hcr] at h
        cases cr with
        | str s => exact Option.noConfusion h
        | num n => exact Option.noConfusion h
        | obj fs2 => exact Option.noConfusion h
        | arr xs =>
          cases xs with
          | nil => exact Option.noConfusion h
          | cons y0 t0 =>
            refine ⟨fs, .cons y0 t0, rfl, hcr, ?_, ?_⟩
            · intro h2
              cases h2
            · have h2 : some ((ylist (.cons y0 t0)).filter isObjY) =
                  some cs := h
              exact (Option.some_injective _ h2).symm

theorem groupPaths2_of_mem {gs : List (Yaml × List String × Yaml)}
    (hnd : (gs.map Prod.fst).Nodup) {g : Yaml × List String × Yaml}
    (hg : g ∈ gs) : groupPaths2 gs g.1 = g.2.1 := by
  induction gs with
  | nil => exact absurd hg (List.not_mem_nil g)
  | cons x t ih =>
    simp only [List.map_cons, List.nodup_cons] at hnd
    rcases List.mem_cons.mp hg with rfl | h2
    · rw [groupPaths2_cons, if_pos (eqY_refl _)]
    · rw [groupPaths2_cons]
      have hne : eqY x.1 g.1 = false := by
        cases he : eqY x.1 g.1
        · rfl
        · exact absurd ((eqY_iff _ _).mp he ▸
            List.mem_map.mpr ⟨g, h2, rfl⟩) hnd.1
      rw [hne]
      show groupPaths2 t g.1 = g.2.1
      exact ih hnd.2 h2

theorem shared_group_of_two (S : CourseState) (φ : Yaml)
    (hnd : ((filesOf S).map Prod.fst).Nodup)
    (hlen : 2 ≤ (docsWith S φ).length) :
    ∃ g ∈ (buildGroups2 (filesOf S)).filter (fun g => 2 ≤ g.2.1.length),
      g.1 = φ ∧ g.2.1 = docsWith S φ := by
  have hgp : groupPaths2 (buildGroups2 (filesOf S)) φ = docsWith S φ :=
    groupPaths2_buildGroups2 (filesOf S) φ hnd
  rcases hf : (buildGroups2 (filesOf S)).find? (fun g => eqY g.1 φ)
      with _ | g
  · have hnil : groupPaths2 (buildGroups2 (filesOf S)) φ = [] := by
      unfold groupPaths2
      rw [hf]
    rw [hnil] at hgp
    rw [← hgp] at hlen
    simp at hlen
  · have hkey := @List.find?_some (Yaml × List String × Yaml)
      (fun g => eqY g.1 φ) g (buildGroups2 (filesOf S)) hf
    have hkeq : g.1 = φ := (eqY_iff _ _).mp hkey
    have hmem := List.mem_of_find?_eq_some hf
    have hpaths : g.2.1 = docsWith S φ := by
      rw [← hgp]
      unfold groupPaths2
      rw [hf]
    refine ⟨g, List.mem_filter.mpr ⟨hmem, ?_⟩, hkeq, hpaths⟩
    rw [hpaths]
    exact decide_eq_true hlen

theorem not_shared_of_one (S : CourseState) (φ : Yaml)
    (hnd : ((filesOf S).map Prod.fst).Nodup)
    (hlen : (docsWith S φ).length ≤ 1) :
    ∀ g ∈ (buildGroups2 (filesOf S)).filter (fun g => 2 ≤ g.2.1.length),
      g.1 ≠ φ := by
  intro g hg hkeq
  have hWF := G2WF_buildGroups2 (filesOf S)
  have hgmem := (List.mem_filter.mp hg).1
  have hgood := (List.mem_filter.mp hg).2
  have hgp := groupPaths2_of_mem hWF.2 hgmem
  rw [hkeq, groupPaths2_buildGroups2 (filesOf S) φ hnd] at hgp
  have h2 : 2 ≤ g.2.1.length := of_decide_eq_true hgood
  rw [← hgp] at h2
  have hdw : docsWith S φ = filesWith (filesOf S) φ := rfl
  rw [hdw] at hlen
  omega

theorem mem_contains_true {l : List String} {a : String} (h : a ∈ l) :
    l.contains a = true := by
  cases hc : l.contains a
  · exact absurd h (contains_false_not_mem hc)
  · rfl

theorem filesOf_rewrite (S : CourseState) (m : List (Yaml × String))
    (aff : List String) (rows2 : List (String × Yaml)) :
    filesOf
      { docs := S.docs.map (fun py =>
          if aff.contains py.1 then (py.1, rewriteFile m py.2) else py),
        sharedRubrics := S.sharedRubrics.map (fun sy =>
          if aff.contains ("rubrics/" ++ sy.1 ++ ".yaml") then
            (sy.1, rewriteFile m sy.2)
          else sy),
        rows := rows2 } =
      (filesOf S).map (fun py =>
        if aff.contains py.1 then (py.1, rewriteFile m py.2) else py) := by
  unfold filesOf
  dsimp only
  rw [List.map_append, List.map_map, List.map_map]
  congr 1
  apply List.map_congr_left
  intro sy _
  show (fun sy : String × Yaml => ("rubrics/" ++ sy.1 ++ ".yaml", sy.2))
      (if aff.contains ("rubrics/" ++ sy.1 ++ ".yaml") then
        (sy.1, rewriteFile m sy.2) else sy) =
    (fun py : String × Yaml =>
      if aff.contains py.1 then (py.1, rewriteFile m py.2) else py)
      ("rubrics/" ++ sy.1 ++ ".yaml", sy.2)
  by_cases h : aff.contains ("rubrics/" ++ sy.1 ++ ".yaml") = true
  · rw [if_pos h]
    dsimp only
    rw [if_pos h]
  · rw [if_neg h]
    dsimp only
    rw [if_neg h]

theorem mem_map_fst_eq {β : Type} {l : List (String × β)}
    (hnd : (l.map Prod.fst).Nodup) {F : String × β → String × β}
    (hF : ∀ x, (F x).1 = x.1) {p : String} {y y2 : β}
    (hy : (p, y) ∈ l) (hy2 : (p, y2) ∈ l.map F) : (p, y2) = F (p, y) := by
  obtain ⟨x, hx, hfx⟩ := List.mem_map.mp hy2
  obtain ⟨q, z⟩ := x
  have hq : q = p := by
    have h1 := hF (q, z)
    rw [hfx] at h1
    exact h1.symm
  subst hq
  have hz : z = y := nodup_keys_mem_eq hnd hx hy
  subst hz
  exact hfx.symm

theorem filesOf_dedup_mem (S : CourseState) (m : List (Yaml × String))
    (aff : List String) (rows2 : List (String × Yaml))
    (hpaths : ((filesOf S).map Prod.fst).Nodup)
    {p : String} {y y2 : Yaml} (hy : (p, y) ∈ filesOf S)
    (hy2 : (p, y2) ∈ filesOf
      { docs := S.docs.map (fun py =>
          if aff.contains py.1 then (py.1, rewriteFile m py.2) else py),
        sharedRubrics := S.sharedRubrics.map (fun sy =>
          if aff.contains ("rubrics/" ++ sy.1 ++ ".yaml") then
            (sy.1, rewriteFile m sy.2)
          else sy),
        rows := rows2 }) :
    y2 = if aff.contains p then rewriteFile m y else y := by
  rw [filesOf_rewrite] at hy2
  have hF1 : ∀ x : String × Yaml,
      (if aff.contains x.1 then (x.1, rewriteFile m x.2) else x).1 = x.1 := by
    intro x
    by_cases h : aff.contains x.1 = true
    · rw [if_pos h]
    · rw [if_neg h]
  have heq := mem_map_fst_eq hpaths hF1 hy hy2
  dsimp only at heq
  by_cases haff : aff.contains p = true
  · rw [if_pos haff] at heq
    injection heq with h1 h2
    rw [h2, if_pos haff]
  · rw [if_neg haff] at heq
    injection heq with h1 h2
    rw [h2, if_neg haff]

/-- C8: in `_deduplicate_rows`, for a criterion fingerprint not already in
the shared row store: if it occurs (as a counted criterion dict) in at most
one rubric document, no row with that fingerprint is written to the row
store (every result row is an old row or carries a different fingerprint)
and in every document the criterion entries with that fingerprint are left
unchanged; if it occurs in two or more distinct rubric documents, exactly
one row with that fingerprint is written — a fresh slug, unique in the
result — and in every document every counted occurrence is replaced in
place by the `\x7b\x7brubric_row:slug\x7d\x7d` placeholder string
referencing that single row. -/
theorem C8_row_dedup_scope (S : CourseState) (n : Nat) (S' : CourseState)
    (φ : Yaml)
    (hok : dedupRows S = Except.ok (n, S'))
    (hpaths : ((filesOf S).map Prod.fst).Nodup)
    (hrows0 : ∀ sy ∈ S.rows, normY sy.2 ≠ φ) :
    ((docsWith S φ).length ≤ 1 →
      (∀ sy ∈ S'.rows, sy ∈ S.rows ∨ normY sy.2 ≠ φ) ∧
      (∀ p y y2, (p, y) ∈ filesOf S → (p, y2) ∈ filesOf S' →
        entriesWith φ y2 = entriesWith φ y)) ∧
    (2 ≤ (docsWith S φ).length →
      ∃ slug crit, (slug, crit) ∈ S'.rows ∧ normY crit = φ ∧
        slug ∉ S.rows.map Prod.fst ∧
        (∀ sy ∈ S'.rows, normY sy.2 = φ → sy = (slug, crit)) ∧
        (∀ p y y2, (p, y) ∈ filesOf S → (p, y2) ∈ filesOf S' →
          load_rubric_criteria y ≠ none →
          ∀ i e, (criteriaOf y).get? i = some e → isObjY e = true →
            normY e = φ →
            (criteriaOf y2).get? i = some (.str (placeholder slug)))) := by
  unfold dedupRows at hok
  dsimp only at hok
  split at hok
  next hsh =>
    injection hok with h2
    injection h2 with hn hS
    subst hS
    constructor
    · intro hlen
      refine ⟨fun sy hsy => Or.inl hsy, ?_⟩
      intro p y y2 hy hy2
      have h3 : y2 = y := nodup_keys_mem_eq hpaths hy2 hy
      rw [h3]
    · intro hlen
      obtain ⟨g, hg, h1, h2⟩ := shared_group_of_two S φ hpaths hlen
      rw [List.isEmpty_iff] at hsh
      rw [hsh] at hg
      exact absurd hg (List.not_mem_nil g)
  next hsh =>
    split at hok
    next e heq => exact Except.noConfusion hok
    next m rows2 heq =>
      injection hok with h2
      injection h2 with hn hS
      subst hS
      dsimp only
      have hmemsh : ∀ g : Yaml × List String × Yaml,
          g ∈ sortBySer ((buildGroups2 (filesOf S)).filter
            (fun g => 2 ≤ g.2.1.length)) ↔
          g ∈ (buildGroups2 (filesOf S)).filter
            (fun g => 2 ≤ g.2.1.length) :=
        fun g => (sortBySer_perm _).mem_iff
      have hWF := G2WF_buildGroups2 (filesOf S)
      have hreps : ∀ g ∈ sortBySer ((buildGroups2 (filesOf S)).filter
          (fun g => 2 ≤ g.2.1.length)), normY g.2.2 = g.1 := by
        intro g hg
        exact hWF.1 g (List.mem_filter.mp ((hmemsh g).mp hg)).1
      have hndsh : (((buildGroups2 (filesOf S)).filter
          (fun g => 2 ≤ g.2.1.length)).map Prod.fst).Nodup :=
        List.Nodup.sublist
          (List.Sublist.map Prod.fst (List.filter_sublist _)) hWF.2
      have hpwsh : ((buildGroups2 (filesOf S)).filter
          (fun g => 2 ≤ g.2.1.length)).Pairwise
            (fun a b => a.1 ≠ b.1) :=
        List.pairwise_map.mp hndsh
      have hpw : (sortBySer ((buildGroups2 (filesOf S)).filter
          (fun g => 2 ≤ g.2.1.length))).Pairwise
            (fun a b => a.1 ≠ b.1) :=
        ((sortBySer_perm _).pairwise_iff (fun h => Ne.symm h)).mpr hpwsh
      obtain ⟨⟨written, hwr, hwprop⟩, P2, P3⟩ :=
        pass2Go_spec _ _ _ _ _ heq (fun s hs => hs) hreps hpw
      constructor
      · intro hlen
        have hnotsh := not_shared_of_one S φ hpaths hlen
        refine ⟨?_, ?_⟩
        · intro sy hsy
          rw [hwr] at hsy
          rcases List.mem_append.mp hsy with h1 | h1
          · exact Or.inl h1
          · obtain ⟨g, hg, hfp⟩ := hwprop sy h1
            refine Or.inr ?_
            rw [hfp]
            exact hnotsh g ((hmemsh g).mp hg)
        · have hnone : lookupFp m φ = none := by
            rcases hl : lookupFp m φ with _ | s
            · rfl
            · obtain ⟨g, hg, hfp⟩ := P2 φ s hl
              exact absurd hfp (hnotsh g ((hmemsh g).mp hg))
          intro p y y2 hy hy2
          have hcond := filesOf_dedup_mem S m
            (affectedPaths ((buildGroups2 (filesOf S)).filter
              (fun g => 2 ≤ g.2.1.length))) rows2 hpaths hy hy2
          by_cases haff : (affectedPaths ((buildGroups2 (filesOf S)).filter
              (fun g => 2 ≤ g.2.1.length))).contains p = true
          · rw [if_pos haff] at hcond
            rw [hcond]
            exact entriesWith_rewriteFile hnone y
          · rw [if_neg haff] at hcond
            rw [hcond]
      · intro hlen
        obtain ⟨g, hgsh, hgfp, hgpaths⟩ :=
          shared_group_of_two S φ hpaths hlen
        have hgtodo : g ∈ sortBySer ((buildGroups2 (filesOf S)).filter
            (fun g => 2 ≤ g.2.1.length)) := (hmemsh g).mpr hgsh
        obtain ⟨slug, crit, hsl, hslmem, hslfp, hslfresh, huniq⟩ :=
          P3 φ ⟨g, hgtodo, hgfp⟩ hrows0
        refine ⟨slug, crit, hslmem, hslfp, hslfresh, huniq, ?_⟩
        intro p y y2 hy hy2 hload i e hi hobj hfp
        rcases hlc : load_rubric_criteria y with _ | cs
        · exact absurd hlc hload
        obtain ⟨fs, xs, hyobj, hcr, hxsne, hcs⟩ := load_shape hlc
        subst hyobj
        have hecrit : e ∈ criteriaOf (Yaml.obj fs) := List.get?_mem hi
        have hecs : e ∈ critsOf (Yaml.obj fs) := by
          unfold critsOf
          rw [hlc]
          show e ∈ cs
          rw [hcs]
          refine List.mem_filter.mpr ⟨?_, hobj⟩
          rw [criteriaOf_obj hcr] at hecrit
          exact hecrit
        have hany : (critsOf (Yaml.obj fs)).any
            (fun c => eqY (normY c) φ) = true := by
          refine List.any_eq_true.mpr ⟨e, hecs, ?_⟩
          rw [hfp]
          exact eqY_refl φ
        have hpdocs : p ∈ docsWith S φ := by
          unfold docsWith filesWith
          refine List.mem_filterMap.mpr ⟨(p, Yaml.obj fs), hy, ?_⟩
          dsimp only
          rw [if_pos hany]
        have hpaff : p ∈ affectedPaths ((buildGroups2 (filesOf S)).filter
            (fun g => 2 ≤ g.2.1.length)) := by
          unfold affectedPaths
          refine List.mem_flatten.mpr ⟨g.2.1, ?_, ?_⟩
          · exact List.mem_map.mpr ⟨g, hgsh, rfl⟩
          · rw [hgpaths]
            exact hpdocs
        have hcond := filesOf_dedup_mem S m
          (affectedPaths ((buildGroups2 (filesOf S)).filter
            (fun g => 2 ≤ g.2.1.length))) rows2 hpaths hy hy2
        rw [if_pos (mem_contains_true hpaff)] at hcond
        rw [hcond]
        exact criteriaOf_get_rewrite hsl hcr hxsne i e hi hobj hfp

/-- A course tree for the row-dedup scope witness: criterion `cX` occurs in
both documents, `cY` in only one, the row store starts empty. -/
def c8S : CourseState :=
  { docs := [("content/a1/rubric.yaml",
        .obj (.cons "criteria" (.arr (.cons cX .nil)) .nil)),
      ("content/a2/rubric.yaml",
        .obj (.cons "criteria" (.arr (.cons cX (.cons cY .nil))) .nil))],
    sharedRubrics := [],
    rows := [] }

/-- The output of `_deduplicate_rows` on `c8S`: one extracted row, both
occurrences of `cX` replaced by the placeholder, `cY` untouched. -/
def c8S' : CourseState :=
  { docs := [("content/a1/rubric.yaml",
        .obj (.cons "criteria"
          (.arr (.cons (.str "\x7b\x7brubric_row:x\x7d\x7d") .nil)) .nil)),
      ("content/a2/rubric.yaml",
        .obj (.cons "criteria"
          (.arr (.cons (.str "\x7b\x7brubric_row:x\x7d\x7d")
            (.cons cY .nil))) .nil))],
    sharedRubrics := [],
    rows := [("x", cX)] }

/-- Witness for C8 at the concrete course tree `c8S`. -/
theorem C8_row_dedup_scope_witness :
    dedupRows c8S = Except.ok (1, c8S') ∧
    ((filesOf c8S).map Prod.fst).Nodup ∧
    (∀ sy ∈ c8S.rows, normY sy.2 ≠ normY cX) ∧
    (((docsWith c8S (normY cX)).length ≤ 1 →
      (∀ sy ∈ c8S'.rows, sy ∈ c8S.rows ∨ normY sy.2 ≠ normY cX) ∧
      (∀ p y y2, (p, y) ∈ filesOf c8S → (p, y2) ∈ filesOf c8S' →
        entriesWith (normY cX) y2 = entriesWith (normY cX) y)) ∧
    (2 ≤ (docsWith c8S (normY cX)).length →
      ∃ slug crit, (slug, crit) ∈ c8S'.rows ∧ normY crit = normY cX ∧
        slug ∉ c8S.rows.map Prod.fst ∧
        (∀ sy ∈ c8S'.rows, normY sy.2 = normY cX → sy = (slug, crit)) ∧
        (∀ p y y2, (p, y) ∈ filesOf c8S → (p, y2) ∈ filesOf c8S' →
          load_rubric_criteria y ≠ none →
          ∀ i e, (criteriaOf y).get? i = some e → isObjY e = true →
            normY e = normY cX →
            (criteriaOf y2).get? i = some (.str (placeholder slug))))) :=
  ⟨rfl, by decide, by decide,
    C8_row_dedup_scope c8S 1 c8S' (normY cX) rfl (by decide) (by decide)⟩

end Zaphod
